import Mathlib

/-!
# Huffman-MPI: a shallow embedding and its verified properties

The development follows the C++ sources `bits.h`, `heap.h`, `huffman.h`, `rle.h`
(and the call sites of `main.cpp`).

Modelling conventions
* A `std::vector<X>` is a `List X`; an iterator range `[begin, end)` is the list
  of the elements it spans.
* A fixed-size (POD) value is seen through its object representation, the
  `sizeof(T)` bytes that `memcpy` copies; a byte is a `Fin 256` (its bit pattern,
  whatever the signedness of `char`).
* `size_t` is 64 bits wide and `int` is 32 bits wide (LP64); narrowing
  conversions wrap modulo `2 ^ 32`.
* `float` weights are a type `W` carrying the comparison and the addition the
  code uses. The weights that occur (`count / total` and sums of them) are finite
  and positive, on which the comparisons of `float` are a linear order; no law
  of the addition is assumed unless a theorem says so.
* A C++ exception, a failed `assert` and undefined behaviour are the values of
  `Failure`, carried by `Except`.
* A byte stream is the list of its bytes. The uninitialised `char current` of
  `operator>>` holds an arbitrary byte, a parameter of the model.
* The processes of an MPI run execute the same function on the same input; the
  embedding gives the value they all return. Message passing is taken to be
  reliable: what `MPI_Send_vector` or `MPI_Send_map` sends, the matching
  `MPI_Receive_vector` or `MPI_Receive_map` returns (the library is not part of the
  sources, and the byte counts handed to it are taken to be within its limits).
-/

set_option linter.dupNamespace false

namespace HuffmanMPI

/-- The ways an operation of the program can fail. -/
inductive Failure where
  /-- Models `std::out_of_range` (heap.h). -/
  | out_of_range
  /-- Models `std::invalid_argument` (huffman.h, `traverse`). -/
  | invalid_argument
  /-- Models `std::range_error` (bits.h, `BitArray::at`). -/
  | range_error
  /-- Models `std::length_error` (rle.h). -/
  | length_error
  /-- A failed `assert` (bits.h, `deserialize`). -/
  | assertion
  /-- Undefined behaviour: a null pointer dereferenced, an iterator moved
  outside its container. -/
  | undefined
  /-- The iteration bound of the merge loop of the embedding is used up. The
  constructor of `Tree` never returns it (`Tree_never_exhausts`). -/
  | exhausted
  deriving DecidableEq, Repr

deriving instance DecidableEq for Except

/-- A byte of an object representation, as its bit pattern. -/
abbrev Byte := Fin 256

/-! ## bits.h -/

namespace Bits

/-- The inner loop of `serialize`, `while (index-- > 0) result.push_back(buffer[offset] & (1 << index))`:
called with `index = 8` it pushes the bits 7, 6, ..., 0 of the byte. -/
def serializeByte (byte : Byte) : Nat → List Bool → List Bool
  | 0, result => result
  | index + 1, result =>
    serializeByte byte index (result ++ [byte.val &&& (1 <<< index) != 0])

/-- The loops of `serialize` over the bytes of `buffer`: for each byte, most significant bit first. -/
def serializeBytes (buffer : List Byte) : List Bool :=
  buffer.foldl (fun result byte => serializeByte byte 8 result) []

/-- One iteration of the loop of `deserialize`:
`if (bit) buffer[index / 8] |= 1 << (7 - (index % 8)); index++`.
The result of `|=` is stored back into a `char`, hence the `% 256`. -/
def deserializeStep (state : List Byte × Nat) (bit : Bool) : List Byte × Nat :=
  let buffer := state.1
  let index := state.2
  (if bit then
      buffer.modify (fun byte => ⟨(byte.val ||| (1 <<< (7 - index % 8))) % 256, Nat.mod_lt _ (by decide)⟩)
        (index / 8)
    else buffer,
   index + 1)

/-- The buffer `deserialize` fills: `memset(buffer, 0, sizeof(T))`, then the loop over `bits`. -/
def deserializeBuffer (sizeofT : Nat) (bits : List Bool) : List Byte :=
  (bits.foldl deserializeStep (List.replicate sizeofT 0, 0)).1

/-- A trivially copyable type (the sources `static_assert` `std::is_pod`): a value
of `sizeof` bytes that `memcpy` copies out (`bytes`) and back in (`ofBytes`) without loss. -/
class Pod (α : Type) where
  /-- Models `sizeof(T)`. -/
  sizeof : Nat
  /-- The object representation, `memcpy(buffer, &object, sizeof(T))`. -/
  bytes : α → List Byte
  /-- The value of an object representation, `memcpy(&object, buffer, sizeof(T))`. -/
  ofBytes : List Byte → α
  /-- An object representation has `sizeof(T)` bytes. -/
  bytes_length : ∀ v : α, (bytes v).length = sizeof
  /-- Copying a value out and back in gives the value. -/
  ofBytes_bytes : ∀ v : α, ofBytes (bytes v) = v

/-- The type `char`, one byte. -/
instance : Pod Byte where
  sizeof := 1
  bytes := fun c => [c]
  ofBytes := fun buffer => buffer.headD 0
  bytes_length := fun _ => rfl
  ofBytes_bytes := fun _ => rfl

/-- The type `size_t`: 64 bits. -/
abbrev SizeT := Fin (2 ^ 64)

/-- The conversion to `size_t`, modulo `2 ^ 64`. -/
def toSizeT (n : Nat) : SizeT := ⟨n % 2 ^ 64, Nat.mod_lt _ (Nat.two_pow_pos 64)⟩

/-- The type `size_t`, eight bytes, least significant first. -/
instance : Pod SizeT where
  sizeof := 8
  bytes := fun n =>
    [Fin.ofNat n.val, Fin.ofNat (n.val / 2 ^ 8), Fin.ofNat (n.val / 2 ^ 16),
     Fin.ofNat (n.val / 2 ^ 24), Fin.ofNat (n.val / 2 ^ 32), Fin.ofNat (n.val / 2 ^ 40),
     Fin.ofNat (n.val / 2 ^ 48), Fin.ofNat (n.val / 2 ^ 56)]
  ofBytes := fun buffer =>
    Fin.ofNat
      ((buffer.getD 0 0).val + 2 ^ 8 * (buffer.getD 1 0).val + 2 ^ 16 * (buffer.getD 2 0).val
        + 2 ^ 24 * (buffer.getD 3 0).val + 2 ^ 32 * (buffer.getD 4 0).val
        + 2 ^ 40 * (buffer.getD 5 0).val + 2 ^ 48 * (buffer.getD 6 0).val
        + 2 ^ 56 * (buffer.getD 7 0).val)
  bytes_length := fun _ => rfl
  ofBytes_bytes := fun n => by
    apply Fin.ext
    have h := n.isLt
    simp only [Fin.ofNat, List.getD_cons_zero, List.getD_cons_succ, Nat.reducePow] at h ⊢
    omega

/-- Models `Bits::serialize<T>`: the bits of the object representation of `object`. -/
def serialize {α : Type} [Pod α] (object : α) : List Bool :=
  serializeBytes (Pod.bytes object)

/-- Models `Bits::deserialize<T>`: the `assert` on the length, the buffer filled from
`bits`, and the value read from it (`memcpy(&deserialized, buffer, sizeof(T))`). -/
def deserialize {α : Type} [Pod α] (bits : List Bool) : Except Failure α :=
  if bits.length / 8 = Pod.sizeof α ∧ bits.length % 8 = 0 then
    .ok (Pod.ofBytes (deserializeBuffer (Pod.sizeof α) bits))
  else
    .error .assertion

/-- Models `Bits::BitArray`: the number of bits `length` and the packed bytes `data`. -/
structure BitArray where
  /-- The field `length`, the exact number of bits. -/
  length : Nat
  /-- The field `data`, eight bits a byte. -/
  data : List Byte
  deriving DecidableEq

namespace BitArray

/-- One iteration of the loop of the constructor, on the state `(data, current, count)`:
`count++; if (value) current |= 1 << (8 - count);
if (count == 8) { data.push_back(current); current = 0; count = 0; }`.
The result of `|=` is stored back into a `uint8_t`, hence the `% 256`. -/
def packStep (state : List Byte × Byte × Nat) (value : Bool) : List Byte × Byte × Nat :=
  let data := state.1
  let current := state.2.1
  let count := state.2.2 + 1
  let current : Byte :=
    if value then ⟨(current.val ||| (1 <<< (8 - count))) % 256, Nat.mod_lt _ (by decide)⟩
    else current
  if count = 8 then (data ++ [current], 0, 0) else (data, current, count)

/-- Models the constructor `BitArray(const std::vector<bool> &sequence)`: the length, the
loop over the sequence, and the last, incomplete byte (`if (count != 0) data.push_back(current)`). -/
def BitArray (sequence : List Bool) : Bits.BitArray :=
  let state := sequence.foldl packStep ([], 0, 0)
  ⟨sequence.length, if state.2.2 ≠ 0 then state.1 ++ [state.2.1] else state.1⟩

/-- Models `BitArray::at`: the range check, then `data[index / 8] & 1 << (7 - index % 8)`;
indexing `data` past its end is undefined behaviour. -/
def «at» (bits : Bits.BitArray) (index : Nat) : Except Failure Bool :=
  if index ≥ bits.length then .error .range_error
  else
    match bits.data[index / 8]? with
    | none => .error .undefined
    | some byte => .ok (byte.val &&& (1 <<< (7 - index % 8)) != 0)

/-- Models `BitArray::vectorize`: `at(index)` for `index` from 0 to `length - 1`, in order. -/
def vectorize (bits : Bits.BitArray) : Except Failure (List Bool) :=
  (List.range bits.length).foldlM (fun result index => do
    let bit ← bits.at index
    pure (result ++ [bit])) []

/-- Models `BitArray::size`. -/
def size (bits : Bits.BitArray) : Nat := bits.length

/-- Models `operator<<`, as the bytes it writes to the stream: the `sizeof(size_t)`
bytes of `length` (`memcpy`, then `output.write`), then each byte of `data`. -/
def writeTo (bits : Bits.BitArray) : List Byte :=
  Pod.bytes (toSizeT bits.length) ++ bits.data

/-- The loop `while (input) { input.get(current); bits.data.push_back(current); }` of
`operator>>`, on the bytes left in the stream. At the end of the stream `get` fails and
leaves `current` as it was; the byte is pushed all the same, and the loop ends. -/
def readLoop : List Byte → Byte → List Byte → List Byte
  | [], current, data => data ++ [current]
  | byte :: input, _, data => readLoop input byte (data ++ [byte])

/-- Models `operator>>` on a stream that holds the bytes `input`; `current` is the value
the uninitialised variable `char current` happens to hold. With fewer than
`sizeof(size_t)` bytes `input.read` fills only part of the buffer and `length` is read
from uninitialised memory. -/
def readFrom (input : List Byte) (current : Byte) : Except Failure Bits.BitArray :=
  if input.length < 8 then .error .undefined
  else .ok ⟨(Pod.ofBytes (input.take 8) : SizeT).val, readLoop (input.drop 8) current []⟩

end BitArray

end Bits

/-! ## std::map -/

/-- A `std::map<K, V>`: its entries, in the order iteration visits them. A map of the
program holds its keys in strictly ascending order (`Map.WF`). -/
abbrev Map (K V : Type) := List (K × V)

namespace Map

variable {K V : Type} [LinearOrder K]

/-- The keys of a `std::map` are strictly ascending. -/
def WF (m : Map K V) : Prop := m.Pairwise (fun a b => a.1 < b.1)

/-- Models `m.find(key)`: the mapped value, `none` for `m.end()`. A `std::map` takes
two keys for the same when neither is less than the other; the keys are linearly
ordered, so these are the equal keys. -/
def find : Map K V → K → Option V
  | [], _ => none
  | (k, v) :: rest, key => if k = key then some v else find rest key

/-- Models the assignment `m[key] = value`: the entry is inserted at its place in key
order, or its value replaced. -/
def set : Map K V → K → V → Map K V
  | [], key, value => [(key, value)]
  | (k, v) :: rest, key, value =>
    if key < k then (key, value) :: (k, v) :: rest
    else if k < key then (k, v) :: set rest key value
    else (k, value) :: rest

/-- Models the read `m[key]` on a non-const map, with `fallback` the value-initialised
`V`: a missing key is inserted with that value. Returns the value and the map afterwards. -/
def index (m : Map K V) (key : K) (fallback : V) : V × Map K V :=
  match m.find key with
  | some v => (v, m)
  | none => (fallback, m.set key fallback)

end Map

/-! ## heap.h -/

namespace Heap

/-- Models `Heap::MinHeap<T>`: the vector `pool`. -/
structure MinHeap (α : Type) where
  /-- The elements, in heap layout. -/
  pool : List α
  deriving DecidableEq

namespace MinHeap

variable {α : Type} [Preorder α] [DecidableRel ((· < ·) : α → α → Prop)]
  [DecidableRel ((· ≤ ·) : α → α → Prop)]

/-- Models `MinHeap::at`. -/
def «at» (heap : MinHeap α) (index : Nat) : Except Failure α :=
  if h : index < heap.pool.length then .ok heap.pool[index] else .error .out_of_range

/-- Models `MinHeap::size`. -/
def size (heap : MinHeap α) : Nat := heap.pool.length

/-- Models `std::swap(this->at(i), this->at(j))`. -/
def swap (heap : MinHeap α) (i j : Nat) : Except Failure (MinHeap α) := do
  let a ← heap.at i
  let b ← heap.at j
  pure ⟨(heap.pool.set i b).set j a⟩

/-- The recursion of `MinHeap::float_`, at most `fuel` calls deep. -/
def floatLoop : Nat → MinHeap α → Nat → Except Failure (MinHeap α)
  | 0, heap, _ => pure heap
  | fuel + 1, heap, index =>
    if index = 0 then pure heap
    else do
      let current := index
      let father := (index - 1) / 2
      let c ← heap.at current
      let f ← heap.at father
      if c < f then do
        let heap ← heap.swap current father
        floatLoop fuel heap father
      else pure heap

/-- Models `MinHeap::float_`. The index at least halves at each call and the call at
index 0 returns, so `index` calls are enough (`float__unfold`). -/
def float_ (heap : MinHeap α) (index : Nat) : Except Failure (MinHeap α) :=
  floatLoop index heap index

/-- The recursion of `MinHeap::sink`, at most `fuel` calls deep. -/
def sinkLoop : Nat → MinHeap α → Nat → Except Failure (MinHeap α)
  | 0, heap, _ => pure heap
  | fuel + 1, heap, index =>
    let current := index
    let left := index * 2 + 1
    let right := left + 1
    let right := if right ≥ heap.pool.length then left else right
    if left ≥ heap.pool.length then pure heap
    else do
      let l ← heap.at left
      let r ← heap.at right
      let minimal := if l ≤ r then left else right
      let m ← heap.at minimal
      let c ← heap.at current
      if m < c then do
        let heap ← heap.swap minimal current
        sinkLoop fuel heap minimal
      else pure heap

/-- Models `MinHeap::sink`. The index grows at each call and a call at an index with
no child returns, so `size() - index` calls are enough (`sink_unfold`). -/
def sink (heap : MinHeap α) (index : Nat) : Except Failure (MinHeap α) :=
  sinkLoop (heap.pool.length - index) heap index

/-- Models `MinHeap::append`. -/
def append (heap : MinHeap α) (element : α) : Except Failure (MinHeap α) :=
  let heap : MinHeap α := ⟨heap.pool ++ [element]⟩
  heap.float_ (heap.pool.length - 1)

/-- Models `MinHeap::pop`: the element returned and the heap afterwards. -/
def pop (heap : MinHeap α) : Except Failure (α × MinHeap α) :=
  if heap.pool.length = 0 then .error .out_of_range
  else do
    let heap ← heap.swap 0 (heap.pool.length - 1)
    match heap.pool.getLast? with
    | none => .error .undefined
    | some element =>
      let heap : MinHeap α := ⟨heap.pool.dropLast⟩
      let heap ← heap.sink 0
      pure (element, heap)

end MinHeap

end Heap

/-! ## huffman.h -/

namespace Huffman

/-- Models `Huffman::Node<T>`. A node is made by one of the two constructors of the
class: `Node(d, p)`, which leaves both child pointers null (`leaf`), or `Node(a, b)`,
which sets both (`inner`, built by `Node.merge`). `probability` is the stored field. -/
inductive Node (T W : Type) where
  /-- The node `Node(d, p)`. -/
  | leaf (data : T) (probability : W)
  /-- A node with children `left` and `right`; its `data` is never read. -/
  | inner (probability : W) (left right : Node T W)
  deriving DecidableEq

namespace Node

variable {T W : Type}

/-- The field `probability`. -/
def probability : Node T W → W
  | leaf _ p => p
  | inner p _ _ => p

/-- The field `left`, `none` for `nullptr`. -/
def left : Node T W → Option (Node T W)
  | leaf _ _ => none
  | inner _ l _ => some l

/-- The field `right`, `none` for `nullptr`. -/
def right : Node T W → Option (Node T W)
  | leaf _ _ => none
  | inner _ _ r => some r

/-- Models `Node::leaf()`. -/
def isLeaf : Node T W → Bool
  | leaf _ _ => true
  | inner _ _ _ => false

/-- The number of nodes of the tree below (and including) a node. -/
def count : Node T W → Nat
  | leaf _ _ => 1
  | inner _ l r => 1 + l.count + r.count

/-- Models the constructor `Node(Self *a, Self *b)`. -/
def merge [LinearOrder W] [Add W] (a b : Node T W) : Node T W :=
  if a.probability ≤ b.probability then
    inner (a.probability + b.probability) a b
  else
    inner (a.probability + b.probability) b a

/-- The comparators `operator<` and `operator<=` of `Node`: by `probability`. -/
instance [LinearOrder W] : Preorder (Node T W) := Preorder.lift probability

instance [LinearOrder W] : DecidableRel ((· < ·) : Node T W → Node T W → Prop) :=
  fun a b => inferInstanceAs (Decidable (a.probability < b.probability))

instance [LinearOrder W] : DecidableRel ((· ≤ ·) : Node T W → Node T W → Prop) :=
  fun a b => inferInstanceAs (Decidable (a.probability ≤ b.probability))

end Node

/-- Models `Huffman::Tree<T>`: the pointer `root` (`none` for `nullptr`) and the
vector `nodes` of the nodes the tree owns. -/
structure Tree (T W : Type) where
  /-- The root node. -/
  root : Option (Node T W)
  /-- The nodes allocated by the constructor, in allocation order. -/
  nodes : List (Node T W)
  deriving DecidableEq

namespace Tree

open Heap

variable {T W : Type} [LinearOrder T] [LinearOrder W] [Add W]

/-- The body of the loop of the constructor: the two `pop`s, the two `push_back`s and
the `append` of the merged node. -/
def mergeStep (heap : MinHeap (Node T W)) (nodes : List (Node T W)) :
    Except Failure (MinHeap (Node T W) × List (Node T W)) := do
  let (first, heap) ← heap.pop
  let (second, heap) ← heap.pop
  let nodes := nodes ++ [first, second]
  let heap ← heap.append (Node.merge first second)
  pure (heap, nodes)

/-- The loop `while (heap.size() != 1)` of the constructor, at most `fuel` iterations. -/
def mergeLoop : Nat → MinHeap (Node T W) → List (Node T W) →
    Except Failure (MinHeap (Node T W) × List (Node T W))
  | 0, _, _ => .error .exhausted
  | fuel + 1, heap, nodes =>
    if heap.size ≠ 1 then do
      let (heap, nodes) ← mergeStep heap nodes
      mergeLoop fuel heap nodes
    else pure (heap, nodes)

/-- The first loop of the constructor: one leaf appended to the heap per entry of `dict`. -/
def leafHeap (dict : Map T W) : Except Failure (MinHeap (Node T W)) :=
  dict.foldlM (fun (heap : MinHeap (Node T W)) kv => heap.append (Node.leaf kv.1 kv.2)) ⟨[]⟩

/-- Models the constructor `Tree(const std::map<T, float> &dict)`. Each iteration of
the loop takes one element off the heap, so `heap.size() + 1` iterations are enough. -/
def Tree (dict : Map T W) : Except Failure (Tree T W) := do
  let heap ← leafHeap dict
  let (heap, nodes) ← mergeLoop (heap.size + 1) heap []
  let (root, _) ← heap.pop
  pure ⟨some root, nodes ++ [root]⟩

/-- The loop `while (!unvisited.empty())` of `traverse`, at most `fuel` iterations.
The vector `unvisited` is used as a stack: its back is the head of the list. -/
def traverseLoop : Nat → List (Node T W × List Bool) → Map T (List Bool) → Map T (List Bool)
  | 0, _, result => result
  | _ + 1, [], result => result
  | fuel + 1, (node, bits) :: unvisited, result =>
    match node with
    | .leaf data _ => traverseLoop fuel unvisited (result.set data bits)
    | .inner _ left right =>
      traverseLoop fuel ((right, bits ++ [false]) :: (left, bits ++ [true]) :: unvisited) result

/-- Models `Tree::traverse`, with `Left = true` and `Right = false`. Each iteration
visits one node of the tree, so `root.count` iterations empty the stack. -/
def traverse (tree : Huffman.Tree T W) : Except Failure (Map T (List Bool)) :=
  match tree.root with
  | none => .error .invalid_argument
  | some root => .ok (traverseLoop root.count [(root, [])] [])

end Tree

/-- The body of the loop of `statistic`:
`if (stats.find(item) == stats.end()) stats[item] = 1; else stats[item] += 1`. -/
def countItem {T : Type} [LinearOrder T] (stats : Map T Nat) (item : T) : Map T Nat :=
  match stats.find item with
  | none => stats.set item 1
  | some n => stats.set item (n + 1)

/-- Models `Huffman::statistic`. A count is at most the number of elements of the
range, so the `size_t` additions do not wrap. -/
def statistic {T : Type} [LinearOrder T] (range : List T) : Map T Nat :=
  range.foldl countItem []

/-- Models `static_cast<int>(n)` for a `size_t n`: the low 32 bits, read as a signed number. -/
def toInt (n : Nat) : Int :=
  if n % 2 ^ 32 < 2 ^ 31 then ((n % 2 ^ 32 : Nat) : Int) else ((n % 2 ^ 32 : Nat) : Int) - 2 ^ 32

/-- The slice of a range of `n` elements that rank `world_rank` of `world_size` takes in
`MPI_Statistic` and `MPI_Encode`, as the offsets of `start` and `stop` from `begin`:
`offset = static_cast<int>(n) / world_size`, `start = begin + world_rank * offset`,
`stop = (world_rank == world_size - 1) ? end : start + offset`. The division of `int`
truncates; the product is at most `offset * world_size` in magnitude and does not wrap. -/
def slice (n : Nat) (world_size world_rank : Nat) : Int × Int :=
  let offset : Int := (toInt n).tdiv (world_size : Int)
  let start : Int := (world_rank : Int) * offset
  let stop : Int := if (world_rank : Int) = (world_size : Int) - 1 then (n : Int) else start + offset
  (start, stop)

/-- The elements between the iterators `begin + bounds.1` and `begin + bounds.2` of a
container holding `data`. Iterators outside the container, or a `stop` before `start`
(the loops run `while (begin != end)`), are undefined behaviour. -/
def subrange {T : Type} (data : List T) (bounds : Int × Int) : Except Failure (List T) :=
  if 0 ≤ bounds.1 ∧ bounds.1 ≤ bounds.2 ∧ bounds.2 ≤ (data.length : Int) then
    .ok ((data.drop bounds.1.toNat).take (bounds.2 - bounds.1).toNat)
  else .error .undefined

/-- The body of the loop `for (const auto &[key, value]: received)` of `MPI_Statistic`:
`if (part.find(key) == part.end()) part[key] = value; else part[key] += value`. -/
def mergeEntry {T : Type} [LinearOrder T] (part : Map T Nat) (entry : T × Nat) : Map T Nat :=
  match part.find entry.1 with
  | none => part.set entry.1 entry.2
  | some n => part.set entry.1 (n + entry.2)

/-- The merge of a received partial count into `part` in `MPI_Statistic`. -/
def mergeReceived {T : Type} [LinearOrder T] (part received : Map T Nat) : Map T Nat :=
  received.foldl mergeEntry part

/-- Models `Huffman::MPI_Statistic` run by `world_size` processes on the same range:
the map every rank returns. Rank `r` counts its slice; rank 0 merges what the ranks
`1, ..., world_size - 1` send, in that order, and sends the result to all.
`MPI_Send_map` and `MPI_Receive_map` deliver a map unchanged. -/
def MPI_Statistic {T : Type} [LinearOrder T] (world_size : Nat) (data : List T) :
    Except Failure (Map T Nat) := do
  let part ← statistic <$> subrange data (slice data.length world_size 0)
  (List.range' 1 (world_size - 1)).foldlM (fun part source => do
    let received ← statistic <$> subrange data (slice data.length world_size source)
    pure (mergeReceived part received)) part

/-- Models `Huffman::Encoder<T>`. -/
structure Encoder (T W : Type) where
  /-- The field `frequency`. -/
  frequency : Map T W
  /-- The field `data`. -/
  data : List T
  /-- The tree `*tree`. -/
  tree : Tree T W
  deriving DecidableEq

namespace Encoder

variable {T W : Type} [LinearOrder T] [LinearOrder W] [Add W]

/-- Models the constructor `Encoder(begin, end, mpi)`, in a world of `world_size`
processes (used when `mpi` is set). The weight of a symbol is
`static_cast<float>(count) / static_cast<float>(data.size())`. -/
def Encoder [NatCast W] [Div W] (world_size : Nat) (data : List T) (mpi : Bool) :
    Except Failure (Encoder T W) := do
  let stats ← (if !mpi then pure (statistic data) else MPI_Statistic world_size data)
  let total : W := (data.length : W)
  let frequency : Map T W :=
    stats.foldl (fun frequency pair => frequency.set pair.1 ((pair.2 : W) / total)) []
  let tree ← Tree.Tree frequency
  pure ⟨frequency, data, tree⟩

/-- Models `Encoder::dict`. -/
def dict [Bits.Pod T] [Bits.Pod W] (encoder : Huffman.Encoder T W) : List Bool :=
  let count : Bits.SizeT := Bits.toSizeT encoder.frequency.length
  let encoded := Bits.serialize count
  encoder.frequency.foldl (fun encoded pair =>
    encoded ++ Bits.serialize pair.1 ++ Bits.serialize pair.2) encoded

/-- The loop of `Encoder::encode(begin, end)`. The code table `dict` is a local,
non-const map read with `operator[]`. -/
def encodeLoop (dict : Map T (List Bool)) : List T → List Bool → List Bool
  | [], encoded => encoded
  | item :: rest, encoded =>
    let (code, dict) := dict.index item []
    encodeLoop dict rest (encoded ++ code)

/-- Models `Encoder::encode(begin, end)` on the range holding `range`. -/
def encode (encoder : Huffman.Encoder T W) (range : List T) : Except Failure (List Bool) := do
  let dict ← encoder.tree.traverse
  pure (encodeLoop dict range [])

/-- Models `Encoder::encode()`: the data the encoder was built from. -/
def encodeData (encoder : Huffman.Encoder T W) : Except Failure (List Bool) :=
  encoder.encode encoder.data

/-- One iteration of the loop of `price`:
`result += this->frequency.at(pair.first) * pair.second.size()`;
`std::map::at` throws `std::out_of_range` for a key the map does not hold. -/
def priceStep [Mul W] [NatCast W] (frequency : Map T W) (result : W) (pair : T × List Bool) :
    Except Failure W :=
  match frequency.find pair.1 with
  | none => .error .out_of_range
  | some probability => pure (result + probability * (pair.2.length : W))

/-- Models `Encoder::price`: the loop over the code table, from `result = 0.`. -/
def price [Zero W] [Mul W] [NatCast W] (encoder : Huffman.Encoder T W) : Except Failure W := do
  let table ← encoder.tree.traverse
  table.foldlM (priceStep encoder.frequency) 0

/-- Models `Encoder::MPI_Encode` run by `world_size` processes on the same range: the
bits every rank returns. Rank `r` encodes its slice; rank 0 appends what the ranks
`1, ..., world_size - 1` send, in that order, and sends the result to all.
`MPI_Send_vector` and `MPI_Receive_vector` deliver the bits unchanged. -/
def MPI_Encode (encoder : Huffman.Encoder T W) (world_size : Nat) (range : List T) :
    Except Failure (List Bool) := do
  let part ← (subrange range (slice range.length world_size 0)) >>= encoder.encode
  (List.range' 1 (world_size - 1)).foldlM (fun encoded source => do
    let received ← (subrange range (slice range.length world_size source)) >>= encoder.encode
    pure (encoded ++ received)) part

end Encoder

/-- Models `Huffman::Decoder<T>`. -/
structure Decoder (T W : Type) where
  /-- The tree `*tree`. -/
  tree : Tree T W
  /-- The field `frequency`. -/
  frequency : Map T W
  /-- The field `data`, the payload bits. -/
  data : List Bool
  deriving DecidableEq

namespace Decoder

variable {T W : Type} [LinearOrder T] [LinearOrder W] [Add W]

/-- Models `part.assign(iterator, iterator + count); iterator += count`: the bits read
and the bits left. Moving the iterator past the end is undefined behaviour. -/
def read (count : Nat) (bits : List Bool) : Except Failure (List Bool × List Bool) :=
  if count ≤ bits.length then .ok (bits.take count, bits.drop count) else .error .undefined

/-- The loop `for (size_t index = 0; index < count; ++index)` of the constructor:
the frequency table read and the bits left. -/
def readFrequency [Bits.Pod T] [Bits.Pod W] :
    Nat → Map T W → List Bool → Except Failure (Map T W × List Bool)
  | 0, frequency, bits => pure (frequency, bits)
  | count + 1, frequency, bits => do
    let (part, bits) ← read (Bits.Pod.sizeof T * 8) bits
    let key : T ← Bits.deserialize part
    let (part, bits) ← read (Bits.Pod.sizeof W * 8) bits
    let value : W ← Bits.deserialize part
    readFrequency count (frequency.set key value) bits

/-- Models the constructor `Decoder(const std::vector<bool> &bits)`. -/
def Decoder [Bits.Pod T] [Bits.Pod W] (bits : List Bool) : Except Failure (Decoder T W) := do
  let (part, bits) ← read (Bits.Pod.sizeof Bits.SizeT * 8) bits
  let count : Bits.SizeT ← Bits.deserialize part
  let (frequency, bits) ← readFrequency count.val [] bits
  let tree ← Tree.Tree frequency
  pure ⟨tree, frequency, bits⟩

/-- The loop of `Decoder::decode(bits, inserter)`: `current` is the node the walk is
at, `decoded` the symbols given to the inserter so far. Following a null child pointer
makes `current->leaf()` dereference null. -/
def decodeLoop (root : Node T W) : Node T W → List Bool → List T → Except Failure (List T)
  | _, [], decoded => pure decoded
  | current, bit :: bits, decoded =>
    match (if bit then current.left else current.right) with
    | none => .error .undefined
    | some (.leaf data _) => decodeLoop root root bits (decoded ++ [data])
    | some (.inner p l r) => decodeLoop root (.inner p l r) bits decoded

/-- Models `Decoder::decode(bits, inserter)`: the symbols inserted. -/
def decodeBits (decoder : Huffman.Decoder T W) (bits : List Bool) : Except Failure (List T) :=
  match decoder.tree.root with
  | none => if bits = [] then pure [] else .error .undefined
  | some root => decodeLoop root root bits []

/-- Models `Decoder::decode(inserter)`: the field `data` decoded. -/
def decode (decoder : Huffman.Decoder T W) : Except Failure (List T) :=
  decoder.decodeBits decoder.data

end Decoder

/-- A 32-bit weight type on which the development can be run: fixed-point numbers
with 16 fractional bits, stored as four bytes, least significant first. It stands in
for `float` in the examples; the theorems hold for every weight type. -/
structure Fixed32 where
  /-- The number, scaled by `2 ^ 16`. -/
  raw : Fin (2 ^ 32)
  deriving DecidableEq

namespace Fixed32

instance : LinearOrder Fixed32 :=
  LinearOrder.lift' Fixed32.raw (fun a b h => by cases a; cases b; simp_all)

instance : Add Fixed32 := ⟨fun a b => ⟨⟨(a.raw.val + b.raw.val) % 2 ^ 32, Nat.mod_lt _ (Nat.two_pow_pos 32)⟩⟩⟩

instance : NatCast Fixed32 := ⟨fun n => ⟨⟨(n * 2 ^ 16) % 2 ^ 32, Nat.mod_lt _ (Nat.two_pow_pos 32)⟩⟩⟩

instance : Div Fixed32 :=
  ⟨fun a b => ⟨⟨(a.raw.val * 2 ^ 16 / b.raw.val) % 2 ^ 32, Nat.mod_lt _ (Nat.two_pow_pos 32)⟩⟩⟩

instance : Bits.Pod Fixed32 where
  sizeof := 4
  bytes := fun w =>
    [Fin.ofNat w.raw.val, Fin.ofNat (w.raw.val / 2 ^ 8), Fin.ofNat (w.raw.val / 2 ^ 16),
     Fin.ofNat (w.raw.val / 2 ^ 24)]
  ofBytes := fun buffer =>
    ⟨⟨((buffer.getD 0 0).val + 2 ^ 8 * (buffer.getD 1 0).val + 2 ^ 16 * (buffer.getD 2 0).val
        + 2 ^ 24 * (buffer.getD 3 0).val) % 2 ^ 32, Nat.mod_lt _ (Nat.two_pow_pos 32)⟩⟩
  bytes_length := fun _ => rfl
  ofBytes_bytes := fun w => by
    obtain ⟨⟨n, h⟩⟩ := w
    simp only [Fin.ofNat, List.getD_cons_zero, List.getD_cons_succ, Nat.reducePow, Fixed32.mk.injEq,
      Fin.mk.injEq] at h ⊢
    omega

end Fixed32

/-- The Huffman part of `main`: an encoder is built from `source`, the dictionary and
the payload (`MPI_Encode` when `mpi` is set, `encode()` otherwise) are concatenated,
and a decoder built from the result decodes its payload. Returns `decoded`. -/
def roundTrip {T W : Type} [LinearOrder T] [LinearOrder W] [Add W] [NatCast W] [Div W]
    [Bits.Pod T] [Bits.Pod W] (world_size : Nat) (source : List T) (mpi : Bool) :
    Except Failure (List T) := do
  let encoder : Encoder T W ← Encoder.Encoder world_size source mpi
  let dict := encoder.dict
  let content ← (if mpi then encoder.MPI_Encode world_size source else encoder.encodeData)
  let encoded := dict ++ content
  let decoder : Decoder T W ← Decoder.Decoder encoded
  decoder.decode

end Huffman

/-! ## rle.h -/

namespace RLE

/-- The loop `while (begin != end)` of `RLE::encode` on the elements from `begin` to
`end`, with the state `count`, `previous` and the bytes given to the inserter so far, at
most `fuel` iterations; after the loop, `inserter = count; inserter = previous`. -/
def encodeLoop : Nat → List Byte → Byte → Byte → List Byte → Except Failure (List Byte)
  | _, [], count, previous, output => pure (output ++ [count, previous])
  | 0, _ :: _, _, _, _ => .error .exhausted
  | fuel + 1, current :: rest, count, previous, output =>
    if current = previous ∧ count.val < 255 then
      encodeLoop fuel rest ⟨(count.val + 1) % 256, Nat.mod_lt _ (by decide)⟩ previous output
    else
      encodeLoop fuel (current :: rest) 0 current (output ++ [count, previous])

/-- Models `RLE::encode` on a range of bytes (a `std::string` in `main`), as the bytes
given to the inserter. `auto previous = *begin` dereferences `end` on an empty range.
An iteration that takes no element is followed by one that does, so
`2 * size + 1` iterations are enough (`encodeLoop_spec`). -/
def encode (range : List Byte) : Except Failure (List Byte) :=
  match range with
  | [] => .error .undefined
  | first :: _ => encodeLoop (2 * range.length + 1) range 0 first []

/-- The loop of `RLE::decode`: `count = (uint8_t) *begin; begin++;`
`for (uint8_t _ = 0; _ < count; ++_) inserter = *begin; begin++`. On an odd number of
bytes the last `*begin` would read past the end. -/
def decodeLoop : List Byte → List Byte → Except Failure (List Byte)
  | [], output => pure output
  | [_], _ => .error .undefined
  | count :: item :: rest, output => decodeLoop rest (output ++ List.replicate count.val item)

/-- Models `RLE::decode`, as the bytes given to the inserter: the check of the size,
then the loop. -/
def decode (range : List Byte) : Except Failure (List Byte) :=
  if range.length % 2 ≠ 0 then .error .length_error else decodeLoop range []

end RLE

/-! ## Predicates of the specification -/

namespace Bits.BitArray

/-- The state of the constructor's loop after the bits `s`: `count` bits are pending
in `current`, the complete bytes are in `data`, every bit is where `at` looks for it and
the bits not yet written are 0. -/
structure PackInv (s : List Bool) (state : List Byte × Byte × Nat) : Prop where
  /-- The number of pending bits. -/
  count_eq : state.2.2 = s.length % 8
  /-- The number of complete bytes. -/
  length_eq : state.1.length = s.length / 8
  /-- The bits of the complete bytes. -/
  data_bit : ∀ k j, k < state.1.length → j < 8 →
    (state.1.getD k 0).val.testBit (7 - j) = s.getD (8 * k + j) false
  /-- The bits of the byte being filled. -/
  current_bit : ∀ j, j < 8 →
    state.2.1.val.testBit (7 - j) = s.getD (8 * (s.length / 8) + j) false

end Bits.BitArray

namespace Heap

variable {α : Type} [Preorder α]

/-- Min-heap order of a pool: `pool[(i - 1) / 2] ≤ pool[i]` for every index `0 < i < size()`. -/
def IsHeap (pool : List α) : Prop :=
  ∀ i a b, 0 < i → pool[i]? = some a → pool[(i - 1) / 2]? = some b → b ≤ a

/-- Heap order everywhere but below `index`: every element whose father is not at
`index` is at least its father, and the children of `index` are at least the father
of `index`. The state `sink(index)` starts from. -/
def SinkInv (pool : List α) (index : Nat) : Prop :=
  (∀ k a b, 0 < k → (k - 1) / 2 ≠ index → pool[k]? = some a → pool[(k - 1) / 2]? = some b → b ≤ a) ∧
  (∀ k a b, 0 < index → 0 < k → (k - 1) / 2 = index → pool[k]? = some a →
    pool[(index - 1) / 2]? = some b → b ≤ a)

/-- Heap order everywhere but above `index`: every element other than the one at
`index` is at least its father, and the children of `index` are at least the father
of `index`. The state `float_(index)` starts from. -/
def FloatInv (pool : List α) (index : Nat) : Prop :=
  (∀ k a b, 0 < k → k ≠ index → pool[k]? = some a → pool[(k - 1) / 2]? = some b → b ≤ a) ∧
  (∀ k a b, 0 < index → 0 < k → (k - 1) / 2 = index → pool[k]? = some a →
    pool[(index - 1) / 2]? = some b → b ≤ a)

/-- The heaps a program can hold: the empty heap a `MinHeap` starts as, and what a call
of `append` or of `pop` that returns leaves. -/
inductive MinHeap.Reachable [DecidableRel ((· < ·) : α → α → Prop)]
    [DecidableRel ((· ≤ ·) : α → α → Prop)] : MinHeap α → Prop
  | empty : MinHeap.Reachable ⟨[]⟩
  | append (heap heap' : MinHeap α) (element : α) :
    MinHeap.Reachable heap → heap.append element = .ok heap' → MinHeap.Reachable heap'
  | pop (heap heap' : MinHeap α) (element : α) :
    MinHeap.Reachable heap → heap.pop = .ok (element, heap') → MinHeap.Reachable heap'

end Heap

namespace Huffman

variable {T W : Type}

/-- The leaves below a node, from left to right: symbol and weight. -/
def Node.leaves : Node T W → List (T × W)
  | .leaf data p => [(data, p)]
  | .inner _ l r => l.leaves ++ r.leaves

/-- Every internal node's weight is the sum of the weights of its children. -/
def Node.WeightSum [Add W] : Node T W → Prop
  | .leaf _ _ => True
  | .inner p l r => p = l.probability + r.probability ∧ l.WeightSum ∧ r.WeightSum

/-- In every internal node the left child weighs at most the right child. -/
def Node.LeftLight [LE W] : Node T W → Prop
  | .leaf _ _ => True
  | .inner _ l r => l.probability ≤ r.probability ∧ l.LeftLight ∧ r.LeftLight

/-- The symbols at the leaves below a node, each with the edges of the path from the
node to the leaf (`true` for a left edge, `false` for a right edge), in the order
`traverse` reaches them: right subtree first. -/
def Node.paths : Node T W → List (T × List Bool)
  | .leaf data _ => [(data, [])]
  | .inner _ l r =>
    (r.paths.map fun e => (e.1, false :: e.2)) ++ (l.paths.map fun e => (e.1, true :: e.2))

/-- The entries `traverse` writes for the stack entry `(node, bits)`, in order. -/
def Node.codes : Node T W → List Bool → List (T × List Bool)
  | .leaf data _, bits => [(data, bits)]
  | .inner _ l r, bits => r.codes (bits ++ [false]) ++ l.codes (bits ++ [true])

/-- The code `encode` writes for the symbol `s` with a tree of root `root`: the entry
of the code table, or nothing when the table has no entry. -/
def codeOf [LinearOrder T] (root : Node T W) (s : T) : List Bool :=
  ((root.paths.foldl (fun res e => Map.set res e.1 e.2) ([] : Map T (List Bool))).find s).getD []

/-- The walk from a node along child pointers: `PathTo n bits m` when following, from
`n`, the left child for each `true` and the right child for each `false` of `bits`, in
order, ends at `m`. -/
inductive Node.PathTo : Node T W → List Bool → Node T W → Prop
  | here (n : Node T W) : Node.PathTo n [] n
  | left (n l m : Node T W) (bits : List Bool) :
    n.left = some l → Node.PathTo l bits m → Node.PathTo n (true :: bits) m
  | right (n r m : Node T W) (bits : List Bool) :
    n.right = some r → Node.PathTo r bits m → Node.PathTo n (false :: bits) m

/-- The weighted path length of a tree: the sum, over its leaves, of the weight of the
leaf times its depth. Adding a root above two trees puts every leaf one edge deeper,
which adds the weights of the two trees. -/
def Node.cost [Zero W] [Add W] : Node T W → W
  | .leaf _ _ => 0
  | .inner _ l r => l.cost + r.cost + l.probability + r.probability

/-- The Kraft sum of a list of code lengths: the sum of `2 ^ (-l)`. -/
def kraftSum (lengths : List Nat) : ℚ := (lengths.map (fun l => (1 / 2 : ℚ) ^ l)).sum

/-- The codes of a list that begin with the bit `b`, without that bit. -/
def codesAfter (b : Bool) : List (List Bool) → List (List Bool)
  | [] => []
  | [] :: cs => codesAfter b cs
  | (first :: code) :: cs => if first = b then code :: codesAfter b cs else codesAfter b cs

/-- The expected code length of a code for a frequency table: the sum, over the entries
of the table, of the weight of the symbol times the length of its code. -/
def expectedLength [Zero W] [Add W] [Mul W] [NatCast W] (dict : Map T W)
    (code : T → List Bool) : W :=
  (dict.map (fun e => e.2 * ((code e.1).length : W))).sum

/-- A code is free of prefixes on a frequency table: the code of no symbol of the table
begins the code of another symbol of the table. -/
def PrefixFree (dict : Map T W) (code : T → List Bool) : Prop :=
  ∀ e₁ ∈ dict, ∀ e₂ ∈ dict, e₁.1 ≠ e₂.1 → ¬ code e₁.1 <+: code e₂.1

/-- The comparison of nodes is total, as the comparison of weights is. -/
instance Node.instIsTotal [LinearOrder W] : IsTotal (Node T W) (· ≤ ·) :=
  ⟨fun a b => le_total a.probability b.probability⟩

/-- A property of the collection of nodes in the heap that every merge of the two
lowest nodes keeps. -/
structure MergeInvariant [LinearOrder W] [Add W] (Q : List (Node T W) → Prop) : Prop where
  /-- The property does not depend on the order of the nodes. -/
  perm : ∀ l l', l.Perm l' → Q l → Q l'
  /-- The property survives the merge of `a` and `b`, the lowest and the next lowest node. -/
  step : ∀ a b rest, (∀ y ∈ b :: rest, a ≤ y) → (∀ y ∈ rest, b ≤ y) →
    Q (a :: b :: rest) → Q (Node.merge a b :: rest)

/-- The elements of `data` that the ranks below `rank` take together, when each of
`world_size` ranks takes `data.size() / world_size` elements and the last one the rest. -/
def gathered {T : Type} (data : List T) (world_size rank : Nat) : List T :=
  if rank = world_size then data else data.take (rank * (data.length / world_size))

/-- The states of the heap at the head of the loop of the constructor `Tree(dict)`:
the heap of the leaves, and the heap after an iteration run from such a state on which
the loop condition `heap.size() != 1` holds. -/
inductive Tree.LoopState [LinearOrder W] [Add W] (dict : Map T W) :
    Heap.MinHeap (Node T W) → List (Node T W) → Prop where
  | start (heap : Heap.MinHeap (Node T W)) :
      Tree.leafHeap dict = .ok heap → LoopState dict heap []
  | iterate (heap heap' : Heap.MinHeap (Node T W)) (nodes nodes' : List (Node T W)) :
      LoopState dict heap nodes → heap.size ≠ 1 →
      Tree.mergeStep heap nodes = .ok (heap', nodes') → LoopState dict heap' nodes'

end Huffman

end HuffmanMPI

/-! # Lemmas -/

set_option linter.unusedSectionVars false

namespace HuffmanMPI
namespace Bits

theorem and_shift_ne_zero (n i : Nat) : (n &&& (1 <<< i) != 0) = n.testBit i := by
  rw [Nat.one_shiftLeft, Nat.and_two_pow]
  cases h : n.testBit i <;> simp

theorem serializeByte_append (byte : Byte) (n : Nat) (result : List Bool) :
    serializeByte byte n result = result ++ serializeByte byte n [] := by
  induction n generalizing result with
  | zero => simp [serializeByte]
  | succ n ih =>
    simp only [serializeByte, List.nil_append]
    rw [ih, ih [_]]
    simp

theorem serializeByte_length (byte : Byte) (n : Nat) : (serializeByte byte n []).length = n := by
  induction n with
  | zero => rfl
  | succ n ih =>
    simp only [serializeByte, List.nil_append]
    rw [serializeByte_append]
    simp [ih]

theorem serializeByte_getD (byte : Byte) (n j : Nat) (hj : j < n) :
    (serializeByte byte n []).getD j false = byte.val.testBit (n - 1 - j) := by
  induction n generalizing j with
  | zero => omega
  | succ n ih =>
    simp only [serializeByte, List.nil_append]
    rw [serializeByte_append]
    cases j with
    | zero => simp [and_shift_ne_zero]
    | succ j =>
      have := ih j (by omega)
      simp only [List.singleton_append, List.getD_cons_succ, this]
      congr 1; omega


theorem serializeBytes_foldl (buffer : List Byte) (acc : List Bool) :
    buffer.foldl (fun result byte => serializeByte byte 8 result) acc = acc ++ serializeBytes buffer := by
  induction buffer generalizing acc with
  | nil => simp [serializeBytes]
  | cons b bs ih =>
    simp only [serializeBytes, List.foldl_cons]
    rw [ih, ih (serializeByte b 8 []), serializeByte_append b 8 acc]
    simp

theorem serializeBytes_cons (b : Byte) (bs : List Byte) :
    serializeBytes (b :: bs) = serializeByte b 8 [] ++ serializeBytes bs := by
  simp only [serializeBytes, List.foldl_cons]
  rw [serializeBytes_foldl]
  rfl

theorem serializeBytes_length (buffer : List Byte) : (serializeBytes buffer).length = 8 * buffer.length := by
  induction buffer with
  | nil => rfl
  | cons b bs ih => rw [serializeBytes_cons, List.length_append, serializeByte_length, ih, List.length_cons]; omega

theorem serializeBytes_getD (buffer : List Byte) (k j : Nat) (hk : k < buffer.length) (hj : j < 8) :
    (serializeBytes buffer).getD (8 * k + j) false = (buffer.getD k 0).val.testBit (7 - j) := by
  induction buffer generalizing k with
  | nil => simp at hk
  | cons b bs ih =>
    rw [serializeBytes_cons]
    cases k with
    | zero =>
      simp only [Nat.mul_zero, Nat.zero_add, List.getD_cons_zero]
      rw [List.getD_append _ _ _ _ (by rw [serializeByte_length]; exact hj)]
      exact serializeByte_getD b 8 j hj
    | succ k =>
      rw [List.getD_append_right _ _ _ _ (by rw [serializeByte_length]; omega)]
      rw [serializeByte_length, List.getD_cons_succ]
      have : 8 * (k + 1) + j - 8 = 8 * k + j := by omega
      rw [this]
      exact ih k (by simpa using hk)

end Bits
end HuffmanMPI
namespace HuffmanMPI
namespace Bits

theorem deserializeStep_fst_length (state : List Byte × Nat) (bit : Bool) :
    (deserializeStep state bit).1.length = state.1.length := by
  cases bit <;> simp [deserializeStep]

theorem deserialize_foldl_length (bits : List Bool) (state : List Byte × Nat) :
    (bits.foldl deserializeStep state).1.length = state.1.length := by
  induction bits generalizing state with
  | nil => rfl
  | cons b bs ih => rw [List.foldl_cons, ih, deserializeStep_fst_length]

theorem deserializeStep_testBit (buffer : List Byte) (index : Nat) (bit : Bool) (k i : Nat)
    (hk : k < buffer.length) :
    (((deserializeStep (buffer, index) bit).1).getD k 0).val.testBit i
      = ((buffer.getD k 0).val.testBit i
          || (bit && decide (i < 8) && decide (index = 8 * k + (7 - i)))) := by
  unfold deserializeStep
  cases bit with
  | false => simp
  | true =>
    simp only [if_true, Bool.true_and]
    have hlen : k < (List.modify (fun byte : Byte =>
        (⟨(byte.val ||| (1 <<< (7 - index % 8))) % 256, Nat.mod_lt _ (by decide)⟩ : Byte))
        (index / 8) buffer).length := by simpa using hk
    rw [List.getD_eq_getElem _ _ hlen, List.getElem_modify, List.getD_eq_getElem _ _ hk]
    by_cases h : index / 8 = k
    · simp only [h, if_true]
      have h256 : ∀ x : Nat, x % 256 = x % 2 ^ 8 := fun x => by norm_num
      rw [h256, Nat.testBit_mod_two_pow, Nat.testBit_lor]
      simp only [Nat.one_shiftLeft, Nat.testBit_two_pow]
      by_cases hi : i < 8
      · have : (7 - index % 8 = i) ↔ (index = 8 * k + (7 - i)) := by omega
        simp [hi, this]
      · have := Nat.testBit_lt_two_pow (x := buffer[k].val) (i := i)
          (lt_of_lt_of_le buffer[k].isLt (by
            have : (2:Nat) ^ 8 ≤ 2 ^ i := Nat.pow_le_pow_right (by norm_num) (by omega)
            omega))
        simp [hi, this]
    · have : ¬ index = 8 * k + (7 - i) ∨ ¬ i < 8 := by omega
      rcases this with h2 | h2 <;> simp [h, h2]

end Bits
end HuffmanMPI
namespace HuffmanMPI
namespace Bits

theorem deserialize_foldl_testBit (bits : List Bool) (buffer : List Byte) (index k i : Nat)
    (hk : k < buffer.length) :
    (((bits.foldl deserializeStep (buffer, index)).1).getD k 0).val.testBit i
      = ((buffer.getD k 0).val.testBit i
          || (decide (i < 8) && decide (index ≤ 8 * k + (7 - i))
              && bits.getD (8 * k + (7 - i) - index) false)) := by
  induction bits generalizing buffer index with
  | nil => simp
  | cons b bs ih =>
    rw [List.foldl_cons]
    have hstep : deserializeStep (buffer, index) b
        = ((deserializeStep (buffer, index) b).1, index + 1) := rfl
    rw [hstep, ih _ _ (by rw [deserializeStep_fst_length]; exact hk), deserializeStep_testBit _ _ _ _ _ hk]
    by_cases hi : i < 8
    · rcases Nat.lt_trichotomy index (8 * k + (7 - i)) with h | h | h
      · have e : 8 * k + (7 - i) - index = (8 * k + (7 - i) - (index + 1)) + 1 := by omega
        rw [e, List.getD_cons_succ]
        have h1 : index + 1 ≤ 8 * k + (7 - i) := h
        have h2 : index ≤ 8 * k + (7 - i) := by omega
        have h3 : ¬ index = 8 * k + (7 - i) := by omega
        simp [hi, h1, h2, h3]
      · have h1 : ¬ index + 1 ≤ 8 * k + (7 - i) := by omega
        have h2 : index ≤ 8 * k + (7 - i) := by omega
        have e : 8 * k + (7 - i) - index = 0 := by omega
        rw [e]
        simp [hi, h1, h2, h]
      · have h1 : ¬ index + 1 ≤ 8 * k + (7 - i) := by omega
        have h2 : ¬ index ≤ 8 * k + (7 - i) := by omega
        have h3 : ¬ index = 8 * k + (7 - i) := by omega
        simp [h1, h2, h3]
    · simp [hi]

theorem deserializeBuffer_serializeBytes (buffer : List Byte) :
    deserializeBuffer buffer.length (serializeBytes buffer) = buffer := by
  unfold deserializeBuffer
  apply List.ext_getElem
  · rw [deserialize_foldl_length]; simp
  · intro k h1 h2
    have hk : k < (List.replicate buffer.length (0 : Byte)).length := by simpa using h2
    apply Fin.ext
    apply Nat.eq_of_testBit_eq
    intro i
    have := deserialize_foldl_testBit (serializeBytes buffer) (List.replicate buffer.length 0) 0 k i hk
    rw [List.getD_eq_getElem _ _ h1] at this
    rw [this]
    have hz : ((List.replicate buffer.length (0 : Byte)).getD k 0).val.testBit i = false := by
      rw [List.getD_eq_getElem _ _ hk]; simp
    rw [hz]
    by_cases hi : i < 8
    · have := serializeBytes_getD buffer k (7 - i) h2 (by omega)
      simp only [Nat.sub_zero, Nat.zero_le, decide_True, Bool.and_true, hi, Bool.true_and,
        Bool.false_or]
      rw [this, List.getD_eq_getElem _ _ h2]
      congr 1; omega
    · have := Nat.testBit_lt_two_pow (x := buffer[k].val) (i := i)
        (lt_of_lt_of_le buffer[k].isLt (by
          have : (2:Nat) ^ 8 ≤ 2 ^ i := Nat.pow_le_pow_right (by norm_num) (by omega)
          omega))
      simp [hi, this]

theorem serialize_length {α : Type} [Pod α] (v : α) : (serialize v).length = 8 * Pod.sizeof α := by
  rw [serialize, serializeBytes_length, Pod.bytes_length]

theorem deserialize_serialize {α : Type} [Pod α] (v : α) :
    deserialize (serialize v) = (.ok v : Except Failure α) := by
  unfold deserialize
  rw [serialize_length]
  have hc : 8 * Pod.sizeof α / 8 = Pod.sizeof α ∧ 8 * Pod.sizeof α % 8 = 0 := by
    constructor <;> omega
  rw [if_pos hc, serialize]
  have := deserializeBuffer_serializeBytes (Pod.bytes v)
  rw [Pod.bytes_length] at this
  rw [this, Pod.ofBytes_bytes]

end Bits
end HuffmanMPI

namespace HuffmanMPI
namespace Map

variable {K V : Type} [LinearOrder K]

theorem find_set (m : Map K V) (key : K) (value : V) (k : K) :
    (m.set key value).find k = if key = k then some value else m.find k := by
  induction m with
  | nil => simp [set, find]
  | cons e rest ih =>
    obtain ⟨k0, v0⟩ := e
    unfold set
    by_cases h1 : key < k0
    · simp only [h1, if_true]
      rw [find]
    · simp only [h1, if_false]
      by_cases h2 : k0 < key
      · simp only [h2, if_true]
        rw [find, ih, find]
        by_cases h3 : k0 = k
        · have : key ≠ k := by rintro rfl; exact absurd h3 (ne_of_lt h2)
          simp [h3, this]
        · simp [h3]
      · simp only [h2, if_false]
        have hk : k0 = key := le_antisymm (not_lt.mp h1) (not_lt.mp h2)
        rw [find, find, hk]
        by_cases h3 : key = k <;> simp [h3]

theorem find_eq_none_iff (m : Map K V) (k : K) : m.find k = none ↔ ∀ e ∈ m, e.1 ≠ k := by
  induction m with
  | nil => simp [find]
  | cons e rest ih =>
    obtain ⟨k0, v0⟩ := e
    rw [find]
    by_cases h : k0 = k
    · simp [h]
    · simp [h, ih]

theorem find_of_mem {m : Map K V} (hm : m.WF) {k : K} {v : V} (h : (k, v) ∈ m) :
    m.find k = some v := by
  induction m with
  | nil => simp at h
  | cons e rest ih =>
    obtain ⟨k0, v0⟩ := e
    rw [WF, List.pairwise_cons] at hm
    rw [find]
    rcases List.mem_cons.mp h with h | h
    · cases h; simp
    · have := hm.1 _ h
      simp only at this
      rw [if_neg (ne_of_lt this)]
      exact ih hm.2 h

theorem mem_of_find {m : Map K V} {k : K} {v : V} (h : m.find k = some v) : (k, v) ∈ m := by
  induction m with
  | nil => simp [find] at h
  | cons e rest ih =>
    obtain ⟨k0, v0⟩ := e
    rw [find] at h
    by_cases h0 : k0 = k
    · rw [if_pos h0] at h
      cases h; subst h0; exact List.mem_cons_self _ _
    · rw [if_neg h0] at h
      exact List.mem_cons_of_mem _ (ih h)

theorem mem_iff_find {m : Map K V} (hm : m.WF) (k : K) (v : V) :
    (k, v) ∈ m ↔ m.find k = some v :=
  ⟨find_of_mem hm, mem_of_find⟩

theorem nodup_of_WF {m : Map K V} (hm : m.WF) : m.Nodup := by
  unfold WF at hm
  exact hm.imp (fun {a b} h hab => by subst hab; exact lt_irrefl _ h)

theorem ext {m₁ m₂ : Map K V} (h₁ : m₁.WF) (h₂ : m₂.WF)
    (h : ∀ k, m₁.find k = m₂.find k) : m₁ = m₂ := by
  have hperm : List.Perm m₁ m₂ := by
    rw [List.perm_ext_iff_of_nodup (nodup_of_WF h₁) (nodup_of_WF h₂)]
    rintro ⟨k, v⟩
    rw [mem_iff_find h₁, mem_iff_find h₂, h]
  haveI : IsAntisymm (K × V) (fun a b => a.1 < b.1) :=
    ⟨fun a b hab hba => absurd hab (lt_asymm hba)⟩
  exact List.eq_of_perm_of_sorted hperm h₁ h₂

theorem mem_set {m : Map K V} {key : K} {value : V} {e : K × V} (h : e ∈ m.set key value) :
    e = (key, value) ∨ e ∈ m := by
  induction m with
  | nil => simpa [set] using h
  | cons e0 rest ih =>
    obtain ⟨k0, v0⟩ := e0
    unfold set at h
    by_cases h1 : key < k0
    · simp only [h1, if_true] at h
      rcases List.mem_cons.mp h with h | h
      · exact Or.inl h
      · exact Or.inr h
    · simp only [h1, if_false] at h
      by_cases h2 : k0 < key
      · simp only [h2, if_true] at h
        rcases List.mem_cons.mp h with h | h
        · exact Or.inr (h ▸ List.mem_cons_self _ _)
        · rcases ih h with h | h
          · exact Or.inl h
          · exact Or.inr (List.mem_cons_of_mem _ h)
      · simp only [h2, if_false] at h
        have hk : k0 = key := le_antisymm (not_lt.mp h1) (not_lt.mp h2)
        rcases List.mem_cons.mp h with h | h
        · exact Or.inl (by rw [h, hk])
        · exact Or.inr (List.mem_cons_of_mem _ h)

theorem set_WF {m : Map K V} (hm : m.WF) (key : K) (value : V) : (m.set key value).WF := by
  induction m with
  | nil => simp [set, WF]
  | cons e0 rest ih =>
    obtain ⟨k0, v0⟩ := e0
    have hm' := hm
    rw [WF, List.pairwise_cons] at hm'
    unfold set
    by_cases h1 : key < k0
    · simp only [h1, if_true]
      rw [WF, List.pairwise_cons]
      refine ⟨?_, hm⟩
      intro e he
      rcases List.mem_cons.mp he with he | he
      · rw [he]; exact h1
      · exact lt_trans h1 (hm'.1 e he)
    · simp only [h1, if_false]
      by_cases h2 : k0 < key
      · simp only [h2, if_true]
        rw [WF, List.pairwise_cons]
        refine ⟨?_, ih hm'.2⟩
        intro e he
        rcases mem_set he with he | he
        · rw [he]; exact h2
        · exact hm'.1 e he
      · simp only [h2, if_false]
        rw [WF, List.pairwise_cons]
        exact ⟨hm'.1, hm'.2⟩

theorem set_append_of_lt (m : Map K V) (key : K) (value : V) (h : ∀ e ∈ m, e.1 < key) :
    m.set key value = m ++ [(key, value)] := by
  induction m with
  | nil => rfl
  | cons e0 rest ih =>
    obtain ⟨k0, v0⟩ := e0
    have h0 : k0 < key := h (k0, v0) (List.mem_cons_self _ _)
    unfold set
    rw [if_neg (lt_asymm h0), if_pos h0, ih (fun e he => h e (List.mem_cons_of_mem _ he))]
    rfl

end Map
end HuffmanMPI

namespace HuffmanMPI
namespace Heap
namespace MinHeap

section Basic
variable {α : Type}

theorem swapList_perm (l : List α) {i j : Nat} (hi : i < l.length) (hj : j < l.length) :
    List.Perm ((l.set i l[j]).set j l[i]) l := by
  classical
  rw [List.perm_iff_count]
  intro b
  have hj' : j < (l.set i l[j]).length := by simpa using hj
  rw [List.count_set _ _ _ _ hj', List.count_set _ _ _ _ hi, List.getElem_set]
  have e : (if i = j then l[j] else l[j]) = l[j] := by split <;> rfl
  rw [e]
  have h1 : (l[i] == b) = true → 0 < List.count b l := by
    intro h
    have : l[i] = b := by simpa using h
    rw [List.count_pos_iff, ← this]
    exact List.getElem_mem _
  cases c1 : (l[i] == b) <;> cases c2 : (l[j] == b) <;> simp
  · have := h1 c1; omega
  · have := h1 c1; omega

theorem swapList_getElem? (l : List α) {i j : Nat} (hi : i < l.length) (hj : j < l.length)
    (k : Nat) :
    ((l.set i l[j]).set j l[i])[k]?
      = if k = j then some l[i] else if k = i then some l[j] else l[k]? := by
  rw [List.getElem?_set, List.getElem?_set]
  have hj' : j < (l.set i l[j]).length := by simpa using hj
  by_cases h1 : j = k
  · subst h1
    simp [hj]
  · have h1' : ¬ k = j := fun h => h1 h.symm
    rw [if_neg h1, if_neg h1']
    by_cases h2 : i = k
    · subst h2
      simp [hi]
    · have h2' : ¬ k = i := fun h => h2 h.symm
      rw [if_neg h2, if_neg h2']

theorem at_of_lt (heap : MinHeap α) {index : Nat} (h : index < heap.pool.length) :
    heap.at index = .ok heap.pool[index] := by
  simp [MinHeap.at, h]

theorem swap_of_lt (heap : MinHeap α) {i j : Nat} (hi : i < heap.pool.length)
    (hj : j < heap.pool.length) :
    heap.swap i j = .ok ⟨(heap.pool.set i heap.pool[j]).set j heap.pool[i]⟩ := by
  simp [swap, at_of_lt, hi, hj, bind, Except.bind, pure, Except.pure]

end Basic

end MinHeap
end Heap
end HuffmanMPI

namespace HuffmanMPI
namespace Heap
namespace MinHeap

section Order
variable {α : Type} [Preorder α] [DecidableRel ((· < ·) : α → α → Prop)]
  [DecidableRel ((· ≤ ·) : α → α → Prop)]

theorem sinkLoop_succ_of_ge (fuel : Nat) (heap : MinHeap α) (index : Nat)
    (hL : heap.pool.length ≤ index * 2 + 1) :
    sinkLoop (fuel + 1) heap index = .ok heap := by
  rw [sinkLoop]
  simp only []
  rw [if_pos hL]
  rfl

theorem sinkLoop_succ_of_lt [IsTotal α (· ≤ ·)] (fuel : Nat) (heap : MinHeap α) (index : Nat)
    (hL : index * 2 + 1 < heap.pool.length) :
    ∃ (M : Nat) (hM : M < heap.pool.length) (hI : index < heap.pool.length),
      (M = index * 2 + 1 ∨ M = index * 2 + 2) ∧
      (∀ (c : Nat) (hc : c < heap.pool.length), c = index * 2 + 1 ∨ c = index * 2 + 2 →
          heap.pool[M] ≤ heap.pool[c]) ∧
      sinkLoop (fuel + 1) heap index =
        if heap.pool[M] < heap.pool[index] then
          sinkLoop fuel ⟨(heap.pool.set M heap.pool[index]).set index heap.pool[M]⟩ M
        else .ok heap := by
  have hI : index < heap.pool.length := by omega
  have hL' : ¬ index * 2 + 1 ≥ heap.pool.length := by omega
  rw [sinkLoop]
  simp only []
  rw [if_neg hL', at_of_lt heap hL]
  by_cases hR : index * 2 + 1 + 1 ≥ heap.pool.length
  · -- only the left child exists
    simp only [if_pos hR, ite_self, at_of_lt heap hL, at_of_lt heap hI, swap_of_lt heap hL hI,
      bind, Except.bind, pure, Except.pure]
    refine ⟨index * 2 + 1, hL, hI, Or.inl rfl, ?_, ?_⟩
    · intro c hc hcc
      rcases hcc with rfl | rfl
      · exact le_refl _
      · omega
    · split <;> rfl
  · have hR' : index * 2 + 1 + 1 < heap.pool.length := by omega
    simp only [if_neg hR, at_of_lt heap hR', bind, Except.bind]
    by_cases hle : heap.pool[index * 2 + 1] ≤ heap.pool[index * 2 + 1 + 1]
    · simp only [if_pos hle, at_of_lt heap hL, at_of_lt heap hI, swap_of_lt heap hL hI,
        bind, Except.bind, pure, Except.pure]
      refine ⟨index * 2 + 1, hL, hI, Or.inl rfl, ?_, ?_⟩
      · intro c hc hcc
        rcases hcc with rfl | rfl
        · exact le_refl _
        · exact hle
      · split <;> rfl
    · simp only [if_neg hle, at_of_lt heap hR', at_of_lt heap hI, swap_of_lt heap hR' hI,
        bind, Except.bind, pure, Except.pure]
      refine ⟨index * 2 + 2, hR', hI, Or.inr rfl, ?_, ?_⟩
      · intro c hc hcc
        rcases hcc with rfl | rfl
        · exact (IsTotal.total (r := (· ≤ ·)) _ _).resolve_left hle
        · exact le_refl _
      · split <;> rfl

end Order
end MinHeap
end Heap
end HuffmanMPI

namespace HuffmanMPI
namespace Heap
namespace MinHeap

section Invariants
variable {α : Type} [Preorder α]

theorem le_of_not_lt_of_total [IsTotal α (· ≤ ·)] {a b : α} (h : ¬ a < b) : b ≤ a := by
  rcases IsTotal.total (r := (· ≤ ·)) b a with h1 | h1
  · exact h1
  · by_contra h2
    exact h (lt_of_le_not_le h1 h2)

theorem isHeap_of_sinkInv_leaf {pool : List α} {index : Nat} (h : SinkInv pool index)
    (hL : pool.length ≤ index * 2 + 1) : IsHeap pool := by
  intro k a b hk ha hb
  by_cases hp : (k - 1) / 2 = index
  · have hlt : k < pool.length := (List.getElem?_eq_some.mp ha).1
    omega
  · exact h.1 k a b hk hp ha hb

theorem isHeap_of_sinkInv_le {pool : List α} {index M : Nat} (h : SinkInv pool index)
    (hM : M < pool.length) (hI : index < pool.length)
    (hmin : ∀ (c : Nat) (hc : c < pool.length), c = index * 2 + 1 ∨ c = index * 2 + 2 →
          pool[M] ≤ pool[c])
    (hle : pool[index] ≤ pool[M]) : IsHeap pool := by
  intro k a b hk ha hb
  by_cases hp : (k - 1) / 2 = index
  · obtain ⟨hlt, rfl⟩ := List.getElem?_eq_some.mp ha
    rw [hp, List.getElem?_eq_getElem hI] at hb
    cases hb
    exact le_trans hle (hmin k hlt (by omega))
  · exact h.1 k a b hk hp ha hb

theorem sinkInv_swap {pool : List α} {index M : Nat} (h : SinkInv pool index)
    (hM : M < pool.length) (hI : index < pool.length)
    (hMc : M = index * 2 + 1 ∨ M = index * 2 + 2)
    (hmin : ∀ (c : Nat) (hc : c < pool.length), c = index * 2 + 1 ∨ c = index * 2 + 2 →
          pool[M] ≤ pool[c])
    (hlt : pool[M] < pool[index]) :
    SinkInv ((pool.set M pool[index]).set index pool[M]) M := by
  have hget := swapList_getElem? pool hM hI
  have hMI : M ≠ index := by omega
  constructor
  · intro k a b hk hp ha hb
    rw [hget] at ha hb
    by_cases hkI : k = index
    · -- the element moved up to `index`, against the father of `index`
      subst hkI
      rw [if_pos rfl] at ha
      cases ha
      have hpI : ¬ (k - 1) / 2 = k := by omega
      rw [if_neg hpI, if_neg hp] at hb
      exact h.2 M _ b hk (by omega) (by omega) (List.getElem?_eq_getElem hM) hb
    · rw [if_neg hkI] at ha
      by_cases hkM : k = M
      · subst hkM
        rw [if_pos rfl] at ha
        cases ha
        have : (k - 1) / 2 = index := by omega
        rw [this, if_pos rfl] at hb
        cases hb
        exact le_of_lt hlt
      · rw [if_neg hkM] at ha
        by_cases hpI : (k - 1) / 2 = index
        · rw [if_pos hpI] at hb
          cases hb
          obtain ⟨hklt, rfl⟩ := List.getElem?_eq_some.mp ha
          exact hmin k hklt (by omega)
        · rw [if_neg hpI, if_neg hp] at hb
          exact h.1 k a b hk hpI ha hb
  · intro k a b _ hk hp ha hb
    rw [hget] at ha hb
    have hkI : ¬ k = index := by omega
    have hkM : ¬ k = M := by omega
    rw [if_neg hkI, if_neg hkM] at ha
    have hpM : (M - 1) / 2 = index := by omega
    rw [hpM, if_pos rfl] at hb
    cases hb
    obtain ⟨hklt, rfl⟩ := List.getElem?_eq_some.mp ha
    have hpk : (k - 1) / 2 ≠ index := by omega
    exact h.1 k _ _ hk hpk (List.getElem?_eq_getElem hklt) (by rw [hp]; exact List.getElem?_eq_getElem hM)

end Invariants

section Order
variable {α : Type} [Preorder α] [DecidableRel ((· < ·) : α → α → Prop)]
  [DecidableRel ((· ≤ ·) : α → α → Prop)]

theorem sinkLoop_spec [IsTotal α (· ≤ ·)] (fuel : Nat) (heap : MinHeap α) (index : Nat) :
    ∃ heap', sinkLoop fuel heap index = .ok heap' ∧ heap'.pool.Perm heap.pool ∧
      (heap.pool.length - index ≤ fuel → SinkInv heap.pool index → IsHeap heap'.pool) := by
  induction fuel generalizing heap index with
  | zero =>
    refine ⟨heap, rfl, List.Perm.refl _, ?_⟩
    intro hf hinv
    exact isHeap_of_sinkInv_leaf hinv (by omega)
  | succ fuel ih =>
    by_cases hL : heap.pool.length ≤ index * 2 + 1
    · exact ⟨heap, sinkLoop_succ_of_ge fuel heap index hL, List.Perm.refl _,
        fun _ hinv => isHeap_of_sinkInv_leaf hinv hL⟩
    · obtain ⟨M, hM, hI, hMc, hmin, heq⟩ := sinkLoop_succ_of_lt fuel heap index (by omega)
      rw [heq]
      by_cases hlt : heap.pool[M] < heap.pool[index]
      · rw [if_pos hlt]
        obtain ⟨heap', hok, hperm, hheap⟩ :=
          ih ⟨(heap.pool.set M heap.pool[index]).set index heap.pool[M]⟩ M
        refine ⟨heap', hok, hperm.trans (swapList_perm heap.pool hM hI), ?_⟩
        intro hf hinv
        apply hheap
        · simp only [List.length_set]; omega
        · exact sinkInv_swap hinv hM hI hMc hmin hlt
      · rw [if_neg hlt]
        refine ⟨heap, rfl, List.Perm.refl _, ?_⟩
        intro _ hinv
        apply isHeap_of_sinkInv_le hinv hM hI hmin
        exact le_of_not_lt_of_total hlt

end Order
end MinHeap
end Heap
end HuffmanMPI


namespace HuffmanMPI
namespace Heap
namespace MinHeap

section Invariants
variable {α : Type} [Preorder α]

theorem floatInv_swap {pool : List α} {index : Nat} (h : FloatInv pool index)
    (hI : index < pool.length) (hP : (index - 1) / 2 < pool.length) (h0 : 0 < index)
    (hlt : pool[index] < pool[(index - 1) / 2]) :
    FloatInv ((pool.set index pool[(index - 1) / 2]).set ((index - 1) / 2) pool[index])
      ((index - 1) / 2) := by
  have hget := swapList_getElem? pool hI hP
  have hPI : (index - 1) / 2 ≠ index := by omega
  constructor
  · intro k a b hk hkP ha hb
    rw [hget] at ha hb
    rw [if_neg hkP] at ha
    by_cases hkI : k = index
    · subst hkI
      rw [if_pos rfl] at ha hb
      cases ha; cases hb
      exact le_of_lt hlt
    · rw [if_neg hkI] at ha
      by_cases hp : (k - 1) / 2 = (index - 1) / 2
      · rw [if_pos hp] at hb
        cases hb
        have := h.1 k a _ hk hkI ha (by rw [hp]; exact List.getElem?_eq_getElem hP)
        exact le_trans (le_of_lt hlt) this
      · rw [if_neg hp] at hb
        by_cases hpI : (k - 1) / 2 = index
        · rw [if_pos hpI] at hb
          cases hb
          exact h.2 k a _ h0 hk hpI ha (List.getElem?_eq_getElem hP)
        · rw [if_neg hpI] at hb
          exact h.1 k a b hk hkI ha hb
  · intro k a b hP0 hk hp ha hb
    rw [hget] at ha hb
    have hkP : ¬ k = (index - 1) / 2 := by omega
    have hppP : ¬ ((index - 1) / 2 - 1) / 2 = (index - 1) / 2 := by omega
    have hppI : ¬ ((index - 1) / 2 - 1) / 2 = index := by omega
    rw [if_neg hppP, if_neg hppI] at hb
    rw [if_neg hkP] at ha
    have hPle : b ≤ pool[(index - 1) / 2] :=
      h.1 ((index - 1) / 2) _ b hP0 hPI (List.getElem?_eq_getElem hP) hb
    by_cases hkI : k = index
    · rw [if_pos hkI] at ha
      cases ha
      exact hPle
    · rw [if_neg hkI] at ha
      exact le_trans hPle (h.1 k a _ hk hkI ha (by rw [hp]; exact List.getElem?_eq_getElem hP))

theorem isHeap_of_floatInv_zero {pool : List α} (h : FloatInv pool 0) : IsHeap pool :=
  fun k a b hk ha hb => h.1 k a b hk (by omega) ha hb

theorem isHeap_of_floatInv_le {pool : List α} {index : Nat} (h : FloatInv pool index)
    (hI : index < pool.length) (hP : (index - 1) / 2 < pool.length)
    (hle : pool[(index - 1) / 2] ≤ pool[index]) : IsHeap pool := by
  intro k a b hk ha hb
  by_cases hkI : k = index
  · subst hkI
    rw [List.getElem?_eq_getElem hI] at ha
    rw [List.getElem?_eq_getElem hP] at hb
    cases ha; cases hb
    exact hle
  · exact h.1 k a b hk hkI ha hb

end Invariants

section Order
variable {α : Type} [Preorder α] [DecidableRel ((· < ·) : α → α → Prop)]
  [DecidableRel ((· ≤ ·) : α → α → Prop)]

theorem floatLoop_succ (fuel : Nat) (heap : MinHeap α) (index : Nat) (h0 : index ≠ 0)
    (hI : index < heap.pool.length) :
    ∃ (hP : (index - 1) / 2 < heap.pool.length),
      floatLoop (fuel + 1) heap index =
        if heap.pool[index] < heap.pool[(index - 1) / 2] then
          floatLoop fuel
            ⟨(heap.pool.set index heap.pool[(index - 1) / 2]).set ((index - 1) / 2) heap.pool[index]⟩
            ((index - 1) / 2)
        else .ok heap := by
  have hP : (index - 1) / 2 < heap.pool.length := by omega
  refine ⟨hP, ?_⟩
  rw [floatLoop]
  simp only [if_neg h0, at_of_lt heap hI, at_of_lt heap hP, swap_of_lt heap hI hP,
    bind, Except.bind, pure, Except.pure]

theorem floatLoop_spec [IsTotal α (· ≤ ·)] (fuel : Nat) (heap : MinHeap α) (index : Nat)
    (hI : index < heap.pool.length) :
    ∃ heap', floatLoop fuel heap index = .ok heap' ∧ heap'.pool.Perm heap.pool ∧
      (index ≤ fuel → FloatInv heap.pool index → IsHeap heap'.pool) := by
  induction fuel generalizing heap index with
  | zero =>
    refine ⟨heap, rfl, List.Perm.refl _, ?_⟩
    intro hf hinv
    have : index = 0 := by omega
    subst this
    exact isHeap_of_floatInv_zero hinv
  | succ fuel ih =>
    by_cases h0 : index = 0
    · subst h0
      refine ⟨heap, by rw [floatLoop]; simp; rfl, List.Perm.refl _, ?_⟩
      exact fun _ hinv => isHeap_of_floatInv_zero hinv
    · obtain ⟨hP, heq⟩ := floatLoop_succ fuel heap index h0 hI
      rw [heq]
      by_cases hlt : heap.pool[index] < heap.pool[(index - 1) / 2]
      · rw [if_pos hlt]
        obtain ⟨heap', hok, hperm, hheap⟩ :=
          ih ⟨(heap.pool.set index heap.pool[(index - 1) / 2]).set ((index - 1) / 2) heap.pool[index]⟩
            ((index - 1) / 2) (by simpa using hP)
        refine ⟨heap', hok, hperm.trans (swapList_perm heap.pool hI hP), ?_⟩
        intro hf hinv
        exact hheap (by omega) (floatInv_swap hinv hI hP (by omega) hlt)
      · rw [if_neg hlt]
        refine ⟨heap, rfl, List.Perm.refl _, ?_⟩
        intro _ hinv
        exact isHeap_of_floatInv_le hinv hI hP (le_of_not_lt_of_total hlt)

end Order
end MinHeap
end Heap
end HuffmanMPI

namespace HuffmanMPI
namespace Heap
namespace MinHeap

section Invariants
variable {α : Type} [Preorder α]

theorem IsHeap.root_le {pool : List α} (h : IsHeap pool) (h0 : 0 < pool.length) (k : Nat)
    (hk : k < pool.length) : pool[0] ≤ pool[k] := by
  induction k using Nat.strong_induction_on with
  | _ k ih =>
    by_cases hk0 : k = 0
    · subst hk0; exact le_refl _
    · have hp : (k - 1) / 2 < k := by omega
      have hpl : (k - 1) / 2 < pool.length := by omega
      exact le_trans (ih _ hp hpl)
        (h k _ _ (by omega) (List.getElem?_eq_getElem hk) (List.getElem?_eq_getElem hpl))

theorem floatInv_append {pool : List α} (h : IsHeap pool) (x : α) :
    FloatInv (pool ++ [x]) pool.length := by
  constructor
  · intro k a b hk hkn ha hb
    have hlt : k < (pool ++ [x]).length := (List.getElem?_eq_some.mp ha).1
    have hk' : k < pool.length := by simp at hlt; omega
    rw [List.getElem?_append_left hk'] at ha
    rw [List.getElem?_append_left (by omega)] at hb
    exact h k a b hk ha hb
  · intro k a b _ hk hp ha _
    have hlt : k < (pool ++ [x]).length := (List.getElem?_eq_some.mp ha).1
    simp at hlt
    omega

theorem sinkInv_dropLast {pool : List α} (h : IsHeap pool) (x : α) (hn : 0 < pool.length) :
    SinkInv ((pool.set 0 x).dropLast) 0 := by
  constructor
  · intro k a b hk hp ha hb
    rw [List.dropLast_eq_take, List.getElem?_take] at ha hb
    simp only [List.length_set] at ha hb
    split at ha
    · split at hb
      · rw [List.getElem?_set] at ha hb
        rw [if_neg (by omega)] at ha
        rw [if_neg (by omega)] at hb
        exact h k a b hk ha hb
      · cases hb
    · cases ha
  · intro k a b h0
    omega

end Invariants

section Order
variable {α : Type} [Preorder α] [DecidableRel ((· < ·) : α → α → Prop)]
  [DecidableRel ((· ≤ ·) : α → α → Prop)]

theorem append_spec [IsTotal α (· ≤ ·)] (heap : MinHeap α) (x : α) :
    ∃ heap', heap.append x = .ok heap' ∧ heap'.pool.Perm (x :: heap.pool) ∧
      (IsHeap heap.pool → IsHeap heap'.pool) := by
  unfold append float_
  simp only [List.length_append, List.length_singleton, Nat.add_sub_cancel]
  obtain ⟨heap', hok, hperm, hheap⟩ :=
    floatLoop_spec heap.pool.length ⟨heap.pool ++ [x]⟩ heap.pool.length (by simp)
  refine ⟨heap', hok, hperm.trans ?_, fun h => hheap (le_refl _) (floatInv_append h x)⟩
  exact List.perm_append_comm

theorem pop_spec [IsTotal α (· ≤ ·)] (heap : MinHeap α) (hn : 0 < heap.pool.length) :
    ∃ heap', heap.pop = .ok (heap.pool[0], heap') ∧ (heap.pool[0] :: heap'.pool).Perm heap.pool ∧
      (IsHeap heap.pool → IsHeap heap'.pool ∧ ∀ y ∈ heap.pool, heap.pool[0] ≤ y) := by
  have hn1 : heap.pool.length - 1 < heap.pool.length := by omega
  set last := heap.pool[heap.pool.length - 1] with hlast
  set pool1 := (heap.pool.set 0 last).set (heap.pool.length - 1) heap.pool[0] with hpool1
  have hperm1 : pool1.Perm heap.pool := swapList_perm heap.pool hn hn1
  have hlen1 : pool1.length = heap.pool.length := by simp [hpool1]
  have hget : pool1.getLast? = some heap.pool[0] := by
    rw [List.getLast?_eq_getElem?, hlen1, hpool1, swapList_getElem? heap.pool hn hn1, if_pos rfl]
  have hsplit : pool1.dropLast ++ [heap.pool[0]] = pool1 :=
    List.dropLast_append_getLast? _ (by rw [hget]; rfl)
  have hdrop : pool1.dropLast = (heap.pool.set 0 last).dropLast := by
    rw [hpool1, List.dropLast_eq_take, List.dropLast_eq_take]
    simp only [List.length_set]
    apply List.ext_getElem?
    intro k
    rw [List.getElem?_take, List.getElem?_take]
    split
    · rw [List.getElem?_set, if_neg (by omega)]
    · rfl
  obtain ⟨heap', hok, hperm, hheap⟩ :=
    sinkLoop_spec (pool1.dropLast.length - 0) ⟨pool1.dropLast⟩ 0
  refine ⟨heap', ?_, ?_, ?_⟩
  · unfold pop
    rw [if_neg (by omega), swap_of_lt heap hn hn1]
    simp only [bind, Except.bind]
    rw [← hlast, ← hpool1, hget]
    simp only [sink]
    rw [hok]
    rfl
  · have h1 : (heap.pool[0] :: pool1.dropLast).Perm pool1 := by
      conv_rhs => rw [← hsplit]
      exact (@List.perm_append_comm _ [heap.pool[0]] pool1.dropLast)
    exact ((List.Perm.cons _ hperm).trans h1).trans hperm1
  · intro h
    refine ⟨hheap (le_refl _) ?_, ?_⟩
    · show SinkInv pool1.dropLast 0
      rw [hdrop]
      exact sinkInv_dropLast h last hn
    · intro y hy
      obtain ⟨k, hk, rfl⟩ := List.getElem_of_mem hy
      exact IsHeap.root_le h hn k hk

end Order
end MinHeap
end Heap
end HuffmanMPI

namespace HuffmanMPI
namespace Heap
namespace MinHeap

section Fuel
variable {α : Type} [Preorder α] [DecidableRel ((· < ·) : α → α → Prop)]
  [DecidableRel ((· ≤ ·) : α → α → Prop)]

theorem floatLoop_fuel (fuel₁ fuel₂ : Nat) (heap : MinHeap α) (index : Nat)
    (h₁ : index ≤ fuel₁) (h₂ : index ≤ fuel₂) :
    floatLoop fuel₁ heap index = floatLoop fuel₂ heap index := by
  induction fuel₁ generalizing fuel₂ heap index with
  | zero =>
    have : index = 0 := by omega
    subst this
    cases fuel₂ with
    | zero => rfl
    | succ f => rw [floatLoop, floatLoop]; simp
  | succ f₁ ih =>
    cases fuel₂ with
    | zero =>
      have : index = 0 := by omega
      subst this
      rw [floatLoop, floatLoop]; simp
    | succ f₂ =>
      rw [floatLoop, floatLoop]
      by_cases h0 : index = 0
      · simp [h0]
      · simp only [if_neg h0]
        cases heap.at index with
        | error e => rfl
        | ok c =>
          simp only [bind, Except.bind]
          cases heap.at ((index - 1) / 2) with
          | error e => rfl
          | ok f =>
            simp only
            split
            · cases heap.swap index ((index - 1) / 2) with
              | error e => rfl
              | ok heap' =>
                simp only
                exact ih f₂ heap' _ (by omega) (by omega)
            · rfl

/-- The recursion equation of `MinHeap::float_`. -/
theorem float__unfold (heap : MinHeap α) (index : Nat) :
    heap.float_ index =
      (if index = 0 then pure heap
       else do
        let current := index
        let father := (index - 1) / 2
        let c ← heap.at current
        let f ← heap.at father
        if c < f then do
          let heap ← heap.swap current father
          heap.float_ father
        else pure heap) := by
  unfold float_
  cases index with
  | zero => rfl
  | succ n =>
    rw [floatLoop]
    simp only [if_neg (Nat.succ_ne_zero n)]
    cases heap.at (n + 1) with
    | error e => rfl
    | ok c =>
      simp only [bind, Except.bind]
      cases heap.at ((n + 1 - 1) / 2) with
      | error e => rfl
      | ok f =>
        simp only
        split
        · cases heap.swap (n + 1) ((n + 1 - 1) / 2) with
          | error e => rfl
          | ok heap' =>
            simp only
            exact floatLoop_fuel _ _ heap' _ (by omega) (le_refl _)
        · rfl

end Fuel

end MinHeap
end Heap
end HuffmanMPI

namespace HuffmanMPI
namespace Heap
namespace MinHeap

section Fuel
variable {α : Type} [Preorder α] [DecidableRel ((· < ·) : α → α → Prop)]
  [DecidableRel ((· ≤ ·) : α → α → Prop)]

theorem swap_length (heap heap' : MinHeap α) (i j : Nat) (h : heap.swap i j = .ok heap') :
    heap'.pool.length = heap.pool.length := by
  unfold swap at h
  cases h1 : heap.at i with
  | error e => rw [h1] at h; cases h
  | ok a =>
    cases h2 : heap.at j with
    | error e => rw [h1, h2] at h; cases h
    | ok b =>
      rw [h1, h2] at h
      cases h
      simp

theorem sinkLoop_fuel (fuel₁ fuel₂ : Nat) (heap : MinHeap α) (index : Nat)
    (h₁ : heap.pool.length - index ≤ fuel₁) (h₂ : heap.pool.length - index ≤ fuel₂) :
    sinkLoop fuel₁ heap index = sinkLoop fuel₂ heap index := by
  induction fuel₁ generalizing fuel₂ heap index with
  | zero =>
    cases fuel₂ with
    | zero => rfl
    | succ f => rw [sinkLoop_succ_of_ge f heap index (by omega)]; rfl
  | succ f₁ ih =>
    cases fuel₂ with
    | zero => rw [sinkLoop_succ_of_ge f₁ heap index (by omega)]; rfl
    | succ f₂ =>
      rw [sinkLoop, sinkLoop]
      simp only
      split
      · rfl
      · next hL =>
        cases heap.at (index * 2 + 1) with
        | error e => rfl
        | ok l =>
          simp only [bind, Except.bind]
          cases heap.at (if index * 2 + 1 + 1 ≥ heap.pool.length then index * 2 + 1
              else index * 2 + 1 + 1) with
          | error e => rfl
          | ok r =>
            simp only
            cases heap.at (if l ≤ r then index * 2 + 1
                else if index * 2 + 1 + 1 ≥ heap.pool.length then index * 2 + 1
                else index * 2 + 1 + 1) with
            | error e => rfl
            | ok m =>
              simp only
              cases heap.at index with
              | error e => rfl
              | ok c =>
                simp only
                split
                · cases hs : heap.swap (if l ≤ r then index * 2 + 1
                      else if index * 2 + 1 + 1 ≥ heap.pool.length then index * 2 + 1
                      else index * 2 + 1 + 1) index with
                  | error e => rfl
                  | ok heap' =>
                    simp only
                    have hlen := swap_length _ _ _ _ hs
                    apply ih
                    · rw [hlen]; split <;> (try split) <;> omega
                    · rw [hlen]; split <;> (try split) <;> omega
                · rfl

/-- The recursion equation of `MinHeap::sink`. -/
theorem sink_unfold (heap : MinHeap α) (index : Nat) :
    heap.sink index =
      (let current := index
       let left := index * 2 + 1
       let right := left + 1
       let right := if right ≥ heap.pool.length then left else right
       if left ≥ heap.pool.length then pure heap
       else do
        let l ← heap.at left
        let r ← heap.at right
        let minimal := if l ≤ r then left else right
        let m ← heap.at minimal
        let c ← heap.at current
        if m < c then do
          let heap ← heap.swap minimal current
          heap.sink minimal
        else pure heap) := by
  unfold sink
  by_cases hL : index * 2 + 1 ≥ heap.pool.length
  · simp only [if_pos hL]
    cases hf : heap.pool.length - index with
    | zero => rfl
    | succ f => exact sinkLoop_succ_of_ge f heap index hL
  · have hf : heap.pool.length - index = (heap.pool.length - index - 1) + 1 := by omega
    rw [hf, sinkLoop]
    simp only [if_neg hL]
    cases heap.at (index * 2 + 1) with
    | error e => rfl
    | ok l =>
      simp only [bind, Except.bind]
      cases heap.at (if index * 2 + 1 + 1 ≥ heap.pool.length then index * 2 + 1
          else index * 2 + 1 + 1) with
      | error e => rfl
      | ok r =>
        simp only
        cases heap.at (if l ≤ r then index * 2 + 1
            else if index * 2 + 1 + 1 ≥ heap.pool.length then index * 2 + 1
            else index * 2 + 1 + 1) with
        | error e => rfl
        | ok m =>
          simp only
          cases heap.at index with
          | error e => rfl
          | ok c =>
            simp only
            split
            · cases hs : heap.swap (if l ≤ r then index * 2 + 1
                  else if index * 2 + 1 + 1 ≥ heap.pool.length then index * 2 + 1
                  else index * 2 + 1 + 1) index with
              | error e => rfl
              | ok heap' =>
                simp only
                have hlen := swap_length _ _ _ _ hs
                apply sinkLoop_fuel
                · rw [hlen]; split <;> (try split) <;> omega
                · exact le_refl _
            · rfl

end Fuel

end MinHeap
end Heap
end HuffmanMPI

namespace HuffmanMPI
namespace Huffman

open Heap

section TreeBuild
variable {T W : Type} [LinearOrder W] [Add W]

theorem Node.le_def (a b : Node T W) : a ≤ b ↔ a.probability ≤ b.probability := Iff.rfl

theorem leafHeap_foldl (dict : Map T W) (heap0 : MinHeap (Node T W)) (h0 : IsHeap heap0.pool) :
    ∃ heap, dict.foldlM (fun (heap : MinHeap (Node T W)) kv => heap.append (Node.leaf kv.1 kv.2)) heap0
        = .ok heap ∧
      heap.pool.Perm (dict.map (fun kv => Node.leaf kv.1 kv.2) ++ heap0.pool) ∧ IsHeap heap.pool := by
  induction dict generalizing heap0 with
  | nil => exact ⟨heap0, rfl, List.Perm.refl _, h0⟩
  | cons kv rest ih =>
    obtain ⟨heap1, hok1, hperm1, hheap1⟩ := MinHeap.append_spec heap0 (Node.leaf kv.1 kv.2)
    obtain ⟨heap, hok, hperm, hheap⟩ := ih heap1 (hheap1 h0)
    refine ⟨heap, ?_, ?_, hheap⟩
    · rw [List.foldlM_cons, hok1]
      exact hok
    · refine hperm.trans ?_
      rw [List.map_cons]
      exact ((List.Perm.append_left _ hperm1).trans List.perm_middle)

theorem leafHeap_spec (dict : Map T W) :
    ∃ heap, Tree.leafHeap dict = .ok heap ∧
      heap.pool.Perm (dict.map (fun kv => Node.leaf kv.1 kv.2)) ∧ IsHeap heap.pool := by
  obtain ⟨heap, hok, hperm, hheap⟩ := leafHeap_foldl dict ⟨[]⟩ (by intro i a b _ ha; simp at ha)
  exact ⟨heap, hok, by simpa using hperm, hheap⟩

/-- What one iteration of the merge loop does on a heap of at least two nodes. -/
theorem mergeStep_spec (heap : MinHeap (Node T W)) (nodes : List (Node T W))
    (hsize : 2 ≤ heap.pool.length) (hheap : IsHeap heap.pool) :
    ∃ first second heap1 heap2 heap3,
      heap.pop = .ok (first, heap1) ∧ heap1.pop = .ok (second, heap2) ∧
      heap2.append (Node.merge first second) = .ok heap3 ∧
      Tree.mergeStep heap nodes = .ok (heap3, nodes ++ [first, second]) ∧
      (first :: heap1.pool).Perm heap.pool ∧ (second :: heap2.pool).Perm heap1.pool ∧
      heap3.pool.Perm (Node.merge first second :: heap2.pool) ∧
      (∀ y ∈ heap.pool, first ≤ y) ∧ (∀ y ∈ heap1.pool, second ≤ y) ∧
      IsHeap heap3.pool := by
  obtain ⟨heap1, hok1, hperm1, hh1⟩ := MinHeap.pop_spec heap (by omega)
  have hlen1 : 0 < heap1.pool.length := by
    have := hperm1.length_eq
    simp at this; omega
  obtain ⟨heap2, hok2, hperm2, hh2⟩ := MinHeap.pop_spec heap1 hlen1
  obtain ⟨heap3, hok3, hperm3, hh3⟩ :=
    MinHeap.append_spec heap2 (Node.merge heap.pool[0] heap1.pool[0])
  refine ⟨_, _, heap1, heap2, heap3, hok1, hok2, hok3, ?_, hperm1, hperm2, hperm3,
    (hh1 hheap).2, (hh2 (hh1 hheap).1).2, hh3 (hh2 (hh1 hheap).1).1⟩
  unfold Tree.mergeStep
  rw [hok1]
  simp only [bind, Except.bind]
  rw [hok2]
  simp only [hok3]
  rfl

end TreeBuild

end Huffman
end HuffmanMPI

namespace HuffmanMPI
namespace Huffman

open Heap

section TreeBuild
variable {T W : Type} [LinearOrder W] [Add W]

theorem mergeStep_invariant {Q : List (Node T W) → Prop} (hQ : MergeInvariant Q)
    (heap : MinHeap (Node T W)) (nodes : List (Node T W))
    (hsize : 2 ≤ heap.pool.length) (hheap : IsHeap heap.pool) (hq : Q heap.pool) :
    ∃ heap' nodes', Tree.mergeStep heap nodes = .ok (heap', nodes') ∧
      heap'.pool.length + 1 = heap.pool.length ∧ IsHeap heap'.pool ∧ Q heap'.pool := by
  obtain ⟨first, second, heap1, heap2, heap3, _, _, _, hok, hp1, hp2, hp3, hmin1, hmin2, hh3⟩ :=
    mergeStep_spec heap nodes hsize hheap
  refine ⟨heap3, _, hok, ?_, hh3, ?_⟩
  · have l1 := hp1.length_eq
    have l2 := hp2.length_eq
    have l3 := hp3.length_eq
    simp only [List.length_cons] at l1 l2 l3
    omega
  · have hall : (first :: second :: heap2.pool).Perm heap.pool :=
      (List.Perm.cons _ hp2).trans hp1
    have hq' : Q (first :: second :: heap2.pool) := hQ.perm _ _ hall.symm hq
    have hm1 : ∀ y ∈ second :: heap2.pool, first ≤ y := by
      intro y hy
      exact hmin1 y (hp1.subset (List.mem_cons_of_mem _ (hp2.subset hy)))
    have hm2 : ∀ y ∈ heap2.pool, second ≤ y := by
      intro y hy
      exact hmin2 y (hp2.subset (List.mem_cons_of_mem _ hy))
    exact hQ.perm _ _ hp3.symm (hQ.step _ _ _ hm1 hm2 hq')

theorem mergeLoop_invariant {Q : List (Node T W) → Prop} (hQ : MergeInvariant Q)
    (fuel : Nat) (heap : MinHeap (Node T W)) (nodes : List (Node T W))
    (hfuel : heap.pool.length < fuel) (hpos : 0 < heap.pool.length)
    (hheap : IsHeap heap.pool) (hq : Q heap.pool) :
    ∃ root nodes', Tree.mergeLoop fuel heap nodes = .ok (⟨[root]⟩, nodes') ∧ Q [root] := by
  induction fuel generalizing heap nodes with
  | zero => omega
  | succ fuel ih =>
    rw [Tree.mergeLoop]
    by_cases h1 : heap.size = 1
    · rw [if_neg (by simpa using h1)]
      obtain ⟨pool⟩ := heap
      simp only [MinHeap.size] at h1
      obtain ⟨root, rfl⟩ := List.length_eq_one.mp h1
      exact ⟨root, nodes, rfl, hq⟩
    · rw [if_pos h1]
      have hsize : 2 ≤ heap.pool.length := by
        simp only [MinHeap.size] at h1; omega
      obtain ⟨heap', nodes', hok, hlen, hh', hq'⟩ := mergeStep_invariant hQ heap nodes hsize hheap hq
      rw [hok]
      simp only [bind, Except.bind]
      exact ih heap' nodes' (by omega) (by omega) hh' hq'

theorem pop_singleton (root : Node T W) :
    (⟨[root]⟩ : MinHeap (Node T W)).pop = .ok (root, ⟨[]⟩) := by
  rfl

/-- The constructor succeeds on a non-empty table, and a property of the leaves
that every merge keeps holds of the root. -/
theorem Tree_invariant {Q : List (Node T W) → Prop} (hQ : MergeInvariant Q) (dict : Map T W)
    (hne : dict ≠ []) (h0 : Q (dict.map (fun kv => Node.leaf kv.1 kv.2))) :
    ∃ root nodes, Tree.Tree dict = .ok ⟨some root, nodes⟩ ∧ Q [root] := by
  obtain ⟨heap, hok, hperm, hheap⟩ := leafHeap_spec dict
  have hpos : 0 < heap.pool.length := by
    rw [hperm.length_eq, List.length_map]
    exact List.length_pos.mpr hne
  obtain ⟨root, nodes', hloop, hq⟩ :=
    mergeLoop_invariant hQ (heap.size + 1) heap [] (by simp [MinHeap.size]) hpos hheap
      (hQ.perm _ _ hperm.symm h0)
  refine ⟨root, nodes' ++ [root], ?_, hq⟩
  unfold Tree.Tree
  rw [hok]
  simp only [bind, Except.bind]
  rw [hloop]
  simp only [pop_singleton]
  rfl

theorem Tree_empty : Tree.Tree ([] : Map T W) = .error .out_of_range := by
  rfl

theorem loopState_invariant {Q : List (Node T W) → Prop} (hQ : MergeInvariant Q) (dict : Map T W)
    (hne : dict ≠ []) (h0 : Q (dict.map (fun kv => Node.leaf kv.1 kv.2)))
    (heap : MinHeap (Node T W)) (nodes : List (Node T W)) (h : Tree.LoopState dict heap nodes) :
    0 < heap.pool.length ∧ IsHeap heap.pool ∧ Q heap.pool := by
  induction h with
  | start heap hstart =>
    obtain ⟨heap', hok, hperm, hheap⟩ := leafHeap_spec dict
    rw [hok] at hstart
    cases hstart
    refine ⟨?_, hheap, hQ.perm _ _ hperm.symm h0⟩
    rw [hperm.length_eq, List.length_map]
    exact List.length_pos.mpr hne
  | iterate heap heap' nodes nodes' _ hsize hstep ih =>
    obtain ⟨hpos, hheap, hq⟩ := ih
    have h2 : 2 ≤ heap.pool.length := by
      simp only [MinHeap.size] at hsize; omega
    obtain ⟨heap'', nodes'', hok, hlen, hh', hq'⟩ := mergeStep_invariant hQ heap nodes h2 hheap hq
    rw [hok] at hstep
    cases hstep
    exact ⟨by omega, hh', hq'⟩

end TreeBuild

end Huffman
end HuffmanMPI

namespace HuffmanMPI
namespace Huffman

open Heap

section TreeFacts
variable {T W : Type} [LinearOrder W] [Add W]

theorem Node.merge_of_le {a b : Node T W} (h : a ≤ b) :
    Node.merge a b = .inner (a.probability + b.probability) a b := by
  unfold Node.merge
  rw [if_pos ((Node.le_def a b).mp h)]

theorem Node.merge_leaves_perm (a b : Node T W) :
    (Node.merge a b).leaves.Perm (a.leaves ++ b.leaves) := by
  unfold Node.merge
  split
  · exact List.Perm.refl _
  · exact List.perm_append_comm

theorem Node.merge_leftLight (a b : Node T W) (ha : a.LeftLight) (hb : b.LeftLight) :
    (Node.merge a b).LeftLight := by
  unfold Node.merge
  split
  · next h => exact ⟨h, ha, hb⟩
  · next h => exact ⟨le_of_lt (not_le.mp h), hb, ha⟩

theorem mergeInvariant_forall (P : Node T W → Prop)
    (hP : ∀ a b, a ≤ b → P a → P b → P (Node.merge a b)) :
    MergeInvariant (fun l : List (Node T W) => ∀ n ∈ l, P n) where
  perm := fun l l' hp h n hn => h n (hp.symm.subset hn)
  step := fun a b rest hab _ h n hn => by
    rcases List.mem_cons.mp hn with rfl | hn
    · exact hP a b (hab b (List.mem_cons_self _ _)) (h a (List.mem_cons_self _ _))
        (h b (List.mem_cons_of_mem _ (List.mem_cons_self _ _)))
    · exact h n (List.mem_cons_of_mem _ (List.mem_cons_of_mem _ hn))

theorem mergeInvariant_leaves (dict : Map T W) :
    MergeInvariant (fun l : List (Node T W) => (l.flatMap Node.leaves).Perm dict) where
  perm := fun l l' hp h => (List.Perm.flatMap_right _ hp.symm).trans h
  step := fun a b rest _ _ h => by
    simp only [List.flatMap_cons] at h ⊢
    refine List.Perm.trans ?_ h
    rw [← List.append_assoc]
    exact List.Perm.append_right _ (Node.merge_leaves_perm a b)

theorem leaves_map_leaf (dict : Map T W) :
    (dict.map (fun kv => (Node.leaf kv.1 kv.2 : Node T W))).flatMap Node.leaves = dict := by
  induction dict with
  | nil => rfl
  | cons kv rest ih =>
    simp only [List.map_cons, List.flatMap_cons, Node.leaves, ih]
    rfl

/-- The constructor succeeds on a non-empty table; the tree has a root, whose leaves
are the entries of the table, which satisfies the weight-sum and left-light
properties. -/
theorem Tree_spec (dict : Map T W) (hne : dict ≠ []) :
    ∃ root nodes, Tree.Tree dict = .ok ⟨some root, nodes⟩ ∧ root.leaves.Perm dict ∧
      root.WeightSum ∧ root.LeftLight := by
  have hQ : MergeInvariant (fun l : List (Node T W) =>
      (l.flatMap Node.leaves).Perm dict ∧ (∀ n ∈ l, n.WeightSum) ∧ (∀ n ∈ l, n.LeftLight)) :=
    { perm := fun l l' hp h =>
        ⟨(mergeInvariant_leaves dict).perm l l' hp h.1,
         (mergeInvariant_forall Node.WeightSum (fun a b hab ha hb => by
            rw [Node.merge_of_le hab]; exact ⟨rfl, ha, hb⟩)).perm l l' hp h.2.1,
         (mergeInvariant_forall Node.LeftLight (fun a b _ ha hb =>
            Node.merge_leftLight a b ha hb)).perm l l' hp h.2.2⟩
      step := fun a b rest h1 h2 h =>
        ⟨(mergeInvariant_leaves dict).step a b rest h1 h2 h.1,
         (mergeInvariant_forall Node.WeightSum (fun a b hab ha hb => by
            rw [Node.merge_of_le hab]; exact ⟨rfl, ha, hb⟩)).step a b rest h1 h2 h.2.1,
         (mergeInvariant_forall Node.LeftLight (fun a b _ ha hb =>
            Node.merge_leftLight a b ha hb)).step a b rest h1 h2 h.2.2⟩ }
  obtain ⟨root, nodes, hok, hq⟩ := Tree_invariant hQ dict hne (by
    refine ⟨by rw [leaves_map_leaf], ?_, ?_⟩
    · intro n hn
      obtain ⟨kv, _, rfl⟩ := List.mem_map.mp hn
      trivial
    · intro n hn
      obtain ⟨kv, _, rfl⟩ := List.mem_map.mp hn
      trivial)
  refine ⟨root, nodes, hok, by simpa using hq.1, hq.2.1 root (List.mem_singleton_self _),
    hq.2.2 root (List.mem_singleton_self _)⟩

end TreeFacts

end Huffman
end HuffmanMPI

namespace HuffmanMPI
namespace Huffman

open Heap

section TreeClaims
variable {T W : Type} [LinearOrder W] [Add W]

theorem mergeLoop_loopState (dict : Map T W) (fuel : Nat) (heap heap' : MinHeap (Node T W))
    (nodes nodes' : List (Node T W)) (hs : Tree.LoopState dict heap nodes)
    (h : Tree.mergeLoop fuel heap nodes = .ok (heap', nodes')) :
    Tree.LoopState dict heap' nodes' ∧ heap'.size = 1 := by
  induction fuel generalizing heap nodes with
  | zero => rw [Tree.mergeLoop] at h; cases h
  | succ fuel ih =>
    rw [Tree.mergeLoop] at h
    by_cases h1 : heap.size = 1
    · rw [if_neg (by simpa using h1)] at h
      cases h
      exact ⟨hs, h1⟩
    · rw [if_pos h1] at h
      cases hstep : Tree.mergeStep heap nodes with
      | error e => rw [hstep] at h; cases h
      | ok r =>
        obtain ⟨heap1, nodes1⟩ := r
        rw [hstep] at h
        exact ih heap1 nodes1 (Tree.LoopState.iterate heap heap1 nodes nodes1 hs h1 hstep) h

theorem Tree_loopState (dict : Map T W) (root : Node T W) (nodes : List (Node T W))
    (h : Tree.Tree dict = .ok ⟨some root, nodes⟩) :
    ∃ nodes', nodes = nodes' ++ [root] ∧ Tree.LoopState dict ⟨[root]⟩ nodes' := by
  unfold Tree.Tree at h
  cases h0 : Tree.leafHeap dict with
  | error e => rw [h0] at h; cases h
  | ok heap0 =>
    rw [h0] at h
    simp only [bind, Except.bind] at h
    cases h1 : Tree.mergeLoop (heap0.size + 1) heap0 [] with
    | error e => rw [h1] at h; cases h
    | ok r =>
      obtain ⟨heap1, nodes1⟩ := r
      rw [h1] at h
      simp only at h
      obtain ⟨hls, hsize⟩ := mergeLoop_loopState dict _ heap0 heap1 [] nodes1
        (Tree.LoopState.start heap0 h0) h1
      obtain ⟨pool⟩ := heap1
      simp only [MinHeap.size] at hsize
      obtain ⟨r0, rfl⟩ := List.length_eq_one.mp hsize
      rw [pop_singleton] at h
      simp only [pure, Except.pure] at h
      cases h
      exact ⟨nodes1, rfl, hls⟩

/-- The iteration bound of the merge loop is never used up. -/
theorem Tree_never_exhausts (dict : Map T W) : Tree.Tree dict ≠ .error .exhausted := by
  by_cases hne : dict = []
  · subst hne
    rw [Tree_empty]
    intro h; cases h
  · obtain ⟨root, nodes, hok, _⟩ := Tree_spec dict hne
    rw [hok]
    intro h; cases h

end TreeClaims

end Huffman
end HuffmanMPI

namespace HuffmanMPI
namespace Huffman

section Traverse
variable {T W : Type}

theorem Node.count_pos (n : Node T W) : 0 < n.count := by
  cases n <;> simp [Node.count]

theorem Node.codes_eq_paths (n : Node T W) (bits : List Bool) :
    n.codes bits = n.paths.map (fun e => (e.1, bits ++ e.2)) := by
  induction n generalizing bits with
  | leaf d p => simp [Node.codes, Node.paths]
  | inner p l r ihl ihr =>
    simp only [Node.codes, Node.paths, ihl, ihr, List.map_append, List.map_map]
    congr 1 <;> apply List.map_congr_left <;> intro e _ <;> simp

theorem Node.paths_fst (n : Node T W) : n.paths.map Prod.fst = (n.leaves.map Prod.fst).reverse := by
  induction n with
  | leaf d p => rfl
  | inner p l r ihl ihr =>
    simp only [Node.paths, Node.leaves, List.map_append, List.map_map, List.reverse_append]
    rw [← ihl, ← ihr]
    congr 1

variable [LinearOrder T]

/-- The writes `result[data] = bits` of a list of entries, in order. -/
theorem traverseLoop_eq (fuel : Nat) (unvisited : List (Node T W × List Bool))
    (result : Map T (List Bool))
    (hfuel : (unvisited.map (fun e => e.1.count)).sum ≤ fuel) :
    Tree.traverseLoop fuel unvisited result
      = (unvisited.flatMap (fun e => e.1.codes e.2)).foldl (fun res e => Map.set res e.1 e.2) result := by
  induction fuel generalizing unvisited result with
  | zero =>
    cases unvisited with
    | nil => rfl
    | cons e rest =>
      have := Node.count_pos e.1
      simp at hfuel
      omega
  | succ fuel ih =>
    cases unvisited with
    | nil => rfl
    | cons e rest =>
      obtain ⟨node, bits⟩ := e
      cases node with
      | leaf d p =>
        rw [Tree.traverseLoop, ih]
        · simp [Node.codes]
        · simp [Node.count] at hfuel; omega
      | inner p l r =>
        rw [Tree.traverseLoop, ih]
        · simp [Node.codes]
        · simp [Node.count] at hfuel ⊢; omega

theorem foldl_set_WF (entries : List (T × List Bool)) (m : Map T (List Bool)) (hm : m.WF) :
    (entries.foldl (fun res e => Map.set res e.1 e.2) m).WF := by
  induction entries generalizing m with
  | nil => exact hm
  | cons e rest ih => exact ih _ (Map.set_WF hm _ _)

theorem foldl_set_find_of_not_mem (entries : List (T × List Bool)) (m : Map T (List Bool)) (k : T)
    (hk : k ∉ entries.map Prod.fst) :
    (entries.foldl (fun res e => Map.set res e.1 e.2) m).find k = m.find k := by
  induction entries generalizing m with
  | nil => rfl
  | cons e rest ih =>
    simp only [List.map_cons, List.mem_cons, not_or] at hk
    rw [List.foldl_cons, ih _ hk.2, Map.find_set, if_neg (fun h => hk.1 h.symm)]

theorem foldl_set_find_of_mem (entries : List (T × List Bool)) (m : Map T (List Bool))
    (hnd : (entries.map Prod.fst).Nodup) (k : T) (c : List Bool) (hk : (k, c) ∈ entries) :
    (entries.foldl (fun res e => Map.set res e.1 e.2) m).find k = some c := by
  induction entries generalizing m with
  | nil => simp at hk
  | cons e rest ih =>
    rw [List.map_cons, List.nodup_cons] at hnd
    rw [List.foldl_cons]
    rcases List.mem_cons.mp hk with h | h
    · subst h
      rw [foldl_set_find_of_not_mem _ _ _ hnd.1, Map.find_set, if_pos rfl]
    · exact ih _ hnd.2 h

theorem foldl_set_find_none (entries : List (T × List Bool)) (k : T) :
    (entries.foldl (fun res e => Map.set res e.1 e.2) ([] : Map T (List Bool))).find k = none
      ↔ k ∉ entries.map Prod.fst := by
  constructor
  · intro h hk
    -- the last write of `k` decides
    induction entries using List.reverseRecOn with
    | nil => simp at hk
    | append_singleton rest e ih =>
      rw [List.foldl_append, List.foldl_cons, List.foldl_nil, Map.find_set] at h
      by_cases he : e.1 = k
      · rw [if_pos he] at h; cases h
      · rw [if_neg he] at h
        apply ih h
        simp only [List.map_append, List.map_cons, List.map_nil, List.mem_append,
          List.mem_singleton] at hk
        rcases hk with hk | hk
        · exact hk
        · exact absurd hk.symm he
  · intro h
    rw [foldl_set_find_of_not_mem _ _ _ h]
    rfl

/-- The code table of a tree: each symbol at a leaf is mapped to the path to its leaf. -/
theorem traverse_root (root : Node T W) (nodes : List (Node T W)) :
    Tree.traverse (⟨some root, nodes⟩ : Tree T W)
      = .ok (root.paths.foldl (fun res e => Map.set res e.1 e.2) []) := by
  unfold Tree.traverse
  simp only
  rw [traverseLoop_eq _ _ _ (by simp)]
  simp [Node.codes_eq_paths]

end Traverse

end Huffman
end HuffmanMPI

namespace HuffmanMPI
namespace Huffman

section PrefixFree
variable {T W : Type}

theorem Node.paths_pairwise (n : Node T W) :
    n.paths.Pairwise (fun e₁ e₂ => ¬ e₁.2 <+: e₂.2 ∧ ¬ e₂.2 <+: e₁.2) := by
  induction n with
  | leaf d p => simp [Node.paths]
  | inner p l r ihl ihr =>
    rw [Node.paths, List.pairwise_append]
    refine ⟨?_, ?_, ?_⟩
    · rw [List.pairwise_map]
      exact ihr.imp (fun {a b} h => by simpa [List.cons_prefix_cons] using h)
    · rw [List.pairwise_map]
      exact ihl.imp (fun {a b} h => by simpa [List.cons_prefix_cons] using h)
    · intro a ha b hb
      obtain ⟨a', _, rfl⟩ := List.mem_map.mp ha
      obtain ⟨b', _, rfl⟩ := List.mem_map.mp hb
      simp [List.cons_prefix_cons]

variable [LinearOrder T]

theorem foldl_set_mem_of_find (entries : List (T × List Bool)) (k : T) (c : List Bool)
    (h : (entries.foldl (fun res e => Map.set res e.1 e.2) ([] : Map T (List Bool))).find k = some c) :
    (k, c) ∈ entries := by
  induction entries using List.reverseRecOn with
  | nil => simp [Map.find] at h
  | append_singleton rest e ih =>
    rw [List.foldl_append, List.foldl_cons, List.foldl_nil, Map.find_set] at h
    by_cases he : e.1 = k
    · rw [if_pos he] at h
      cases h
      subst he
      simp
    · rw [if_neg he] at h
      exact List.mem_append_left _ (ih h)

theorem paths_prefix_free (root : Node T W) (s₁ s₂ : T) (c₁ c₂ : List Bool) (hs : s₁ ≠ s₂)
    (h₁ : (root.paths.foldl (fun res e => Map.set res e.1 e.2) ([] : Map T (List Bool))).find s₁ = some c₁)
    (h₂ : (root.paths.foldl (fun res e => Map.set res e.1 e.2) ([] : Map T (List Bool))).find s₂ = some c₂) :
    ¬ c₁ <+: c₂ := by
  have m₁ := foldl_set_mem_of_find _ _ _ h₁
  have m₂ := foldl_set_mem_of_find _ _ _ h₂
  have hsym : Symmetric (fun e₁ e₂ : T × List Bool => ¬ e₁.2 <+: e₂.2 ∧ ¬ e₂.2 <+: e₁.2) :=
    fun a b h => ⟨h.2, h.1⟩
  have := (Node.paths_pairwise root).forall hsym m₁ m₂ (by
    intro h; exact hs (congrArg Prod.fst h))
  exact this.1

end PrefixFree

end Huffman
end HuffmanMPI

namespace HuffmanMPI
namespace Huffman

section RoundTrip
variable {T W : Type} [LinearOrder T]

theorem index_getD (dict : Map T (List Bool)) (item k : T) :
    ((dict.index item []).2.find k).getD [] = (dict.find k).getD [] := by
  unfold Map.index
  cases h : dict.find item with
  | some v => rfl
  | none =>
    simp only
    rw [Map.find_set]
    by_cases hk : item = k
    · subst hk; rw [if_pos rfl, h]; rfl
    · rw [if_neg hk]

theorem index_fst (dict : Map T (List Bool)) (item : T) :
    (dict.index item []).1 = (dict.find item).getD [] := by
  unfold Map.index
  cases h : dict.find item <;> rfl

/-- The loop of `encode` concatenates the codes of the symbols; a symbol without a
code contributes nothing. -/
theorem encodeLoop_eq (dict : Map T (List Bool)) (range : List T) (encoded : List Bool) :
    Encoder.encodeLoop dict range encoded
      = encoded ++ range.flatMap (fun s => (dict.find s).getD []) := by
  induction range generalizing dict encoded with
  | nil => simp [Encoder.encodeLoop]
  | cons item rest ih =>
    rw [Encoder.encodeLoop]
    simp only
    rw [ih, index_fst, List.flatMap_cons, List.append_assoc]
    congr 2
    apply List.flatMap_congr
    intro k _
    exact index_getD dict item k

theorem decodeLoop_path (root : Node T W) (n : Node T W) (hn : n.isLeaf = false)
    (s : T) (p : List Bool) (hp : (s, p) ∈ n.paths) (rest : List Bool) (decoded : List T) :
    Decoder.decodeLoop root n (p ++ rest) decoded
      = Decoder.decodeLoop root root rest (decoded ++ [s]) := by
  induction n generalizing p with
  | leaf d q => simp [Node.isLeaf] at hn
  | inner q l r ihl ihr =>
    rw [Node.paths, List.mem_append] at hp
    rcases hp with hp | hp
    · obtain ⟨e, he, heq⟩ := List.mem_map.mp hp
      cases heq
      rw [List.cons_append, Decoder.decodeLoop]
      simp only [Bool.false_eq_true, if_false, Node.right]
      cases r with
      | leaf d q' =>
        simp only [Node.paths, List.mem_singleton] at he
        subst he
        rfl
      | inner q' l' r' => exact ihr rfl _ he
    · obtain ⟨e, he, heq⟩ := List.mem_map.mp hp
      cases heq
      rw [List.cons_append, Decoder.decodeLoop]
      simp only [if_true, Node.left]
      cases l with
      | leaf d q' =>
        simp only [Node.paths, List.mem_singleton] at he
        subst he
        rfl
      | inner q' l' r' => exact ihl rfl _ he

theorem decodeLoop_flatMap (root : Node T W) (hroot : root.isLeaf = false)
    (code : T → List Bool) (range : List T) (hcode : ∀ s ∈ range, (s, code s) ∈ root.paths)
    (decoded : List T) :
    Decoder.decodeLoop root root (range.flatMap code) decoded = .ok (decoded ++ range) := by
  induction range generalizing decoded with
  | nil => simp [Decoder.decodeLoop]; rfl
  | cons s rest ih =>
    rw [List.flatMap_cons, decodeLoop_path root root hroot s (code s)
      (hcode s (List.mem_cons_self _ _)), ih (fun s hs => hcode s (List.mem_cons_of_mem _ hs))]
    simp

end RoundTrip

end Huffman
end HuffmanMPI

namespace HuffmanMPI
namespace Huffman

section Partition

theorem toInt_of_lt {n : Nat} (h : n < 2 ^ 31) : toInt n = (n : Int) := by
  unfold toInt
  have h1 : n % 2 ^ 32 = n := Nat.mod_eq_of_lt (by omega)
  rw [h1, if_pos h]

theorem slice_of_lt {n world_size world_rank : Nat} (h : n < 2 ^ 31) :
    slice n world_size world_rank =
      (((world_rank * (n / world_size) : Nat) : Int),
       if world_rank + 1 = world_size then (n : Int)
       else ((world_rank * (n / world_size) + n / world_size : Nat) : Int)) := by
  unfold slice
  simp only [toInt_of_lt h]
  rw [← Int.ofNat_tdiv]
  apply Prod.ext
  · simp only; push_cast; rfl
  · simp only
    by_cases hl : world_rank + 1 = world_size
    · rw [if_pos hl, if_pos (by omega)]
    · rw [if_neg hl, if_neg (by omega)]
      push_cast; rfl

variable {T : Type}

/-- The part of `data` rank `world_rank` takes, when the partition is sound. -/
theorem subrange_slice (data : List T) (world_size world_rank : Nat)
    (h : data.length < 2 ^ 31) (hr : world_rank < world_size) :
    subrange data (slice data.length world_size world_rank)
      = .ok (if world_rank + 1 = world_size then data.drop (world_rank * (data.length / world_size))
             else (data.drop (world_rank * (data.length / world_size))).take
                    (data.length / world_size)) := by
  rw [slice_of_lt h]
  have hmul : world_size * (data.length / world_size) ≤ data.length := Nat.mul_div_le _ _
  have hle : world_rank * (data.length / world_size) + data.length / world_size
      ≤ world_size * (data.length / world_size) := by
    have : (world_rank + 1) * (data.length / world_size)
        ≤ world_size * (data.length / world_size) := Nat.mul_le_mul_right _ hr
    rw [Nat.add_mul, Nat.one_mul] at this
    exact this
  generalize data.length / world_size = o at *
  generalize hs : world_rank * o = s at *
  generalize world_size * o = e at *
  unfold subrange
  by_cases hl : world_rank + 1 = world_size
  · simp only [if_pos hl]
    rw [if_pos (by refine ⟨?_, ?_, ?_⟩ <;> omega)]
    congr 1
    rw [Int.toNat_ofNat]
    apply List.take_of_length_le
    rw [List.length_drop]
    omega
  · simp only [if_neg hl]
    rw [if_pos (by refine ⟨?_, ?_, ?_⟩ <;> omega)]
    congr 2
    omega

end Partition

end Huffman
end HuffmanMPI

namespace HuffmanMPI
namespace Huffman

section Gather
variable {T β : Type}

theorem gathered_succ (data : List T) (world_size rank : Nat) (hr : rank < world_size) :
    gathered data world_size rank ++
      (if rank + 1 = world_size then data.drop (rank * (data.length / world_size))
       else (data.drop (rank * (data.length / world_size))).take (data.length / world_size))
      = gathered data world_size (rank + 1) := by
  unfold gathered
  rw [if_neg (by omega)]
  by_cases hl : rank + 1 = world_size
  · rw [if_pos hl, if_pos hl, List.take_append_drop]
  · rw [if_neg hl, if_neg hl, Nat.add_mul, Nat.one_mul, List.take_add]

theorem gather_foldlM (part : Nat → Except Failure β) (value : Nat → β) (merge : β → β → β)
    (start count : Nat) (acc : β)
    (h : ∀ r, start ≤ r → r < start + count → part r = .ok (value r)) :
    (List.range' start count).foldlM (fun acc r => do
        let received ← part r
        pure (merge acc received)) acc
      = .ok ((List.range' start count).foldl (fun acc r => merge acc (value r)) acc) := by
  induction count generalizing start acc with
  | zero => rfl
  | succ count ih =>
    rw [List.range'_succ, List.foldlM_cons, List.foldl_cons, h start (le_refl _) (by omega)]
    simp only [bind, Except.bind, pure, Except.pure]
    exact ih (start + 1) _ (fun r h1 h2 => h r (by omega) (by omega))

theorem gather_foldl (data : List T) (world_size : Nat) (f : List T → β) (merge : β → β → β)
    (hf : ∀ a b, merge (f a) (f b) = f (a ++ b)) (start count : Nat)
    (hc : start + count ≤ world_size) :
    (List.range' start count).foldl (fun acc r => merge acc
        (f (if r + 1 = world_size then data.drop (r * (data.length / world_size))
            else (data.drop (r * (data.length / world_size))).take (data.length / world_size))))
        (f (gathered data world_size start))
      = f (gathered data world_size (start + count)) := by
  induction count generalizing start with
  | zero => rfl
  | succ count ih =>
    rw [List.range'_succ, List.foldl_cons, hf, gathered_succ data world_size start (by omega),
      ih (start + 1) (by omega)]
    congr 2
    omega

/-- The scatter-gather scheme of `MPI_Statistic` and `MPI_Encode`: when the ranks
compute `f` on their slices and rank 0 merges the results in rank order, and merging
`f a` with `f b` gives `f (a ++ b)`, the result is `f` of the whole range. -/
theorem gather_spec (data : List T) (world_size : Nat) (hw : 1 ≤ world_size)
    (hlen : data.length < 2 ^ 31) (compute : List T → Except Failure β) (f : List T → β)
    (merge : β → β → β) (hcompute : ∀ range, compute range = .ok (f range))
    (hf : ∀ a b, merge (f a) (f b) = f (a ++ b)) :
    (do
      let part ← (subrange data (slice data.length world_size 0)) >>= compute
      (List.range' 1 (world_size - 1)).foldlM (fun acc source => do
        let received ← (subrange data (slice data.length world_size source)) >>= compute
        pure (merge acc received)) part)
      = .ok (f data) := by
  have hpart : ∀ r, r < world_size →
      ((subrange data (slice data.length world_size r)) >>= compute)
        = .ok (f (if r + 1 = world_size then data.drop (r * (data.length / world_size))
            else (data.drop (r * (data.length / world_size))).take (data.length / world_size))) := by
    intro r hr
    rw [subrange_slice data world_size r hlen hr]
    simp only [bind, Except.bind]
    exact hcompute _
  rw [hpart 0 (by omega)]
  simp only [bind, Except.bind]
  have h0 := gathered_succ data world_size 0 (by omega)
  have hg0 : gathered data world_size 0 = [] := by
    unfold gathered
    rw [if_neg (by omega)]
    simp
  rw [hg0, List.nil_append, Nat.zero_add] at h0
  have := gather_foldlM (fun r => (subrange data (slice data.length world_size r)) >>= compute)
    (fun r => f (if r + 1 = world_size then data.drop (r * (data.length / world_size))
            else (data.drop (r * (data.length / world_size))).take (data.length / world_size)))
    merge 1 (world_size - 1)
    (f (if 0 + 1 = world_size then data.drop (0 * (data.length / world_size))
            else (data.drop (0 * (data.length / world_size))).take (data.length / world_size)))
    (fun r h1 h2 => hpart r (by omega))
  simp only [bind, Except.bind] at this
  rw [this, h0, gather_foldl data world_size f merge hf 1 (world_size - 1) (by omega)]
  congr 2
  unfold gathered
  rw [if_pos (by omega)]

end Gather

end Huffman
end HuffmanMPI

namespace HuffmanMPI
namespace Huffman

section Statistic
variable {T : Type} [LinearOrder T]

theorem statistic_foldl_WF (range : List T) (m : Map T Nat) (hm : m.WF) :
    (range.foldl countItem m).WF := by
  induction range generalizing m with
  | nil => exact hm
  | cons x rest ih =>
    rw [List.foldl_cons]
    apply ih
    unfold countItem
    cases Map.find m x <;> exact Map.set_WF hm _ _

theorem statistic_foldl_find (range : List T) (m : Map T Nat) (k : T) :
    (range.foldl countItem m).find k
      = match m.find k with
        | none => if range.count k = 0 then none else some (range.count k)
        | some n => some (n + range.count k) := by
  induction range generalizing m with
  | nil => cases h : Map.find m k <;> simp [h]
  | cons x rest ih =>
    rw [List.foldl_cons, ih]
    unfold countItem
    by_cases hx : x = k
    · subst hx
      cases h : Map.find m x with
      | none => simp [Map.find_set]; omega
      | some n => simp [Map.find_set]; omega
    · have hc : (x :: rest).count k = rest.count k := by
        rw [List.count_cons, if_neg (by simpa using hx)]; rfl
      rw [hc]
      cases h : Map.find m x <;> simp [Map.find_set, hx]

theorem statistic_WF (range : List T) : (statistic range).WF :=
  statistic_foldl_WF range [] (by simp [Map.WF])

/-- `statistic` maps each symbol of the range to its number of occurrences, and no
other symbol. -/
theorem statistic_find (range : List T) (k : T) :
    (statistic range).find k = if k ∈ range then some (range.count k) else none := by
  unfold statistic
  rw [statistic_foldl_find]
  simp only [Map.find]
  by_cases hk : k ∈ range
  · rw [if_pos hk, if_neg (by
      have := List.count_pos_iff.mpr hk
      omega)]
  · rw [if_neg hk, if_pos (List.count_eq_zero.mpr hk)]

theorem mergeReceived_WF (part received : Map T Nat) (hp : part.WF) :
    (mergeReceived part received).WF := by
  unfold mergeReceived
  induction received generalizing part with
  | nil => exact hp
  | cons e rest ih =>
    rw [List.foldl_cons]
    apply ih
    unfold mergeEntry
    cases Map.find part e.1 <;> exact Map.set_WF hp _ _

theorem mergeReceived_find (part received : Map T Nat) (hr : received.WF) (k : T) :
    (mergeReceived part received).find k
      = match part.find k, received.find k with
        | none, none => none
        | some a, none => some a
        | none, some b => some b
        | some a, some b => some (a + b) := by
  unfold mergeReceived
  induction received generalizing part with
  | nil => cases h : Map.find part k <;> simp [Map.find, h]
  | cons e rest ih =>
    obtain ⟨k0, v0⟩ := e
    have hr' := hr
    rw [Map.WF, List.pairwise_cons] at hr'
    rw [List.foldl_cons, ih _ hr'.2]
    unfold mergeEntry
    simp only [Map.find]
    by_cases hk : k0 = k
    · subst hk
      have hnone : Map.find rest k0 = none := by
        rw [Map.find_eq_none_iff]
        intro e he
        exact (ne_of_lt (hr'.1 e he)).symm
      rw [hnone, if_pos rfl]
      cases h : Map.find part k0 <;> simp [Map.find_set]
    · rw [if_neg hk]
      cases h : Map.find part k0 <;> simp [Map.find_set, hk]

theorem statistic_append (a b : List T) :
    mergeReceived (statistic a) (statistic b) = statistic (a ++ b) := by
  apply Map.ext (mergeReceived_WF _ _ (statistic_WF a)) (statistic_WF _)
  intro k
  rw [mergeReceived_find _ _ (statistic_WF b), statistic_find, statistic_find, statistic_find]
  by_cases ha : k ∈ a <;> by_cases hb : k ∈ b <;> simp [ha, hb, List.count_append]
  · exact List.count_eq_zero.mpr hb
  · exact List.count_eq_zero.mpr ha

/-- The merged counts of `MPI_Statistic` are the counts of the whole range, when
`static_cast<int>` keeps the number of elements. -/
theorem MPI_Statistic_eq (world_size : Nat) (data : List T) (hw : 1 ≤ world_size)
    (hlen : data.length < 2 ^ 31) :
    MPI_Statistic world_size data = .ok (statistic data) := by
  have := gather_spec data world_size hw hlen (fun range => .ok (statistic range)) statistic
    mergeReceived (fun _ => rfl) statistic_append
  rw [← this]
  unfold MPI_Statistic
  rfl

end Statistic

end Huffman
end HuffmanMPI

namespace HuffmanMPI
namespace Huffman

section EncoderFacts
variable {T W : Type} [LinearOrder T]

theorem foldl_set_sorted {V V' : Type} (g : V → V') (stats : Map T V) (acc : Map T V')
    (hs : stats.WF) (hacc : ∀ e ∈ acc, ∀ e' ∈ stats, e.1 < e'.1) :
    stats.foldl (fun frequency pair => Map.set frequency pair.1 (g pair.2)) acc
      = acc ++ stats.map (fun pair => (pair.1, g pair.2)) := by
  induction stats generalizing acc with
  | nil => simp
  | cons e rest ih =>
    rw [Map.WF, List.pairwise_cons] at hs
    rw [List.foldl_cons, Map.set_append_of_lt _ _ _ (fun a ha => hacc a ha e (List.mem_cons_self _ _)),
      ih _ hs.2]
    · simp
    · intro a ha b hb
      rcases List.mem_append.mp ha with ha | ha
      · exact hacc a ha b (List.mem_cons_of_mem _ hb)
      · simp only [List.mem_singleton] at ha
        subst ha
        exact hs.1 b hb

theorem map_WF {V V' : Type} (g : V → V') (stats : Map T V) (hs : stats.WF) :
    Map.WF (stats.map (fun pair => (pair.1, g pair.2))) := by
  unfold Map.WF at *
  rw [List.pairwise_map]
  exact hs

theorem statistic_keys (range : List T) (e : T × Nat) (he : e ∈ statistic range) :
    e.1 ∈ range := by
  have := Map.find_of_mem (statistic_WF range) (k := e.1) (v := e.2) he
  rw [statistic_find] at this
  by_contra h
  rw [if_neg h] at this
  cases this

theorem mem_statistic (range : List T) (k : T) (hk : k ∈ range) :
    (k, range.count k) ∈ statistic range := by
  apply Map.mem_of_find
  rw [statistic_find, if_pos hk]

theorem mergeReceived_keys (part received : Map T Nat) (e : T × Nat)
    (he : e ∈ mergeReceived part received) :
    (∃ e' ∈ part, e'.1 = e.1) ∨ (∃ e' ∈ received, e'.1 = e.1) := by
  unfold mergeReceived at he
  induction received generalizing part with
  | nil => exact Or.inl ⟨e, he, rfl⟩
  | cons r rest ih =>
    rw [List.foldl_cons] at he
    rcases ih _ he with ⟨e', he', hk⟩ | ⟨e', he', hk⟩
    · unfold mergeEntry at he'
      have : e' = (r.1, e'.2) ∨ e' ∈ part := by
        cases hf : Map.find part r.1 <;> rw [hf] at he' <;> simp only at he'
        · rcases Map.mem_set he' with h | h
          · exact Or.inl (by rw [h])
          · exact Or.inr h
        · rcases Map.mem_set he' with h | h
          · exact Or.inl (by rw [h])
          · exact Or.inr h
      rcases this with h | h
      · exact Or.inr ⟨r, List.mem_cons_self _ _, by rw [← hk, h]⟩
      · exact Or.inl ⟨e', h, hk⟩
    · exact Or.inr ⟨e', List.mem_cons_of_mem _ he', hk⟩

theorem subrange_subset (data range : List T) (bounds : Int × Int)
    (h : subrange data bounds = .ok range) : range ⊆ data := by
  unfold subrange at h
  split at h
  · cases h
    exact fun x hx => List.mem_of_mem_drop (List.mem_of_mem_take hx)
  · cases h

theorem foldlM_invariant {β γ : Type} (f : β → γ → Except Failure β) (Inv : β → Prop)
    (hstep : ∀ acc x acc', f acc x = .ok acc' → Inv acc → Inv acc') (l : List γ) (init r : β)
    (hinit : Inv init) (h : l.foldlM f init = .ok r) : Inv r := by
  induction l generalizing init with
  | nil => cases h; exact hinit
  | cons x rest ih =>
    rw [List.foldlM_cons] at h
    cases hf : f init x with
    | error e => rw [hf] at h; cases h
    | ok acc' =>
      rw [hf] at h
      exact ih acc' (hstep init x acc' hf hinit) h

theorem MPI_Statistic_inv (world_size : Nat) (data : List T) (stats : Map T Nat)
    (h : MPI_Statistic world_size data = .ok stats) :
    stats.WF ∧ ∀ e ∈ stats, e.1 ∈ data := by
  unfold MPI_Statistic at h
  cases h0 : subrange data (slice data.length world_size 0) with
  | error e => rw [h0] at h; cases h
  | ok r0 =>
    rw [h0] at h
    simp only [bind, Except.bind, Functor.map, Except.map] at h
    refine foldlM_invariant _ (fun stats => stats.WF ∧ ∀ e ∈ stats, e.1 ∈ data) ?_ _ _ _ ?_ h
    · intro acc source acc' hstep hinv
      cases hs : subrange data (slice data.length world_size source) with
      | error e => rw [hs] at hstep; cases hstep
      | ok r =>
        rw [hs] at hstep
        cases hstep
        refine ⟨mergeReceived_WF _ _ hinv.1, ?_⟩
        intro e he
        rcases mergeReceived_keys _ _ e he with ⟨e', he', hk⟩ | ⟨e', he', hk⟩
        · rw [← hk]; exact hinv.2 e' he'
        · rw [← hk]; exact subrange_subset _ _ _ hs (statistic_keys r e' he')
    · exact ⟨statistic_WF r0, fun e he => subrange_subset _ _ _ h0 (statistic_keys r0 e he)⟩

theorem WF_length_le {V : Type} (m : Map T V) (data : List T) (hm : m.WF)
    (hsub : ∀ e ∈ m, e.1 ∈ data) : m.length ≤ data.length := by
  have hnd : (m.map Prod.fst).Nodup := by
    unfold List.Nodup
    rw [List.pairwise_map]
    exact hm.imp (fun {a b} h => ne_of_lt h)
  have hs : m.map Prod.fst ⊆ data := by
    intro k hk
    obtain ⟨e, he, rfl⟩ := List.mem_map.mp hk
    exact hsub e he
  have := (List.subperm_of_subset hnd hs).length_le
  simpa using this

end EncoderFacts

end Huffman
end HuffmanMPI

namespace HuffmanMPI
namespace Huffman

section DecoderFacts
variable {T W : Type} [LinearOrder T] [LinearOrder W] [Add W]

theorem read_serialize {α : Type} [Bits.Pod α] (v : α) (rest : List Bool) :
    Decoder.read (Bits.Pod.sizeof α * 8) (Bits.serialize v ++ rest)
      = .ok (Bits.serialize v, rest) := by
  unfold Decoder.read
  have hlen := Bits.serialize_length v
  rw [if_pos (by rw [List.length_append, hlen]; omega)]
  have h8 : Bits.Pod.sizeof α * 8 = (Bits.serialize v).length := by rw [hlen]; omega
  rw [h8, List.take_left, List.drop_left]

variable [Bits.Pod T] [Bits.Pod W]

theorem dict_eq (encoder : Encoder T W) :
    encoder.dict
      = Bits.serialize (Bits.toSizeT encoder.frequency.length)
        ++ encoder.frequency.flatMap (fun pair => Bits.serialize pair.1 ++ Bits.serialize pair.2) := by
  unfold Encoder.dict
  simp only
  obtain ⟨frequency, data, tree⟩ := encoder
  simp only
  generalize Bits.serialize (Bits.toSizeT frequency.length) = init
  induction frequency generalizing init with
  | nil => simp
  | cons e rest ih =>
    rw [List.foldl_cons, ih, List.flatMap_cons]
    simp [List.append_assoc]

theorem readFrequency_eq (rest acc : Map T W) (payload : List Bool) (hwf : Map.WF (acc ++ rest)) :
    Decoder.readFrequency rest.length acc
        (rest.flatMap (fun pair => Bits.serialize pair.1 ++ Bits.serialize pair.2) ++ payload)
      = .ok (acc ++ rest, payload) := by
  induction rest generalizing acc with
  | nil => simp [Decoder.readFrequency]; rfl
  | cons e rest ih =>
    rw [List.length_cons, Decoder.readFrequency, List.flatMap_cons]
    simp only [List.append_assoc]
    rw [read_serialize]
    simp only [bind, Except.bind]
    rw [Bits.deserialize_serialize, read_serialize]
    simp only
    rw [Bits.deserialize_serialize]
    simp only
    have hlt : ∀ a ∈ acc, a.1 < e.1 := by
      intro a ha
      rw [Map.WF, List.pairwise_append] at hwf
      exact hwf.2.2 a ha e (List.mem_cons_self _ _)
    rw [Map.set_append_of_lt acc e.1 e.2 hlt]
    have := ih (acc ++ [(e.1, e.2)]) (by simpa using hwf)
    simpa using this

/-- The constructor of `Decoder` on the dictionary of an encoder followed by any
bits: the frequency table is read back and the bits after it are the payload. -/
theorem Decoder_dict (encoder : Encoder T W) (payload : List Bool)
    (hwf : encoder.frequency.WF) (hlen : encoder.frequency.length < 2 ^ 64)
    (htree : Tree.Tree encoder.frequency = .ok encoder.tree) :
    Decoder.Decoder (encoder.dict ++ payload)
      = .ok ⟨encoder.tree, encoder.frequency, payload⟩ := by
  unfold Decoder.Decoder
  rw [dict_eq, List.append_assoc, read_serialize]
  simp only [bind, Except.bind]
  rw [Bits.deserialize_serialize]
  simp only
  have hval : (Bits.toSizeT encoder.frequency.length).val = encoder.frequency.length := by
    simp only [Bits.toSizeT]
    exact Nat.mod_eq_of_lt hlen
  rw [hval, readFrequency_eq encoder.frequency [] payload (by simpa using hwf)]
  simp only [List.nil_append, htree]
  rfl

end DecoderFacts

end Huffman
end HuffmanMPI

namespace HuffmanMPI
namespace Huffman

section EncoderSpec
variable {T W : Type} [LinearOrder T] [LinearOrder W] [Add W]

theorem encode_eq (encoder : Encoder T W) (root : Node T W) (nodes : List (Node T W))
    (htree : encoder.tree = ⟨some root, nodes⟩) (range : List T) :
    encoder.encode range = .ok (range.flatMap (codeOf root)) := by
  unfold Encoder.encode
  rw [htree, traverse_root]
  simp only [bind, Except.bind, pure, Except.pure]
  rw [encodeLoop_eq]
  rfl

theorem codeOf_mem_paths (root : Node T W) (hnd : (root.leaves.map Prod.fst).Nodup) (s : T)
    (hs : s ∈ root.leaves.map Prod.fst) : (s, codeOf root s) ∈ root.paths := by
  have hs' : s ∈ root.paths.map Prod.fst := by
    rw [Node.paths_fst]; exact List.mem_reverse.mpr hs
  obtain ⟨e, he, rfl⟩ := List.mem_map.mp hs'
  have hnd' : (root.paths.map Prod.fst).Nodup := by
    rw [Node.paths_fst]; exact List.nodup_reverse.mpr hnd
  have := foldl_set_find_of_mem root.paths [] hnd' e.1 e.2 he
  unfold codeOf
  rw [this]
  exact he

theorem isLeaf_false_of_leaves (root : Node T W) (h : 2 ≤ root.leaves.length) :
    root.isLeaf = false := by
  cases root with
  | leaf d p => simp [Node.leaves] at h
  | inner p l r => rfl

variable [NatCast W] [Div W]

/-- What the constructor of `Encoder` establishes. -/
theorem Encoder_inv (world_size : Nat) (data : List T) (mpi : Bool) (encoder : Encoder T W)
    (h : Encoder.Encoder world_size data mpi = .ok encoder) :
    encoder.data = data ∧ encoder.frequency.WF ∧ (∀ e ∈ encoder.frequency, e.1 ∈ data) ∧
      Tree.Tree encoder.frequency = .ok encoder.tree ∧
      ∃ stats : Map T Nat, stats.WF ∧ (mpi = false → stats = statistic data) ∧
        (if !mpi then pure (statistic data) else MPI_Statistic world_size data) = .ok stats ∧
        encoder.frequency = stats.map (fun pair => (pair.1, (pair.2 : W) / (data.length : W))) := by
  unfold Encoder.Encoder at h
  cases hs : (if !mpi then pure (statistic data) else MPI_Statistic world_size data :
      Except Failure (Map T Nat)) with
  | error e =>
    rw [hs] at h
    cases h
  | ok stats =>
    rw [hs] at h
    simp only [bind, Except.bind] at h
    have hinv : stats.WF ∧ (∀ e ∈ stats, e.1 ∈ data) ∧ (mpi = false → stats = statistic data) := by
      cases mpi with
      | false =>
        simp only [Bool.not_false, if_true] at hs
        cases hs
        exact ⟨statistic_WF data, statistic_keys data, fun _ => rfl⟩
      | true =>
        simp only [Bool.not_true, Bool.false_eq_true, if_false] at hs
        have := MPI_Statistic_inv world_size data stats hs
        exact ⟨this.1, this.2, fun h => by cases h⟩
    have hfreq := foldl_set_sorted (fun n : Nat => (n : W) / (data.length : W)) stats []
      hinv.1 (by simp)
    rw [List.nil_append] at hfreq
    rw [hfreq] at h
    cases ht : Tree.Tree (stats.map (fun pair => (pair.1, (pair.2 : W) / (data.length : W)))) with
    | error e => rw [ht] at h; cases h
    | ok tree =>
      rw [ht] at h
      cases h
      refine ⟨rfl, map_WF (fun n : Nat => (n : W) / (data.length : W)) stats hinv.1, ?_, ht,
        stats, hinv.1, hinv.2.2, rfl, rfl⟩
      intro e he
      obtain ⟨e', he', rfl⟩ := List.mem_map.mp he
      exact hinv.2.1 e' he'

/-- The constructor of `Encoder` without MPI succeeds on a non-empty range. -/
theorem Encoder_local (world_size : Nat) (data : List T) (hne : data ≠ []) :
    ∃ root nodes, Encoder.Encoder world_size data false
      = .ok (⟨(statistic data).map (fun pair => (pair.1, (pair.2 : W) / (data.length : W))),
              data, ⟨some root, nodes⟩⟩ : Encoder T W) ∧
      root.leaves.Perm ((statistic data).map (fun pair => (pair.1, (pair.2 : W) / (data.length : W))))
      := by
  have hfreq := foldl_set_sorted (fun n : Nat => (n : W) / (data.length : W)) (statistic data) []
    (statistic_WF data) (by simp)
  rw [List.nil_append] at hfreq
  have hne' : (statistic data).map (fun pair => (pair.1, (pair.2 : W) / (data.length : W))) ≠ [] := by
    obtain ⟨x, hx⟩ := List.exists_mem_of_ne_nil data hne
    have := mem_statistic data x hx
    intro h
    rw [List.map_eq_nil_iff] at h
    rw [h] at this
    cases this
  obtain ⟨root, nodes, hok, hperm, _, _⟩ := Tree_spec _ hne'
  refine ⟨root, nodes, ?_, hperm⟩
  unfold Encoder.Encoder
  simp only [Bool.not_false, if_true, bind, Except.bind, pure, Except.pure]
  rw [hfreq, hok]

end EncoderSpec

end Huffman
end HuffmanMPI

namespace HuffmanMPI
namespace Huffman

section RoundTripSpec
variable {T W : Type} [LinearOrder T] [LinearOrder W] [Add W] [NatCast W] [Div W]
  [Bits.Pod T] [Bits.Pod W]

theorem statistic_length_le (data : List T) : (statistic data).length ≤ data.length :=
  WF_length_le (statistic data) data (statistic_WF data) (statistic_keys data)

theorem two_le_statistic_length (data : List T) (h2 : ∃ a ∈ data, ∃ b ∈ data, a ≠ b) :
    2 ≤ (statistic data).length := by
  obtain ⟨a, ha, b, hb, hab⟩ := h2
  have ma := mem_statistic data a ha
  have mb := mem_statistic data b hb
  match hs : statistic data, ma, mb with
  | [], ma, _ => cases ma
  | [e], ma, mb =>
    simp only [List.mem_singleton] at ma mb
    exact absurd (congrArg Prod.fst (ma.trans mb.symm)) hab
  | _ :: _ :: _, _, _ => simp

/-- Decoding what an encoder built from `data` wrote gives `data`, when `data` has
two distinct symbols. -/
theorem decode_encoded (data : List T) (encoder : Encoder T W) (root : Node T W)
    (nodes : List (Node T W)) (h2 : ∃ a ∈ data, ∃ b ∈ data, a ≠ b) (hlen : data.length < 2 ^ 64)
    (hfreq : encoder.frequency
      = (statistic data).map (fun pair => (pair.1, (pair.2 : W) / (data.length : W))))
    (htree : encoder.tree = ⟨some root, nodes⟩)
    (hbuild : Tree.Tree encoder.frequency = .ok encoder.tree)
    (hleaves : root.leaves.Perm encoder.frequency) :
    (do
      let decoder : Decoder T W ← Decoder.Decoder (encoder.dict ++ data.flatMap (codeOf root))
      decoder.decode) = .ok data := by
  have hwf : encoder.frequency.WF := by
    rw [hfreq]
    exact map_WF (fun n : Nat => (n : W) / (data.length : W)) _ (statistic_WF data)
  have hflen : encoder.frequency.length = (statistic data).length := by
    rw [hfreq, List.length_map]
  have hlen' : encoder.frequency.length < 2 ^ 64 := by
    have := statistic_length_le data
    omega
  rw [Decoder_dict encoder _ hwf hlen' hbuild]
  simp only [bind, Except.bind, Decoder.decode, Decoder.decodeBits, htree]
  have hkeys : (root.leaves.map Prod.fst).Perm (encoder.frequency.map Prod.fst) := hleaves.map _
  have hnd : (root.leaves.map Prod.fst).Nodup := by
    rw [hkeys.nodup_iff]
    unfold Map.WF at hwf
    unfold List.Nodup
    rw [List.pairwise_map]
    exact hwf.imp (fun {a b} h => ne_of_lt h)
  have hroot : root.isLeaf = false := by
    apply isLeaf_false_of_leaves
    rw [hleaves.length_eq, hflen]
    exact two_le_statistic_length data h2
  have := decodeLoop_flatMap root hroot (codeOf root) data (by
    intro s hs
    apply codeOf_mem_paths root hnd
    rw [hkeys.mem_iff, hfreq, List.map_map]
    exact List.mem_map.mpr ⟨_, mem_statistic data s hs, rfl⟩) []
  simpa using this

/-- The bits `MPI_Encode` returns are the bits of `encode`, when `static_cast<int>`
keeps the number of elements. -/
theorem MPI_Encode_eq (encoder : Encoder T W) (root : Node T W) (nodes : List (Node T W))
    (htree : encoder.tree = ⟨some root, nodes⟩) (world_size : Nat) (range : List T)
    (hw : 1 ≤ world_size) (hlen : range.length < 2 ^ 31) :
    encoder.MPI_Encode world_size range = .ok (range.flatMap (codeOf root)) := by
  have := gather_spec range world_size hw hlen encoder.encode (fun r => r.flatMap (codeOf root))
    (· ++ ·) (encode_eq encoder root nodes htree) (fun a b => by simp)
  rw [← this]
  rfl

end RoundTripSpec

end Huffman
end HuffmanMPI

namespace HuffmanMPI
namespace Huffman

section PartitionSpec

/-- The partition of `MPI_Statistic` and `MPI_Encode` for fewer than `2 ^ 31` elements:
rank `r` takes `[r * (n / w), (r + 1) * (n / w))`, the last rank takes up to `n`; the
slices follow one another from `0` to `n`, and the last rank has `n / w + n % w`
elements. -/
theorem slice_partition_of_lt (n w : Nat) (hn : n < 2 ^ 31) (hw : 1 ≤ w) :
    (∀ r, r + 1 < w →
      slice n w r = (((r * (n / w) : Nat) : Int), (((r + 1) * (n / w) : Nat) : Int))) ∧
    slice n w (w - 1) = ((((w - 1) * (n / w) : Nat) : Int), (n : Int)) ∧
    (slice n w 0).1 = 0 ∧
    (∀ r, r + 1 < w → (slice n w r).2 = (slice n w (r + 1)).1) ∧
    n - (w - 1) * (n / w) = n / w + n % w := by
  refine ⟨?_, ?_, ?_, ?_, ?_⟩
  · intro r hr
    rw [slice_of_lt hn, if_neg (by omega), Nat.add_mul, Nat.one_mul]
  · rw [slice_of_lt hn, if_pos (by omega)]
  · rw [slice_of_lt hn]
    simp
  · intro r hr
    rw [slice_of_lt hn, slice_of_lt hn, if_neg (by omega), Nat.add_mul, Nat.one_mul]
  · have h1 := Nat.div_add_mod n w
    have h2 : w * (n / w) = (w - 1) * (n / w) + n / w := by
      have h3 : (w - 1 + 1) * (n / w) = (w - 1) * (n / w) + n / w := by
        rw [Nat.add_mul, Nat.one_mul]
      rw [Nat.sub_add_cancel hw] at h3
      exact h3
    generalize n / w = q at *
    generalize (w - 1) * q = p at *
    generalize w * q = e at *
    omega

set_option maxRecDepth 100000 in
/-- The example of the specification: for `"AAAABBCD"` and one worker the distributed
and the local encode return the same payload. -/
theorem MPI_Encode_example :
    (do
      let encoder : Encoder Byte Fixed32 ←
        Encoder.Encoder 1 [65, 65, 65, 65, 66, 66, 67, 68] true
      encoder.MPI_Encode 1 [65, 65, 65, 65, 66, 66, 67, 68])
    = (do
      let encoder : Encoder Byte Fixed32 ←
        Encoder.Encoder 1 [65, 65, 65, 65, 66, 66, 67, 68] false
      encoder.encodeData) := by
  decide

end PartitionSpec

end Huffman
end HuffmanMPI

namespace HuffmanMPI
namespace Bits
namespace BitArray

/-- Bit `7 - j` of the byte `current` after `if (value) current |= 1 << (7 - count)`. -/
theorem packByte_testBit (current : Byte) (value : Bool) (count j : Nat) (hc : count < 8)
    (hj : j < 8) :
    ((if value then (⟨(current.val ||| (1 <<< (8 - (count + 1)))) % 256,
        Nat.mod_lt _ (by decide)⟩ : Byte) else current).val.testBit (7 - j))
      = (current.val.testBit (7 - j) || (value && decide (j = count))) := by
  cases value with
  | false => simp
  | true =>
    simp only [if_true, Bool.true_and]
    have h256 : ∀ x : Nat, x % 256 = x % 2 ^ 8 := fun x => by norm_num
    rw [h256, Nat.testBit_mod_two_pow, Nat.testBit_lor]
    simp only [Nat.one_shiftLeft, Nat.testBit_two_pow]
    have h1 : 7 - j < 8 := by omega
    have h2 : (7 - count = 7 - j) ↔ (j = count) := by omega
    simp [h1, h2]

theorem packInv_nil : PackInv [] ([], 0, 0) :=
  ⟨rfl, rfl, fun k j hk _ => by simp at hk, fun j _ => by simp⟩

theorem packInv_step (s : List Bool) (state : List Byte × Byte × Nat) (value : Bool)
    (h : PackInv s state) : PackInv (s ++ [value]) (packStep state value) := by
  obtain ⟨data, current, count⟩ := state
  obtain ⟨hcount, hlen, hdata, hcur⟩ := h
  simp only at hcount hlen hdata hcur
  have hc8 : count < 8 := by rw [hcount]; exact Nat.mod_lt _ (by decide)
  have hsl : s.length = 8 * (s.length / 8) + count := by rw [hcount]; omega
  -- the bits of the byte being filled, in terms of the extended sequence
  have hnew : ∀ j, j < 8 →
      ((if value then (⟨(current.val ||| (1 <<< (8 - (count + 1)))) % 256,
        Nat.mod_lt _ (by decide)⟩ : Byte) else current).val.testBit (7 - j))
      = (s ++ [value]).getD (8 * (s.length / 8) + j) false := by
    intro j hj
    rw [packByte_testBit current value count j hc8 hj, hcur j hj]
    rcases Nat.lt_trichotomy j count with hlt | heq | hgt
    · have hi : 8 * (s.length / 8) + j < s.length := by omega
      rw [List.getD_append _ _ _ _ hi]
      simp [Nat.ne_of_lt hlt]
    · subst heq
      rw [← hsl, List.getD_eq_default _ _ (le_refl _)]
      simp [List.getD_eq_getElem?_getD]
    · have hi : s.length < 8 * (s.length / 8) + j := by omega
      rw [List.getD_eq_default _ _ (le_of_lt hi), List.getD_eq_default _ _ (by simp; omega)]
      simp [Nat.ne_of_gt hgt]
  have hold : ∀ k j, k < data.length → j < 8 →
      (data.getD k 0).val.testBit (7 - j) = (s ++ [value]).getD (8 * k + j) false := by
    intro k j hk hj
    rw [hdata k j hk hj, List.getD_append _ _ _ _ (by omega)]
  unfold packStep
  simp only
  by_cases h8 : count + 1 = 8
  · rw [if_pos h8]
    refine ⟨?_, ?_, ?_, ?_⟩
    · simp only [List.length_append, List.length_singleton]; omega
    · simp only [List.length_append, List.length_singleton]; omega
    · intro k j hk hj
      simp only [List.length_append, List.length_singleton] at hk
      by_cases hkd : k < data.length
      · rw [List.getD_append _ _ _ _ hkd]
        exact hold k j hkd hj
      · have hk' : k = data.length := by omega
        subst hk'
        rw [List.getD_append_right _ _ _ _ (le_refl _), Nat.sub_self, List.getD_cons_zero,
          hnew j hj, hlen]
    · intro j hj
      simp only [List.length_append, List.length_singleton]
      rw [List.getD_eq_default _ _ (by simp; omega)]
      simp
  · rw [if_neg h8]
    refine ⟨?_, ?_, ?_, ?_⟩
    · simp only [List.length_append, List.length_singleton]; omega
    · simp only [List.length_append, List.length_singleton]; omega
    · exact hold
    · intro j hj
      simp only [List.length_append, List.length_singleton]
      have : (s.length + 1) / 8 = s.length / 8 := by omega
      rw [this]
      exact hnew j hj

theorem packInv_foldl (s : List Bool) : PackInv s (s.foldl packStep ([], 0, 0)) := by
  induction s using List.reverseRecOn with
  | nil => exact packInv_nil
  | append_singleton s value ih =>
    rw [List.foldl_append]
    exact packInv_step s _ value ih

end BitArray
end Bits
end HuffmanMPI

namespace HuffmanMPI
namespace Bits
namespace BitArray

/-- The constructor stores `⌈|s| / 8⌉` bytes. -/
theorem BitArray_data_length (s : List Bool) :
    (BitArray s).data.length = (s.length + 7) / 8 := by
  have h := packInv_foldl s
  unfold BitArray
  simp only
  by_cases hc : (s.foldl packStep ([], 0, 0)).2.2 = 0
  · rw [if_neg (by simpa using hc), h.length_eq]
    have := h.count_eq
    omega
  · rw [if_pos hc, List.length_append, List.length_singleton, h.length_eq]
    have := h.count_eq
    omega

/-- Bit `i` of the sequence is bit `7 - i % 8` of byte `i / 8`. -/
theorem BitArray_testBit (s : List Bool) (i : Nat) (hi : i < s.length) :
    ((BitArray s).data.getD (i / 8) 0).val.testBit (7 - i % 8) = s.getD i false := by
  have h := packInv_foldl s
  have hmod : i % 8 < 8 := Nat.mod_lt _ (by decide)
  have hsplit : 8 * (i / 8) + i % 8 = i := Nat.div_add_mod i 8
  unfold BitArray
  simp only
  by_cases hk : i / 8 < (s.foldl packStep ([], 0, 0)).1.length
  · have := h.data_bit (i / 8) (i % 8) hk hmod
    rw [hsplit] at this
    split
    · rw [List.getD_append _ _ _ _ hk]; exact this
    · exact this
  · have hlen := h.length_eq
    have hcount := h.count_eq
    have hk' : i / 8 = s.length / 8 := by omega
    have hc : (s.foldl packStep ([], 0, 0)).2.2 ≠ 0 := by omega
    rw [if_pos hc, List.getD_append_right _ _ _ _ (by omega), hlen, hk', Nat.sub_self,
      List.getD_cons_zero]
    have := h.current_bit (i % 8) hmod
    rw [← hk', hsplit] at this
    exact this

/-- Within the length, `at` finds its byte and returns the bit of the sequence. -/
theorem at_BitArray (s : List Bool) (i : Nat) (hi : i < s.length) :
    (BitArray s).at i = .ok s[i] := by
  have hlen := BitArray_data_length s
  have hbit := BitArray_testBit s i hi
  have hk : i / 8 < (BitArray s).data.length := by rw [hlen]; omega
  unfold BitArray.at
  have hl : (BitArray s).length = s.length := rfl
  rw [hl, if_neg (by omega), List.getElem?_eq_getElem hk]
  simp only
  rw [and_shift_ne_zero]
  rw [List.getD_eq_getElem _ _ hk, List.getD_eq_getElem _ _ hi] at hbit
  rw [hbit]

/-- The loop of `vectorize` over a bit array whose first `n` bits `at` returns. -/
theorem vectorize_foldlM (bits : Bits.BitArray) (s : List Bool) (n : Nat) (hn : n ≤ s.length)
    (hat : ∀ i, i < n → bits.at i = .ok (s.getD i false)) :
    (List.range n).foldlM (fun result index => do
      let bit ← bits.at index
      pure (result ++ [bit])) ([] : List Bool) = (.ok (s.take n) : Except Failure (List Bool)) := by
  induction n with
  | zero => rfl
  | succ n ih =>
    rw [List.range_succ, List.foldlM_append, ih (by omega) (fun i hi => hat i (by omega))]
    simp only [bind, Except.bind, List.foldlM_cons, List.foldlM_nil, hat n (by omega), pure,
      Except.pure]
    rw [List.take_succ, List.getD_eq_getElem?_getD]
    have : n < s.length := by omega
    simp [List.getElem?_eq_getElem this]

/-- `vectorize` gives back the sequence the bit array was built from. -/
theorem vectorize_BitArray (s : List Bool) : (BitArray s).vectorize = .ok s := by
  unfold vectorize
  have hl : (BitArray s).length = s.length := rfl
  rw [hl, vectorize_foldlM (BitArray s) s s.length (le_refl _) (fun i hi => by
    rw [at_BitArray s i hi, List.getD_eq_getElem _ _ hi]), List.take_length]

end BitArray
end Bits
end HuffmanMPI

namespace HuffmanMPI
namespace Heap
namespace MinHeap

section Total
variable {α : Type} [Preorder α] [DecidableRel ((· < ·) : α → α → Prop)]
  [DecidableRel ((· ≤ ·) : α → α → Prop)]

/-- `sink` throws nothing: every index it reads was checked against `size()`. -/
theorem sinkLoop_ok (fuel : Nat) (heap : MinHeap α) (index : Nat) :
    ∃ heap', sinkLoop fuel heap index = .ok heap' := by
  induction fuel generalizing heap index with
  | zero => exact ⟨heap, rfl⟩
  | succ fuel ih =>
    by_cases hL : heap.pool.length ≤ index * 2 + 1
    · exact ⟨heap, sinkLoop_succ_of_ge fuel heap index hL⟩
    · have hl : index * 2 + 1 < heap.pool.length := by omega
      have hi : index < heap.pool.length := by omega
      rw [sinkLoop]
      simp only [ge_iff_le, if_neg hL]
      by_cases hR : heap.pool.length ≤ index * 2 + 1 + 1
      · simp only [if_pos hR, at_of_lt heap hl, at_of_lt heap hi, bind, Except.bind, le_refl,
          if_true]
        split
        · rw [swap_of_lt heap hl hi]; exact ih _ _
        · exact ⟨heap, rfl⟩
      · have hr : index * 2 + 1 + 1 < heap.pool.length := by omega
        simp only [if_neg hR, at_of_lt heap hl, at_of_lt heap hr, bind, Except.bind]
        by_cases hle : heap.pool[index * 2 + 1] ≤ heap.pool[index * 2 + 1 + 1]
        · simp only [if_pos hle, at_of_lt heap hl, at_of_lt heap hi]
          split
          · rw [swap_of_lt heap hl hi]; exact ih _ _
          · exact ⟨heap, rfl⟩
        · simp only [if_neg hle, at_of_lt heap hr, at_of_lt heap hi]
          split
          · rw [swap_of_lt heap hr hi]; exact ih _ _
          · exact ⟨heap, rfl⟩

/-- `pop` returns on every non-empty heap, whatever the order of the elements. -/
theorem pop_ok (heap : MinHeap α) (hne : heap.pool ≠ []) :
    ∃ element heap', heap.pop = .ok (element, heap') := by
  have hn : 0 < heap.pool.length := List.length_pos.mpr hne
  have hn1 : heap.pool.length - 1 < heap.pool.length := by omega
  unfold pop
  rw [if_neg (by omega), swap_of_lt heap hn hn1]
  simp only [bind, Except.bind]
  have hlen : ((heap.pool.set 0 heap.pool[heap.pool.length - 1]).set (heap.pool.length - 1)
      heap.pool[0]).length = heap.pool.length := by simp
  cases hg : ((heap.pool.set 0 heap.pool[heap.pool.length - 1]).set (heap.pool.length - 1)
      heap.pool[0]).getLast? with
  | none =>
    rw [List.getLast?_eq_none_iff] at hg
    rw [hg] at hlen
    simp at hlen
    omega
  | some element =>
    simp only
    obtain ⟨heap', h'⟩ := sinkLoop_ok
      ((⟨((heap.pool.set 0 heap.pool[heap.pool.length - 1]).set (heap.pool.length - 1)
        heap.pool[0]).dropLast⟩ : MinHeap α).pool.length - 0)
      ⟨((heap.pool.set 0 heap.pool[heap.pool.length - 1]).set (heap.pool.length - 1)
        heap.pool[0]).dropLast⟩ 0
    unfold sink
    rw [h']
    exact ⟨element, heap', rfl⟩

/-- A heap built by `append` and `pop` from the empty heap is in min-heap order. -/
theorem reachable_isHeap [IsTotal α (· ≤ ·)] (heap : MinHeap α) (h : Reachable heap) :
    IsHeap heap.pool := by
  induction h with
  | empty =>
    intro i a b _ ha _
    simp at ha
  | append heap heap' element _ happ ih =>
    obtain ⟨heap'', hok, _, hheap⟩ := append_spec heap element
    rw [hok] at happ
    cases happ
    exact hheap ih
  | pop heap heap' element _ hpop ih =>
    by_cases hn : 0 < heap.pool.length
    · obtain ⟨heap'', hok, _, hheap⟩ := pop_spec heap hn
      rw [hok] at hpop
      cases hpop
      exact (hheap ih).1
    · have : heap.pool.length = 0 := by omega
      unfold MinHeap.pop at hpop
      rw [if_pos this] at hpop
      cases hpop

end Total

end MinHeap
end Heap
end HuffmanMPI

namespace HuffmanMPI
namespace Bits

theorem deserializeBuffer_length (n : Nat) (bits : List Bool) :
    (deserializeBuffer n bits).length = n := by
  unfold deserializeBuffer
  rw [deserialize_foldl_length]
  simp

/-- Bit `7 - j` of byte `k` of the buffer `deserialize` fills is bit `8 * k + j` of the input. -/
theorem deserializeBuffer_testBit (n : Nat) (bits : List Bool) (k j : Nat) (hk : k < n)
    (hj : j < 8) :
    ((deserializeBuffer n bits).getD k 0).val.testBit (7 - j) = bits.getD (8 * k + j) false := by
  unfold deserializeBuffer
  have hk' : k < (List.replicate n (0 : Byte)).length := by simpa using hk
  rw [deserialize_foldl_testBit bits (List.replicate n 0) 0 k (7 - j) hk']
  have hz : ((List.replicate n (0 : Byte)).getD k 0).val.testBit (7 - j) = false := by
    rw [List.getD_eq_getElem _ _ hk']; simp
  have h7 : 7 - (7 - j) = j := by omega
  have hlt : 7 - j < 8 := by omega
  rw [hz, h7]
  simp [hlt]

/-- The only failure of `deserialize` is the `assert` on the length. -/
theorem deserialize_error_iff {α : Type} [Pod α] (bits : List Bool) (e : Failure) :
    (deserialize bits : Except Failure α) = .error e
      ↔ bits.length ≠ 8 * Pod.sizeof α ∧ e = .assertion := by
  unfold deserialize
  by_cases h : bits.length / 8 = Pod.sizeof α ∧ bits.length % 8 = 0
  · rw [if_pos h]
    constructor
    · intro h'; cases h'
    · rintro ⟨hne, _⟩; exact absurd (by omega) hne
  · rw [if_neg h]
    constructor
    · intro h'
      cases h'
      exact ⟨by omega, rfl⟩
    · rintro ⟨_, rfl⟩; rfl

theorem deserialize_of_length {α : Type} [Pod α] (bits : List Bool)
    (h : bits.length = 8 * Pod.sizeof α) :
    (deserialize bits : Except Failure α)
      = .ok (Pod.ofBytes (deserializeBuffer (Pod.sizeof α) bits)) := by
  unfold deserialize
  rw [if_pos (by omega)]

end Bits
end HuffmanMPI

namespace HuffmanMPI
namespace Huffman

section Alphabet
variable {T W : Type} [LinearOrder T] [LinearOrder W] [Add W]

/-- A symbol that is at no leaf has no entry in the code table: `encode` writes nothing for it. -/
theorem codeOf_of_not_mem (root : Node T W) (s : T) (hs : s ∉ root.leaves.map Prod.fst) :
    codeOf root s = [] := by
  unfold codeOf
  rw [(foldl_set_find_none root.paths s).mpr (by
    rw [Node.paths_fst]
    simpa using hs)]
  rfl

theorem flatMap_filter_nil {α β : Type} (f : α → List β) (p : α → Bool) (l : List α)
    (h : ∀ a ∈ l, p a = false → f a = []) : (l.filter p).flatMap f = l.flatMap f := by
  induction l with
  | nil => rfl
  | cons a rest ih =>
    have ih' := ih (fun b hb => h b (List.mem_cons_of_mem _ hb))
    cases hp : p a with
    | true => rw [List.filter_cons_of_pos hp, List.flatMap_cons, List.flatMap_cons, ih']
    | false =>
      rw [List.filter_cons_of_neg (by simp [hp]), List.flatMap_cons, ih',
        h a (List.mem_cons_self _ _) hp, List.nil_append]

/-- The tree of a table with one entry is one leaf: no merge takes place. -/
theorem Tree_singleton (a : T) (p : W) :
    Tree.Tree ([(a, p)] : Map T W) = .ok ⟨some (.leaf a p), [.leaf a p]⟩ := by
  rfl

/-- The counts do not depend on the order of the range. -/
theorem statistic_perm {S S' : List T} (h : S.Perm S') : statistic S = statistic S' := by
  apply Map.ext (statistic_WF S) (statistic_WF S')
  intro k
  rw [statistic_find, statistic_find, h.count_eq k]
  by_cases hk : k ∈ S
  · rw [if_pos hk, if_pos (h.mem_iff.mp hk)]
  · rw [if_neg hk, if_neg (fun hk' => hk (h.mem_iff.mpr hk'))]

variable [NatCast W] [Div W]

/-- The tree of an encoder has a root, and its leaves are the entries of the frequency table. -/
theorem Encoder_tree (world_size : Nat) (data : List T) (mpi : Bool) (encoder : Encoder T W)
    (h : Encoder.Encoder world_size data mpi = .ok encoder) :
    ∃ root nodes, encoder.tree = ⟨some root, nodes⟩ ∧ root.leaves.Perm encoder.frequency := by
  obtain ⟨_, _, _, htree, _⟩ := Encoder_inv world_size data mpi encoder h
  have hne : encoder.frequency ≠ [] := by
    intro h0
    rw [h0, Tree_empty] at htree
    cases htree
  obtain ⟨root, nodes, hok, hperm, _⟩ := Tree_spec encoder.frequency hne
  rw [hok] at htree
  exact ⟨root, nodes, (Except.ok.inj htree).symm, hperm⟩

/-- An encoder built from a range of one repeated symbol: one entry, one leaf. -/
theorem Encoder_single (world_size : Nat) (a : T) (data : List T) (hall : ∀ x ∈ data, x = a)
    (mpi : Bool) (encoder : Encoder T W)
    (h : Encoder.Encoder world_size data mpi = .ok encoder) :
    ∃ p, encoder.frequency = [(a, p)] ∧ encoder.tree = ⟨some (.leaf a p), [.leaf a p]⟩ := by
  obtain ⟨_, hwf, hkeys, htree, _⟩ := Encoder_inv world_size data mpi encoder h
  match hf : encoder.frequency, hwf, hkeys, htree with
  | [], _, _, htree =>
    rw [Tree_empty] at htree
    cases htree
  | [(k, p)], _, hkeys, htree =>
    have hk : k = a := hall k (hkeys (k, p) (List.mem_singleton.mpr rfl))
    subst hk
    rw [Tree_singleton] at htree
    exact ⟨p, rfl, (Except.ok.inj htree).symm⟩
  | e₁ :: e₂ :: rest, hwf, hkeys, _ =>
    have h1 : e₁.1 = a := hall _ (hkeys e₁ (by simp))
    have h2 : e₂.1 = a := hall _ (hkeys e₂ (by simp))
    have hlt : e₁.1 < e₂.1 := by
      unfold Map.WF at hwf
      rw [List.pairwise_cons] at hwf
      exact hwf.1 e₂ (by simp)
    rw [h1, h2] at hlt
    exact absurd hlt (lt_irrefl a)

/-- With at least one process and fewer than `2 ^ 31` elements, the constructor with MPI
statistics returns what the constructor without returns. -/
theorem Encoder_mpi_of_lt (world_size : Nat) (data : List T) (hw : 1 ≤ world_size)
    (hlen : data.length < 2 ^ 31) :
    (Encoder.Encoder world_size data true : Except Failure (Encoder T W))
      = Encoder.Encoder world_size data false := by
  unfold Encoder.Encoder
  simp only [Bool.not_true, Bool.false_eq_true, if_false, Bool.not_false, if_true]
  rw [MPI_Statistic_eq world_size data hw hlen]
  rfl

/-- Encoders built (without MPI) from two arrangements of the same symbols have the same
frequency table and the same tree. -/
theorem Encoder_perm (world_size world_size' : Nat) (S S' : List T) (h : S.Perm S') :
    (Encoder.Encoder world_size S false : Except Failure (Encoder T W))
      = match (Encoder.Encoder world_size' S' false : Except Failure (Encoder T W)) with
        | .ok encoder => .ok ⟨encoder.frequency, S, encoder.tree⟩
        | .error e => .error e := by
  unfold Encoder.Encoder
  simp only [Bool.not_false, if_true, bind, Except.bind, pure, Except.pure]
  rw [statistic_perm h, h.length_eq]
  cases Tree.Tree (List.foldl (fun (frequency : Map T W) (pair : T × Nat) =>
    Map.set frequency pair.1 ((pair.2 : W) / (S'.length : W))) [] (statistic S')) <;> rfl

end Alphabet

end Huffman
end HuffmanMPI

namespace HuffmanMPI
namespace Huffman

section Truncated
variable {T W : Type} [LinearOrder T] [LinearOrder W] [Add W]

/-- The walk of `decode` over the codes of `range` followed by other bits: the symbols
of `range` are emitted and the walk is back at the root. -/
theorem decodeLoop_flatMap_append (root : Node T W) (hroot : root.isLeaf = false)
    (code : T → List Bool) (range : List T) (hcode : ∀ s ∈ range, (s, code s) ∈ root.paths)
    (rest : List Bool) (decoded : List T) :
    Decoder.decodeLoop root root (range.flatMap code ++ rest) decoded
      = Decoder.decodeLoop root root rest (decoded ++ range) := by
  induction range generalizing decoded with
  | nil => simp
  | cons s tail ih =>
    rw [List.flatMap_cons, List.append_assoc, decodeLoop_path root root hroot s (code s)
      (hcode s (List.mem_cons_self _ _)), ih (fun s hs => hcode s (List.mem_cons_of_mem _ hs))]
    simp

/-- The walk of `decode` over the beginning of a code, short of its leaf: nothing is
emitted and nothing fails; the loop ends inside the tree. -/
theorem decodeLoop_inside (root : Node T W) (n : Node T W) (hn : n.isLeaf = false)
    (s : T) (p : List Bool) (hp : (s, p) ∈ n.paths) (q t : List Bool) (ht : t ≠ [])
    (hq : q ++ t = p) (decoded : List T) :
    Decoder.decodeLoop root n q decoded = .ok decoded := by
  induction n generalizing p q with
  | leaf d w => simp [Node.isLeaf] at hn
  | inner w l r ihl ihr =>
    cases q with
    | nil => rfl
    | cons b q' =>
      rw [Node.paths, List.mem_append] at hp
      rcases hp with hp | hp
      · obtain ⟨e, he, heq⟩ := List.mem_map.mp hp
        cases heq
        rw [List.cons_append] at hq
        injection hq with hb hq'
        subst hb
        rw [Decoder.decodeLoop]
        simp only [Bool.false_eq_true, if_false, Node.right]
        cases r with
        | leaf d w' =>
          simp only [Node.paths, List.mem_singleton] at he
          subst he
          simp at hq'
          exact absurd hq'.2 ht
        | inner w' l' r' => exact ihr rfl _ he q' hq'
      · obtain ⟨e, he, heq⟩ := List.mem_map.mp hp
        cases heq
        rw [List.cons_append] at hq
        injection hq with hb hq'
        subst hb
        rw [Decoder.decodeLoop]
        simp only [if_true, Node.left]
        cases l with
        | leaf d w' =>
          simp only [Node.paths, List.mem_singleton] at he
          subst he
          simp at hq'
          exact absurd hq'.2 ht
        | inner w' l' r' => exact ihl rfl _ he q' hq'

/-- Below an internal node every path has an edge. -/
theorem paths_ne_nil (n : Node T W) (hn : n.isLeaf = false) (s : T) (p : List Bool)
    (hp : (s, p) ∈ n.paths) : p ≠ [] := by
  cases n with
  | leaf d w => simp [Node.isLeaf] at hn
  | inner w l r =>
    rw [Node.paths, List.mem_append] at hp
    rcases hp with hp | hp <;>
    · obtain ⟨e, _, heq⟩ := List.mem_map.mp hp
      cases heq
      simp

/-- With a tree of one leaf no symbol has bits to write. -/
theorem codeOf_leaf (a : T) (p : W) (s : T) : codeOf (.leaf a p : Node T W) s = [] := by
  unfold codeOf
  simp only [Node.paths, List.foldl_cons, List.foldl_nil, Map.set, Map.find]
  split <;> rfl

end Truncated

end Huffman
end HuffmanMPI

namespace HuffmanMPI
namespace Huffman

section TruncatedStream
variable {T W : Type} [LinearOrder T] [LinearOrder W] [Add W] [NatCast W] [Div W]
  [Bits.Pod T] [Bits.Pod W]

/-- An encoder whose payload is not empty was built from a range with two distinct symbols. -/
theorem two_symbols_of_payload (world_size : Nat) (S : List T) (mpi : Bool)
    (E : Encoder T W) (payload : List Bool)
    (hE : Encoder.Encoder world_size S mpi = .ok E) (hp : E.encodeData = .ok payload)
    (hne : payload ≠ []) : ∃ a ∈ S, ∃ b ∈ S, a ≠ b := by
  by_contra hcon
  cases S with
  | nil =>
    obtain ⟨_, _, hkeys, htree, _⟩ := Encoder_inv world_size [] mpi E hE
    cases hf : E.frequency with
    | nil =>
      rw [hf, Tree_empty] at htree
      cases htree
    | cons e rest =>
      have := hkeys e (by rw [hf]; exact List.mem_cons_self _ _)
      simp at this
  | cons a rest =>
    have hall : ∀ x ∈ a :: rest, x = a := by
      intro x hx
      by_contra hxa
      exact hcon ⟨x, hx, a, List.mem_cons_self _ _, hxa⟩
    obtain ⟨p, _, htree⟩ := Encoder_single world_size a (a :: rest) hall mpi E hE
    unfold Encoder.encodeData at hp
    rw [encode_eq E _ _ htree] at hp
    have hnil : E.data.flatMap (codeOf (.leaf a p : Node T W)) = [] := by
      rw [List.flatMap_eq_nil_iff]
      intro s _
      exact codeOf_leaf _ _ s
    rw [hnil] at hp
    exact hne (Except.ok.inj hp).symm

/-- Decoding a stream whose payload lost its last bit: the decoder is built as from the
whole stream, the walk over the payload ends inside the tree, short of the leaf of the
last symbol, and the symbols before the last are emitted. -/
theorem decode_truncated (world_size : Nat) (S : List T) (mpi : Bool)
    (hmpi : mpi = true → 1 ≤ world_size ∧ S.length < 2 ^ 31) (hlen : S.length < 2 ^ 64)
    (E : Encoder T W) (payload : List Bool)
    (hE : Encoder.Encoder world_size S mpi = .ok E) (hp : E.encodeData = .ok payload)
    (hne : payload ≠ []) :
    Decoder.Decoder ((E.dict ++ payload).dropLast)
        = .ok (⟨E.tree, E.frequency, payload.dropLast⟩ : Decoder T W) ∧
      (⟨E.tree, E.frequency, payload.dropLast⟩ : Decoder T W).decode = .ok S.dropLast := by
  have h2 := two_symbols_of_payload world_size S mpi E payload hE hp hne
  have hSne : S ≠ [] := by
    obtain ⟨a, ha, _⟩ := h2
    exact List.ne_nil_of_mem ha
  have hE' : Encoder.Encoder world_size S false = .ok E := by
    cases mpi with
    | false => exact hE
    | true =>
      obtain ⟨hw, hl⟩ := hmpi rfl
      rw [← Encoder_mpi_of_lt world_size S hw hl]
      exact hE
  obtain ⟨root, nodes, hloc, hleaves⟩ := Encoder_local (W := W) world_size S hSne
  rw [hE'] at hloc
  have hEq := Except.ok.inj hloc
  have hfreq : E.frequency
      = (statistic S).map (fun pair => (pair.1, (pair.2 : W) / (S.length : W))) := by
    rw [hEq]
  have htree : E.tree = ⟨some root, nodes⟩ := by rw [hEq]
  have hdata : E.data = S := by rw [hEq]
  obtain ⟨_, hwf, _, hbuild, _⟩ := Encoder_inv world_size S false E hE'
  have hlen' : E.frequency.length < 2 ^ 64 := by
    have := statistic_length_le S
    rw [hfreq, List.length_map]
    omega
  have hkeys : (root.leaves.map Prod.fst).Perm (E.frequency.map Prod.fst) := by
    rw [hfreq]
    exact hleaves.map _
  have hnd : (root.leaves.map Prod.fst).Nodup := by
    rw [hkeys.nodup_iff]
    unfold Map.WF at hwf
    unfold List.Nodup
    rw [List.pairwise_map]
    exact hwf.imp (fun {a b} h => ne_of_lt h)
  have hroot : root.isLeaf = false := by
    apply isLeaf_false_of_leaves
    rw [hleaves.length_eq, List.length_map]
    exact two_le_statistic_length S h2
  have hcode : ∀ s ∈ S, (s, codeOf root s) ∈ root.paths := by
    intro s hs
    apply codeOf_mem_paths root hnd
    rw [hkeys.mem_iff, hfreq, List.map_map]
    exact List.mem_map.mpr ⟨_, mem_statistic S s hs, rfl⟩
  -- the payload, split before the code of the last symbol
  have hpay : payload = S.flatMap (codeOf root) := by
    unfold Encoder.encodeData at hp
    rw [encode_eq E root nodes htree, hdata] at hp
    exact (Except.ok.inj hp).symm
  have hsplit : S = S.dropLast ++ [S.getLast hSne] := (List.dropLast_append_getLast hSne).symm
  have hlast : (S.getLast hSne, codeOf root (S.getLast hSne)) ∈ root.paths :=
    hcode _ (List.getLast_mem hSne)
  have hlne : codeOf root (S.getLast hSne) ≠ [] := paths_ne_nil root hroot _ _ hlast
  have hpay' : payload.dropLast
      = S.dropLast.flatMap (codeOf root) ++ (codeOf root (S.getLast hSne)).dropLast := by
    rw [hpay]
    conv_lhs => rw [hsplit]
    rw [List.flatMap_append, List.flatMap_singleton, List.dropLast_append_of_ne_nil _ hlne]
  constructor
  · rw [List.dropLast_append_of_ne_nil _ hne]
    exact Decoder_dict E _ hwf hlen' hbuild
  · simp only [Decoder.decode, Decoder.decodeBits, htree]
    rw [hpay', decodeLoop_flatMap_append root hroot (codeOf root) S.dropLast
      (fun s hs => hcode s (List.mem_of_mem_dropLast hs))]
    rw [List.nil_append]
    exact decodeLoop_inside root root hroot _ _ hlast
      (codeOf root (S.getLast hSne)).dropLast
      [(codeOf root (S.getLast hSne)).getLast hlne] (by simp)
      (List.dropLast_append_getLast hlne) _

end TruncatedStream

end Huffman
end HuffmanMPI

namespace HuffmanMPI
namespace Bits
namespace BitArray

/-- Every bit of every stored byte: bit `7 - j` of byte `k` is bit `8 * k + j` of the
sequence, and 0 past its end. -/
theorem BitArray_byte_testBit (s : List Bool) (k j : Nat) (hk : k < (BitArray s).data.length)
    (hj : j < 8) :
    ((BitArray s).data.getD k 0).val.testBit (7 - j) = s.getD (8 * k + j) false := by
  have h := packInv_foldl s
  have hlen := h.length_eq
  have hcount := h.count_eq
  unfold BitArray at hk ⊢
  simp only at hk ⊢
  by_cases hkd : k < (s.foldl packStep ([], 0, 0)).1.length
  · have := h.data_bit k j hkd hj
    split
    · rw [List.getD_append _ _ _ _ hkd]; exact this
    · exact this
  · by_cases hc : (s.foldl packStep ([], 0, 0)).2.2 ≠ 0
    · rw [if_pos hc] at hk ⊢
      rw [List.length_append, List.length_singleton] at hk
      have hk' : k = (s.foldl packStep ([], 0, 0)).1.length := by omega
      rw [List.getD_append_right _ _ _ _ (by omega), hk', Nat.sub_self, List.getD_cons_zero, hlen]
      exact h.current_bit j hj
    · rw [if_neg hc] at hk
      exact absurd hk hkd

theorem readLoop_eq (input : List Byte) (current : Byte) (data : List Byte) :
    readLoop input current data = data ++ input ++ [(input.getLast?).getD current] := by
  induction input generalizing current data with
  | nil => simp [readLoop]
  | cons byte rest ih =>
    rw [readLoop, ih]
    cases rest with
    | nil => simp
    | cons b r =>
      have hx : ∃ x, (b :: r).getLast? = some x := ⟨_, List.getLast?_eq_getLast _ (by simp)⟩
      obtain ⟨x, hx⟩ := hx
      simp [List.getLast?_cons_cons, hx]

/-- Reading back what `operator<<` wrote: the length, and the bytes followed by one more. -/
theorem readFrom_writeTo (bits : Bits.BitArray) (current : Byte) (hlen : bits.length < 2 ^ 64) :
    readFrom (writeTo bits) current
      = .ok ⟨bits.length, bits.data ++ [(bits.data.getLast?).getD current]⟩ := by
  have hb : (Pod.bytes (toSizeT bits.length)).length = 8 := Pod.bytes_length _
  unfold readFrom writeTo
  rw [if_neg (by rw [List.length_append, hb]; omega)]
  rw [List.take_left' hb, List.drop_left' hb, Pod.ofBytes_bytes, readLoop_eq]
  simp only [List.nil_append, toSizeT]
  rw [Nat.mod_eq_of_lt hlen]

/-- Bytes added after the stored ones are not read by `at`. -/
theorem at_append (length : Nat) (data more : List Byte) (i : Nat)
    (hi : i / 8 < data.length) :
    BitArray.at ⟨length, data ++ more⟩ i = BitArray.at ⟨length, data⟩ i := by
  unfold BitArray.at
  simp only
  rw [List.getElem?_append_left hi]

/-- The round trip through a stream keeps the size and the bits. -/
theorem vectorize_readFrom (s : List Bool) (current : Byte) :
    (⟨s.length, (BitArray s).data ++ [((BitArray s).data.getLast?).getD current]⟩
      : Bits.BitArray).vectorize = .ok s := by
  unfold vectorize
  simp only
  rw [vectorize_foldlM _ s s.length (le_refl _) (fun i hi => by
    have hd := BitArray_data_length s
    have h1 : (⟨s.length, (BitArray s).data⟩ : Bits.BitArray) = BitArray s := rfl
    rw [at_append _ _ _ _ (by rw [hd]; omega), h1, at_BitArray s i hi,
      List.getD_eq_getElem _ _ hi]), List.take_length]

end BitArray
end Bits
end HuffmanMPI

namespace HuffmanMPI
namespace RLE

/-- The loop of `encode`, given enough iterations: it returns, adds an even number of
bytes to the output, and the loop of `decode` turns these bytes into `count` copies of
`previous` followed by the elements not yet read. -/
theorem encodeLoop_spec (rest : List Byte) (fuel : Nat) (count previous : Byte)
    (output : List Byte) (hfuel : 2 * rest.length + 1 ≤ fuel) :
    ∃ enc, encodeLoop fuel rest count previous output = .ok (output ++ enc) ∧
      enc.length % 2 = 0 ∧
      ∀ acc, decodeLoop enc acc = .ok (acc ++ List.replicate count.val previous ++ rest) := by
  induction rest generalizing fuel count previous output with
  | nil =>
    refine ⟨[count, previous], ?_, by simp, fun acc => ?_⟩
    · cases fuel <;> rfl
    · simp [decodeLoop]
      rfl
  | cons current rest ih =>
    obtain ⟨f, rfl⟩ : ∃ f, fuel = f + 1 := ⟨fuel - 1, by omega⟩
    rw [encodeLoop]
    by_cases hc : current = previous ∧ count.val < 255
    · rw [if_pos hc]
      obtain ⟨enc, hok, heven, hdec⟩ := ih f ⟨(count.val + 1) % 256, Nat.mod_lt _ (by decide)⟩
        previous output (by simp only [List.length_cons] at hfuel; omega)
      refine ⟨enc, hok, heven, fun acc => ?_⟩
      rw [hdec acc]
      have hval : (count.val + 1) % 256 = count.val + 1 := Nat.mod_eq_of_lt (by omega)
      simp only [hval, hc.1, List.replicate_succ', List.append_assoc, List.singleton_append]
    · rw [if_neg hc]
      obtain ⟨g, rfl⟩ : ∃ g, f = g + 1 := ⟨f - 1, by simp only [List.length_cons] at hfuel; omega⟩
      rw [encodeLoop, if_pos ⟨rfl, by decide⟩]
      obtain ⟨enc, hok, heven, hdec⟩ := ih g ⟨((0 : Byte).val + 1) % 256, Nat.mod_lt _ (by decide)⟩
        current (output ++ [count, previous]) (by simp only [List.length_cons] at hfuel; omega)
      refine ⟨[count, previous] ++ enc, ?_, ?_, fun acc => ?_⟩
      · rw [hok, List.append_assoc]
      · simp only [List.length_append, List.length_cons, List.length_nil]; omega
      · rw [List.cons_append, List.cons_append, List.nil_append, decodeLoop, hdec]
        simp

/-- `encode` returns an even number of bytes that `decode` turns back into the range. -/
theorem decode_encode (range : List Byte) (hne : range ≠ []) :
    ∃ enc, encode range = .ok enc ∧ enc.length % 2 = 0 ∧ decode enc = .ok range := by
  cases range with
  | nil => exact absurd rfl hne
  | cons first rest =>
    obtain ⟨enc, hok, heven, hdec⟩ :=
      encodeLoop_spec (first :: rest) (2 * (first :: rest).length + 1) 0 first [] (le_refl _)
    refine ⟨enc, ?_, heven, ?_⟩
    · unfold encode
      simp only
      rw [hok, List.nil_append]
    · unfold decode
      rw [if_neg (by omega), hdec []]
      simp

set_option maxRecDepth 100000 in
/-- A run of 300 equal symbols is written as a pair with count 255 and a pair with count 45. -/
theorem encode_long_run : encode (List.replicate 300 65) = .ok [255, 65, 45, 65] := by
  decide

end RLE
end HuffmanMPI

namespace HuffmanMPI
namespace Huffman

section Paths
variable {T W : Type}

theorem Node.left_eq_some {n l : Node T W} (h : n.left = some l) :
    ∃ p r, n = .inner p l r := by
  cases n with
  | leaf d p => simp [Node.left] at h
  | inner p l' r => simp only [Node.left, Option.some.injEq] at h; exact ⟨p, r, by rw [h]⟩

theorem Node.right_eq_some {n r : Node T W} (h : n.right = some r) :
    ∃ p l, n = .inner p l r := by
  cases n with
  | leaf d p => simp [Node.right] at h
  | inner p l r' => simp only [Node.right, Option.some.injEq] at h; exact ⟨p, l, by rw [h]⟩

/-- An entry of `paths` is a walk from the node to a leaf. -/
theorem Node.pathTo_of_mem_paths (n : Node T W) (s : T) (c : List Bool) (h : (s, c) ∈ n.paths) :
    ∃ p, Node.PathTo n c (.leaf s p) ∧ (s, p) ∈ n.leaves := by
  induction n generalizing c with
  | leaf d p =>
    simp only [Node.paths, List.mem_singleton, Prod.mk.injEq] at h
    obtain ⟨rfl, rfl⟩ := h
    exact ⟨p, .here _, by simp [Node.leaves]⟩
  | inner p l r ihl ihr =>
    rw [Node.paths, List.mem_append] at h
    rcases h with h | h
    · obtain ⟨e, he, heq⟩ := List.mem_map.mp h
      cases heq
      obtain ⟨q, hq, hm⟩ := ihr _ he
      exact ⟨q, .right _ r _ _ rfl hq, by simp [Node.leaves, hm]⟩
    · obtain ⟨e, he, heq⟩ := List.mem_map.mp h
      cases heq
      obtain ⟨q, hq, hm⟩ := ihl _ he
      exact ⟨q, .left _ l _ _ rfl hq, by simp [Node.leaves, hm]⟩

/-- A walk from a node to a leaf is an entry of `paths`. -/
theorem Node.mem_paths_of_pathTo (n m : Node T W) (c : List Bool) (h : Node.PathTo n c m)
    (s : T) (p : W) (hm : m = .leaf s p) : (s, c) ∈ n.paths := by
  induction h with
  | here n =>
    subst hm
    simp [Node.paths]
  | left n l m bits hl _ ih =>
    obtain ⟨q, r, rfl⟩ := Node.left_eq_some hl
    rw [Node.paths, List.mem_append]
    exact Or.inr (List.mem_map.mpr ⟨(s, bits), ih hm, rfl⟩)
  | right n r m bits hr _ ih =>
    obtain ⟨q, l, rfl⟩ := Node.right_eq_some hr
    rw [Node.paths, List.mem_append]
    exact Or.inl (List.mem_map.mpr ⟨(s, bits), ih hm, rfl⟩)

theorem Node.mem_paths_iff (n : Node T W) (s : T) (c : List Bool) :
    (s, c) ∈ n.paths ↔ ∃ p, Node.PathTo n c (.leaf s p) :=
  ⟨fun h => let ⟨p, hp, _⟩ := Node.pathTo_of_mem_paths n s c h; ⟨p, hp⟩,
   fun ⟨p, hp⟩ => Node.mem_paths_of_pathTo n _ c hp s p rfl⟩

/-- A node reached by a walk is a leaf or has both children. -/
theorem Node.leaf_or_both (n : Node T W) :
    (n.left = none ∧ n.right = none) ∨ (∃ l r, n.left = some l ∧ n.right = some r) := by
  cases n with
  | leaf d p => exact Or.inl ⟨rfl, rfl⟩
  | inner p l r => exact Or.inr ⟨l, r, rfl, rfl⟩

end Paths

section Walk
variable {T W : Type} [LinearOrder T] [LinearOrder W] [Add W]

/-- The code table of a tree whose leaves carry distinct symbols: the entries of `paths`. -/
theorem table_find_iff (root : Node T W) (hnd : (root.leaves.map Prod.fst).Nodup) (s : T)
    (c : List Bool) :
    (root.paths.foldl (fun res e => Map.set res e.1 e.2) ([] : Map T (List Bool))).find s = some c
      ↔ (s, c) ∈ root.paths := by
  constructor
  · exact foldl_set_mem_of_find _ _ _
  · intro h
    exact foldl_set_find_of_mem root.paths [] (by
      rw [Node.paths_fst]; exact List.nodup_reverse.mpr hnd) s c h

/-- From an internal node of a tree with an internal root the walk of `decode` never
meets a missing child: it returns, and what it emits are symbols at leaves of the tree. -/
theorem decodeLoop_total (root : Node T W) (hroot : root.isLeaf = false) (bits : List Bool)
    (current : Node T W) (hcur : current.isLeaf = false)
    (hsub : ∀ e ∈ current.leaves, e ∈ root.leaves) (decoded : List T) :
    ∃ out, Decoder.decodeLoop root current bits decoded = .ok (decoded ++ out) ∧
      ∀ s ∈ out, s ∈ root.leaves.map Prod.fst := by
  induction bits generalizing current decoded with
  | nil => exact ⟨[], by simp [Decoder.decodeLoop]; rfl, by simp⟩
  | cons bit bits ih =>
    cases current with
    | leaf d p => simp [Node.isLeaf] at hcur
    | inner p l r =>
      have step : ∀ child : Node T W, (∀ e ∈ child.leaves, e ∈ root.leaves) →
          ∀ X : Except Failure (List T),
          (∀ d q, child = .leaf d q → X = Decoder.decodeLoop root root bits (decoded ++ [d])) →
          (∀ q l' r', child = .inner q l' r' → X = Decoder.decodeLoop root child bits decoded) →
          ∃ out, X = .ok (decoded ++ out) ∧ ∀ s ∈ out, s ∈ root.leaves.map Prod.fst := by
        intro child hchild X hleaf hinner
        cases child with
        | leaf d q =>
          obtain ⟨out, hok, hout⟩ := ih root hroot (fun e he => he) (decoded ++ [d])
          refine ⟨d :: out, ?_, ?_⟩
          · rw [hleaf d q rfl, hok]
            simp
          · intro s hs
            rcases List.mem_cons.mp hs with rfl | hs
            · exact List.mem_map.mpr ⟨(s, q), hchild _ (by simp [Node.leaves]), rfl⟩
            · exact hout s hs
        | inner q l' r' =>
          rw [hinner q l' r' rfl]
          exact ih (.inner q l' r') rfl hchild decoded
      cases bit with
      | true =>
        exact step l (fun e he => hsub e (by simp [Node.leaves, he])) _
          (fun d q h => by subst h; rw [Decoder.decodeLoop]; rfl)
          (fun q l' r' h => by subst h; rw [Decoder.decodeLoop]; rfl)
      | false =>
        exact step r (fun e he => hsub e (by simp [Node.leaves, he])) _
          (fun d q h => by subst h; rw [Decoder.decodeLoop]; rfl)
          (fun q l' r' h => by subst h; rw [Decoder.decodeLoop]; rfl)

/-- From a root that is a leaf the first bit leads to a missing child. -/
theorem decodeLoop_leaf (a : T) (p : W) (bit : Bool) (bits : List Bool) (decoded : List T) :
    Decoder.decodeLoop (.leaf a p : Node T W) (.leaf a p) (bit :: bits) decoded
      = .error .undefined := by
  rw [Decoder.decodeLoop]
  cases bit <;> rfl

end Walk

end Huffman
end HuffmanMPI

namespace HuffmanMPI
namespace Huffman

section Kraft

theorem kraftSum_nil : kraftSum [] = 0 := rfl

theorem kraftSum_cons (l : Nat) (ls : List Nat) :
    kraftSum (l :: ls) = (1 / 2 : ℚ) ^ l + kraftSum ls := by
  simp [kraftSum]

theorem kraftSum_perm {ls ls' : List Nat} (h : ls.Perm ls') : kraftSum ls = kraftSum ls' :=
  (h.map _).sum_eq

theorem kraftSum_nonneg (ls : List Nat) : 0 ≤ kraftSum ls := by
  induction ls with
  | nil => exact le_refl _
  | cons l ls ih =>
    rw [kraftSum_cons]
    have : (0 : ℚ) < (1 / 2 : ℚ) ^ l := by positivity
    linarith

/-- A Kraft sum of lengths that are at most `M` is a multiple of `2 ^ (-M)`. -/
theorem kraftSum_integral (M : Nat) (ls : List Nat) (h : ∀ l ∈ ls, l ≤ M) :
    ∃ N : Nat, kraftSum ls = (N : ℚ) / 2 ^ M := by
  induction ls with
  | nil => exact ⟨0, by simp [kraftSum_nil]⟩
  | cons l ls ih =>
    obtain ⟨N, hN⟩ := ih (fun x hx => h x (List.mem_cons_of_mem _ hx))
    have hl : l ≤ M := h l (List.mem_cons_self _ _)
    refine ⟨2 ^ (M - l) + N, ?_⟩
    rw [kraftSum_cons, hN]
    have h2 : (2 : ℚ) ^ M = 2 ^ l * 2 ^ (M - l) := by
      rw [← pow_add]; congr 1; omega
    have hpl : (0 : ℚ) < 2 ^ l := by positivity
    have hpm : (0 : ℚ) < 2 ^ (M - l) := by positivity
    push_cast
    rw [h2, one_div, inv_pow]
    field_simp

/-- With lengths `la, lb, ls` of Kraft sum at most 1, where `lb` is at least every
length of `ls`, the first length can be replaced by `lb`: the rest of the sum is a
multiple of `2 ^ (-lb)` below 1. -/
theorem kraftSum_tighten (la lb : Nat) (ls : List Nat) (hmax : ∀ l ∈ ls, l ≤ lb)
    (hk : kraftSum (la :: lb :: ls) ≤ 1) : kraftSum (lb :: lb :: ls) ≤ 1 := by
  obtain ⟨N, hN⟩ := kraftSum_integral lb (lb :: ls) (by
    intro l hl
    rcases List.mem_cons.mp hl with rfl | hl
    · exact le_refl _
    · exact hmax l hl)
  rw [kraftSum_cons] at hk
  rw [kraftSum_cons, hN]
  rw [hN] at hk
  have hpa : (0 : ℚ) < (1 / 2 : ℚ) ^ la := by positivity
  have hpb : (0 : ℚ) < (2 : ℚ) ^ lb := by positivity
  have hlt : (N : ℚ) / 2 ^ lb < 1 := by linarith
  rw [div_lt_one hpb] at hlt
  have hlt' : N < 2 ^ lb := by exact_mod_cast hlt
  have hle : ((N + 1 : Nat) : ℚ) ≤ 2 ^ lb := by exact_mod_cast hlt'
  rw [one_div, inv_pow, inv_eq_one_div, div_add_div_same, div_le_one hpb]
  push_cast at hle
  linarith

/-- A Kraft sum at most 1 with two equal lengths at the head: the length is positive. -/
theorem pos_of_kraftSum_pair (lb : Nat) (ls : List Nat) (hk : kraftSum (lb :: lb :: ls) ≤ 1) :
    0 < lb := by
  by_contra h
  have h0 : lb = 0 := by omega
  subst h0
  rw [kraftSum_cons, kraftSum_cons] at hk
  have := kraftSum_nonneg ls
  norm_num at hk
  linarith

/-- Two codes of length `lb` weigh as much in the Kraft sum as one of length `lb - 1`. -/
theorem kraftSum_merge (lb : Nat) (ls : List Nat) (hpos : 0 < lb) :
    kraftSum ((lb - 1) :: ls) = kraftSum (lb :: lb :: ls) := by
  rw [kraftSum_cons, kraftSum_cons, kraftSum_cons]
  obtain ⟨m, rfl⟩ : ∃ m, lb = m + 1 := ⟨lb - 1, by omega⟩
  rw [Nat.add_sub_cancel, pow_succ]
  ring

end Kraft

end Huffman
end HuffmanMPI

namespace HuffmanMPI
namespace Huffman

section Exchange
variable {β W : Type} [LinearOrderedField W]

/-- The lightest element can take the greatest length: lengths are exchanged between
the head, whose weight is the least, and elements of the tail, at no cost. -/
theorem exchange_max (w : β → W) (a : β) (la : Nat) (tail : List (β × Nat))
    (ha : ∀ x ∈ tail, w a ≤ w x.1) :
    ∃ (la' : Nat) (tail' : List (β × Nat)), tail'.map Prod.fst = tail.map Prod.fst ∧
      (la' :: tail'.map Prod.snd).Perm (la :: tail.map Prod.snd) ∧
      (∀ x ∈ tail', x.2 ≤ la') ∧
      w a * (la' : W) + (tail'.map (fun x => w x.1 * (x.2 : W))).sum
        ≤ w a * (la : W) + (tail.map (fun x => w x.1 * (x.2 : W))).sum := by
  induction tail with
  | nil => exact ⟨la, [], rfl, List.Perm.refl _, by simp, le_refl _⟩
  | cons c t ih =>
    obtain ⟨l1, t1, hfst, hperm, hmax, hcost⟩ :=
      ih (fun x hx => ha x (List.mem_cons_of_mem _ hx))
    obtain ⟨cb, lc⟩ := c
    have hac : w a ≤ w cb := ha (cb, lc) (List.mem_cons_self _ _)
    by_cases h : lc ≤ l1
    · refine ⟨l1, (cb, lc) :: t1, by simp [hfst], ?_, ?_, ?_⟩
      · simp only [List.map_cons]
        exact (List.Perm.swap lc l1 _).trans ((hperm.cons lc).trans (List.Perm.swap la lc _))
      · intro x hx
        rcases List.mem_cons.mp hx with rfl | hx
        · exact h
        · exact hmax x hx
      · simp only [List.map_cons, List.sum_cons]
        linarith
    · have hl : l1 ≤ lc := by omega
      refine ⟨lc, (cb, l1) :: t1, by simp [hfst], ?_, ?_, ?_⟩
      · simp only [List.map_cons]
        exact (hperm.cons lc).trans (List.Perm.swap la lc _)
      · intro x hx
        rcases List.mem_cons.mp hx with rfl | hx
        · exact hl
        · exact le_trans (hmax x hx) hl
      · simp only [List.map_cons, List.sum_cons]
        have hl' : (l1 : W) ≤ (lc : W) := Nat.cast_le.mpr hl
        nlinarith [mul_nonneg (sub_nonneg.mpr hac) (sub_nonneg.mpr hl')]

/-- The step of the optimality argument on lengths: given lengths of Kraft sum at most 1
for `a`, `b` and `rest`, where `a` is a lightest element and `b` a lightest of the others,
there are lengths of Kraft sum at most 1 for one element of weight `w a + w b` and `rest`
that cost at least `w a + w b` less. -/
theorem kraft_merge (w : β → W) (a b : β) (la lb : Nat) (rest : List (β × Nat))
    (h0 : 0 ≤ w a) (hab : w a ≤ w b) (ha : ∀ x ∈ rest, w a ≤ w x.1)
    (hb : ∀ x ∈ rest, w b ≤ w x.1)
    (hk : kraftSum (la :: lb :: rest.map Prod.snd) ≤ 1) :
    ∃ (l' : Nat) (rest' : List (β × Nat)), rest'.map Prod.fst = rest.map Prod.fst ∧
      kraftSum (l' :: rest'.map Prod.snd) ≤ 1 ∧
      (w a + w b) * (l' : W) + (rest'.map (fun x => w x.1 * (x.2 : W))).sum + (w a + w b)
        ≤ w a * (la : W) + w b * (lb : W) + (rest.map (fun x => w x.1 * (x.2 : W))).sum := by
  -- `a` takes the greatest length
  obtain ⟨la1, t1, hfst1, hperm1, hmax1, hcost1⟩ := exchange_max w a la ((b, lb) :: rest) (by
    intro x hx
    rcases List.mem_cons.mp hx with rfl | hx
    · exact hab
    · exact ha x hx)
  match t1, hfst1, hperm1, hmax1, hcost1 with
  | [], hfst1, _, _, _ => simp at hfst1
  | (b', lb1) :: r1, hfst1, hperm1, hmax1, hcost1 =>
    simp only [List.map_cons, List.cons.injEq] at hfst1
    obtain ⟨hb', hfr1⟩ := hfst1
    subst hb'
    -- `b` takes the greatest length of the others
    obtain ⟨lb2, r2, hfst2, hperm2, hmax2, hcost2⟩ := exchange_max w b' lb1 r1 (by
      intro x hx
      have : x.1 ∈ rest.map Prod.fst := by
        rw [← hfr1]; exact List.mem_map.mpr ⟨x, hx, rfl⟩
      obtain ⟨y, hy, hyx⟩ := List.mem_map.mp this
      rw [← hyx]
      exact hb y hy)
    have hk2 : kraftSum (la1 :: lb2 :: r2.map Prod.snd) ≤ 1 := by
      have hp : (la1 :: lb2 :: r2.map Prod.snd).Perm (la :: lb :: rest.map Prod.snd) :=
        (hperm2.cons la1).trans (by simpa using hperm1)
      rw [kraftSum_perm hp]
      exact hk
    have hge : lb2 ≤ la1 := by
      have : lb2 ∈ lb1 :: r1.map Prod.snd := hperm2.subset (List.mem_cons_self _ _)
      rcases List.mem_cons.mp this with h | h
      · rw [h]; exact hmax1 (b', lb1) (List.mem_cons_self _ _)
      · obtain ⟨y, hy, hyx⟩ := List.mem_map.mp h
        rw [← hyx]
        exact hmax1 y (List.mem_cons_of_mem _ hy)
    have hk3 : kraftSum (lb2 :: lb2 :: r2.map Prod.snd) ≤ 1 :=
      kraftSum_tighten la1 lb2 _ (by
        intro l hl
        obtain ⟨y, hy, hyx⟩ := List.mem_map.mp hl
        rw [← hyx]
        exact hmax2 y hy) hk2
    have hpos : 0 < lb2 := pos_of_kraftSum_pair lb2 _ hk3
    refine ⟨lb2 - 1, r2, hfst2.trans hfr1, ?_, ?_⟩
    · rw [kraftSum_merge lb2 _ hpos]
      exact hk3
    · simp only [List.map_cons, List.sum_cons] at hcost1
      have hc : ((lb2 - 1 : Nat) : W) = (lb2 : W) - 1 := by
        rw [Nat.cast_sub hpos, Nat.cast_one]
      have hge' : (lb2 : W) ≤ (la1 : W) := Nat.cast_le.mpr hge
      rw [hc]
      nlinarith [mul_nonneg h0 (sub_nonneg.mpr hge')]

end Exchange

end Huffman
end HuffmanMPI

namespace HuffmanMPI
namespace Huffman

section KraftInequality

theorem mem_codesAfter (b : Bool) (cs : List (List Bool)) (t : List Bool) :
    t ∈ codesAfter b cs ↔ (b :: t) ∈ cs := by
  induction cs with
  | nil => simp [codesAfter]
  | cons c cs ih =>
    cases c with
    | nil => simp [codesAfter, ih]
    | cons first code =>
      rw [codesAfter]
      by_cases h : first = b
      · subst h
        simp [ih]
      · rw [if_neg h, ih]
        simp [h, Ne.symm h]

theorem pairwise_codesAfter (b : Bool) (cs : List (List Bool))
    (h : cs.Pairwise (fun c₁ c₂ => ¬ c₁ <+: c₂ ∧ ¬ c₂ <+: c₁)) :
    (codesAfter b cs).Pairwise (fun c₁ c₂ => ¬ c₁ <+: c₂ ∧ ¬ c₂ <+: c₁) := by
  induction cs with
  | nil => simp [codesAfter]
  | cons c cs ih =>
    rw [List.pairwise_cons] at h
    cases c with
    | nil => exact ih h.2
    | cons first code =>
      rw [codesAfter]
      by_cases hb : first = b
      · subst hb
        rw [if_pos rfl, List.pairwise_cons]
        refine ⟨fun t ht => ?_, ih h.2⟩
        have := h.1 _ ((mem_codesAfter first cs t).mp ht)
        rw [List.prefix_cons_inj, List.prefix_cons_inj] at this
        exact this
      · rw [if_neg hb]
        exact ih h.2

/-- The Kraft sum of non-empty codes, split by the first bit. -/
theorem kraftSum_split (cs : List (List Bool)) (hne : ∀ c ∈ cs, c ≠ []) :
    kraftSum (cs.map List.length)
      = 1 / 2 * (kraftSum ((codesAfter true cs).map List.length)
          + kraftSum ((codesAfter false cs).map List.length)) := by
  induction cs with
  | nil => simp [codesAfter, kraftSum_nil]
  | cons c cs ih =>
    have ih' := ih (fun c hc => hne c (List.mem_cons_of_mem _ hc))
    cases c with
    | nil => exact absurd rfl (hne [] (List.mem_cons_self _ _))
    | cons first code =>
      rw [List.map_cons, kraftSum_cons, ih', List.length_cons, pow_succ]
      cases first with
      | true =>
        simp only [codesAfter, if_true, Bool.true_eq_false, if_false, List.map_cons, kraftSum_cons]
        ring
      | false =>
        simp only [codesAfter, if_true, Bool.false_eq_true, if_false, List.map_cons, kraftSum_cons]
        ring

theorem eq_singleton_of_nil_mem (cs : List (List Bool))
    (h : cs.Pairwise (fun c₁ c₂ => ¬ c₁ <+: c₂ ∧ ¬ c₂ <+: c₁)) (hnil : [] ∈ cs) : cs = [[]] := by
  cases cs with
  | nil => simp at hnil
  | cons c rest =>
    rw [List.pairwise_cons] at h
    cases c with
    | nil =>
      cases rest with
      | nil => rfl
      | cons c' rest' =>
        exact absurd (List.nil_prefix) (h.1 c' (List.mem_cons_self _ _)).1
    | cons first code =>
      have hmem : [] ∈ rest := by simpa using hnil
      exact absurd (List.nil_prefix) (h.1 [] hmem).2

/-- Kraft's inequality: the lengths of codes none of which begins another have a Kraft
sum of at most 1. -/
theorem kraft_inequality (n : Nat) (cs : List (List Bool)) (hlen : ∀ c ∈ cs, c.length ≤ n)
    (h : cs.Pairwise (fun c₁ c₂ => ¬ c₁ <+: c₂ ∧ ¬ c₂ <+: c₁)) :
    kraftSum (cs.map List.length) ≤ 1 := by
  induction n generalizing cs with
  | zero =>
    have hall : ∀ c ∈ cs, c = [] := fun c hc =>
      List.length_eq_zero.mp (Nat.le_zero.mp (hlen c hc))
    match cs, h, hall with
    | [], _, _ => simp [kraftSum_nil]
    | [c], _, hall =>
      rw [hall c (List.mem_singleton.mpr rfl)]
      simp [kraftSum]
    | c₁ :: c₂ :: rest, h, hall =>
      rw [List.pairwise_cons] at h
      have := (h.1 c₂ (List.mem_cons_self _ _)).1
      rw [hall c₁ (by simp)] at this
      exact absurd List.nil_prefix this
  | succ n ih =>
    by_cases hnil : [] ∈ cs
    · rw [eq_singleton_of_nil_mem cs h hnil]
      simp [kraftSum]
    · have hne : ∀ c ∈ cs, c ≠ [] := fun c hc h0 => hnil (h0 ▸ hc)
      rw [kraftSum_split cs hne]
      have hb : ∀ b, kraftSum ((codesAfter b cs).map List.length) ≤ 1 := by
        intro b
        apply ih _ _ (pairwise_codesAfter b cs h)
        intro t ht
        have := hlen _ ((mem_codesAfter b cs t).mp ht)
        simp only [List.length_cons] at this
        omega
      have h1 := hb true
      have h2 := hb false
      linarith

end KraftInequality

section CodeKraft
variable {T W : Type} [LinearOrder T]

/-- The code lengths of a code free of prefixes on a frequency table satisfy Kraft's
inequality. -/
theorem kraftSum_of_prefixFree (dict : Map T W) (hwf : dict.WF) (code : T → List Bool)
    (hpf : PrefixFree dict code) :
    kraftSum (dict.map (fun e => (code e.1).length)) ≤ 1 := by
  have hp : (dict.map (fun e => code e.1)).Pairwise
      (fun c₁ c₂ => ¬ c₁ <+: c₂ ∧ ¬ c₂ <+: c₁) := by
    rw [List.pairwise_map]
    unfold Map.WF at hwf
    exact hwf.imp_of_mem (fun {a b} ha hb hlt =>
      ⟨hpf a ha b hb (ne_of_lt hlt), hpf b hb a ha (ne_of_gt hlt)⟩)
  have := kraft_inequality ((dict.map (fun e => (code e.1).length)).sum)
    (dict.map (fun e => code e.1)) (by
      intro c hc
      obtain ⟨e, he, rfl⟩ := List.mem_map.mp hc
      exact List.single_le_sum (fun _ _ => Nat.zero_le _) _
        (List.mem_map.mpr ⟨e, he, rfl⟩)) hp
  rw [List.map_map] at this
  exact this

end CodeKraft

end Huffman
end HuffmanMPI

namespace HuffmanMPI
namespace Huffman

section PermMap

theorem exists_perm_map {α β : Type} (f : α → β) {F F' : List β} (h : F.Perm F')
    (xs : List α) (hxs : xs.map f = F) : ∃ xs' : List α, xs'.Perm xs ∧ xs'.map f = F' := by
  induction h generalizing xs with
  | nil => exact ⟨xs, List.Perm.refl _, hxs⟩
  | cons x _ ih =>
    match xs, hxs with
    | y :: ys, hxs =>
      simp only [List.map_cons, List.cons.injEq] at hxs
      obtain ⟨ys', hp, hm⟩ := ih ys hxs.2
      exact ⟨y :: ys', hp.cons y, by simp [hm, hxs.1]⟩
  | swap x y l =>
    match xs, hxs with
    | u :: v :: ws, hxs =>
      simp only [List.map_cons, List.cons.injEq] at hxs
      exact ⟨v :: u :: ws, List.Perm.swap u v ws, by simp [hxs.1, hxs.2.1, hxs.2.2]⟩
  | trans _ _ ih₁ ih₂ =>
    obtain ⟨ys, hp₁, hm₁⟩ := ih₁ xs hxs
    obtain ⟨zs, hp₂, hm₂⟩ := ih₂ ys hm₁
    exact ⟨zs, hp₂.trans hp₁, hm₂⟩

theorem sum_map_fst_add {α δ : Type} [AddCommMonoid δ] (f : α → δ) (g : α × Nat → δ)
    (xs : List (α × Nat)) :
    (xs.map (fun x => f x.1 + g x)).sum = ((xs.map Prod.fst).map f).sum + (xs.map g).sum := by
  rw [List.sum_map_add, List.map_map]
  rfl

end PermMap

section Optimal
variable {T W : Type} [LinearOrder T] [LinearOrderedField W]

/-- The invariant of the optimality argument, for a bound `C`: the weights are not
negative, and the trees of the heap can be given depths, with a Kraft sum of at most 1,
such that the weighted path lengths of the trees plus their weights times their depths
are at most `C`. -/
theorem mergeInvariant_optimal (C : W) :
    MergeInvariant (fun F : List (Node T W) =>
      (∀ t ∈ F, 0 ≤ t.probability) ∧
      ∃ xs : List (Node T W × Nat), xs.map Prod.fst = F ∧ kraftSum (xs.map Prod.snd) ≤ 1 ∧
        (xs.map (fun x => x.1.cost + x.1.probability * (x.2 : W))).sum ≤ C) where
  perm := by
    rintro l l' hp ⟨hnn, xs, hfst, hk, hc⟩
    refine ⟨fun t ht => hnn t (hp.symm.subset ht), ?_⟩
    obtain ⟨xs', hperm, hmap⟩ := exists_perm_map Prod.fst hp xs hfst
    refine ⟨xs', hmap, ?_, ?_⟩
    · rw [kraftSum_perm (hperm.map Prod.snd)]
      exact hk
    · rw [(hperm.map _).sum_eq]
      exact hc
  step := by
    rintro a b rest hab hb ⟨hnn, xs, hfst, hk, hc⟩
    match xs, hfst, hk, hc with
    | (a', la) :: (b', lb) :: xr, hfst, hk, hc =>
      simp only [List.map_cons, List.cons.injEq] at hfst
      obtain ⟨ha', hb', hxr⟩ := hfst
      subst ha' hb'
      simp only [List.map_cons] at hk
      have hle : a'.probability ≤ b'.probability :=
        (Node.le_def _ _).mp (hab b' (List.mem_cons_self _ _))
      obtain ⟨l', xr', hfst', hk', hcost'⟩ := kraft_merge Node.probability a' b' la lb xr
        (hnn a' (List.mem_cons_self _ _)) hle
        (fun x hx => (Node.le_def _ _).mp (hab x.1 (List.mem_cons_of_mem _ (by
          rw [← hxr]; exact List.mem_map.mpr ⟨x, hx, rfl⟩))))
        (fun x hx => (Node.le_def _ _).mp (hb x.1 (by
          rw [← hxr]; exact List.mem_map.mpr ⟨x, hx, rfl⟩)))
        hk
      have hmerge : Node.merge a' b'
          = .inner (a'.probability + b'.probability) a' b' :=
        Node.merge_of_le (hab b' (List.mem_cons_self _ _))
      refine ⟨?_, (Node.merge a' b', l') :: xr', by simp [hfst', hxr], by simpa using hk', ?_⟩
      · intro t ht
        rcases List.mem_cons.mp ht with rfl | ht
        · rw [hmerge]
          have h1 := hnn a' (List.mem_cons_self _ _)
          have h2 := hnn b' (List.mem_cons_of_mem _ (List.mem_cons_self _ _))
          show 0 ≤ a'.probability + b'.probability
          linarith
        · exact hnn t (List.mem_cons_of_mem _ (List.mem_cons_of_mem _ ht))
      · simp only [List.map_cons, List.sum_cons] at hc ⊢
        rw [sum_map_fst_add Node.cost (fun x => x.1.probability * (x.2 : W))] at hc ⊢
        rw [hfst', hmerge]
        have hp : (Node.inner (a'.probability + b'.probability) a' b').probability
            = a'.probability + b'.probability := rfl
        have hcm : (Node.inner (a'.probability + b'.probability) a' b').cost
            = a'.cost + b'.cost + a'.probability + b'.probability := rfl
        rw [hp, hcm]
        linarith

/-- In a tree with the weight invariant, the weight of a node is the sum of the weights
of the leaves below it. -/
theorem Node.probability_eq_sum (n : Node T W) (hws : n.WeightSum) :
    n.probability = (n.leaves.map Prod.snd).sum := by
  induction n with
  | leaf d p => simp [Node.probability, Node.leaves]
  | inner p l r ihl ihr =>
    obtain ⟨hp, hl, hr⟩ := hws
    simp only [Node.probability, Node.leaves, List.map_append, List.sum_append]
    rw [hp, ihl hl, ihr hr]

/-- The weighted path length of a tree is the expected length, over its leaves, of a
code that gives each symbol its path. -/
theorem Node.cost_eq_sum (n : Node T W) (hws : n.WeightSum) (code : T → List Bool)
    (hcode : ∀ s c, (s, c) ∈ n.paths → code s = c) :
    (n.leaves.map (fun e => e.2 * ((code e.1).length : W))).sum = n.cost := by
  induction n generalizing code with
  | leaf d p =>
    have := hcode d [] (by simp [Node.paths])
    simp [Node.leaves, Node.cost, this]
  | inner p l r ihl ihr =>
    obtain ⟨_, hl, hr⟩ := hws
    have side : ∀ (child : Node T W) (bit : Bool), child.WeightSum →
        (∀ s c, (s, c) ∈ child.paths → code s = bit :: c) →
        (∀ code' : T → List Bool, (∀ s c, (s, c) ∈ child.paths → code' s = c) →
          (child.leaves.map (fun e => e.2 * ((code' e.1).length : W))).sum = child.cost) →
        (child.leaves.map (fun e => e.2 * ((code e.1).length : W))).sum
          = child.cost + child.probability := by
      intro child bit hcw hc ih
      have h1 := ih (fun s => (code s).tail) (fun s c hsc => by
        show (code s).tail = c
        rw [hc s c hsc]; rfl)
      rw [Node.probability_eq_sum child hcw, ← h1, ← List.sum_map_add]
      congr 1
      apply List.map_congr_left
      intro e he
      have hk : e.1 ∈ child.paths.map Prod.fst := by
        rw [Node.paths_fst]
        exact List.mem_reverse.mpr (List.mem_map.mpr ⟨e, he, rfl⟩)
      obtain ⟨x, hx, hxe⟩ := List.mem_map.mp hk
      have := hc x.1 x.2 hx
      rw [hxe] at this
      show e.2 * ((code e.1).length : W) = e.2 * (((code e.1).tail.length : Nat) : W) + e.2
      rw [this]
      simp only [List.tail_cons, List.length_cons, Nat.cast_add, Nat.cast_one]
      ring
    have hL := side l true hl (fun s c hsc => hcode s (true :: c) (by
      rw [Node.paths, List.mem_append]
      exact Or.inr (List.mem_map.mpr ⟨(s, c), hsc, rfl⟩))) (fun code' h => ihl hl code' h)
    have hR := side r false hr (fun s c hsc => hcode s (false :: c) (by
      rw [Node.paths, List.mem_append]
      exact Or.inl (List.mem_map.mpr ⟨(s, c), hsc, rfl⟩))) (fun code' h => ihr hr code' h)
    simp only [Node.leaves, List.map_append, List.sum_append, Node.cost]
    rw [hL, hR]
    ring

end Optimal

end Huffman
end HuffmanMPI

namespace HuffmanMPI
namespace Huffman

section Table
variable {T W : Type} [LinearOrder T] [LinearOrder W] [Add W]

/-- The keys of the code table of a tree whose leaves are the entries of a frequency
table: the keys of the frequency table, in order. -/
theorem table_keys (dict : Map T W) (hwf : dict.WF) (root : Node T W)
    (hperm : root.leaves.Perm dict) :
    (root.paths.foldl (fun res e => Map.set res e.1 e.2) ([] : Map T (List Bool))).map Prod.fst
      = dict.map Prod.fst := by
  have hkeys : (root.leaves.map Prod.fst).Perm (dict.map Prod.fst) := hperm.map _
  have hsd : (dict.map Prod.fst).Sorted (· < ·) := by
    unfold Map.WF at hwf
    exact List.pairwise_map.mpr hwf
  have hwt := foldl_set_WF root.paths ([] : Map T (List Bool)) (by simp [Map.WF])
  have hst : ((root.paths.foldl (fun res e => Map.set res e.1 e.2)
      ([] : Map T (List Bool))).map Prod.fst).Sorted (· < ·) := by
    unfold Map.WF at hwt
    exact List.pairwise_map.mpr hwt
  have hnd : (root.leaves.map Prod.fst).Nodup := hkeys.nodup_iff.mpr hsd.nodup
  apply List.eq_of_perm_of_sorted ?_ hst hsd
  rw [List.perm_ext_iff_of_nodup hst.nodup hsd.nodup]
  intro s
  rw [← hkeys.mem_iff]
  constructor
  · intro hs
    obtain ⟨e, he, rfl⟩ := List.mem_map.mp hs
    have hfind := Map.find_of_mem hwt (k := e.1) (v := e.2) he
    have := foldl_set_mem_of_find _ _ _ hfind
    have h2 : e.1 ∈ root.paths.map Prod.fst := List.mem_map.mpr ⟨_, this, rfl⟩
    rw [Node.paths_fst] at h2
    exact List.mem_reverse.mp h2
  · intro hs
    have := codeOf_mem_paths root hnd s hs
    have hfind := (table_find_iff root hnd s _).mpr this
    exact List.mem_map.mpr ⟨_, Map.mem_of_find hfind, rfl⟩

theorem eq_map_of_keys {V : Type} (g : T → V) (table : List (T × V)) (keys : List T)
    (hk : table.map Prod.fst = keys) (hv : ∀ x ∈ table, x.2 = g x.1) :
    table = keys.map (fun k => (k, g k)) := by
  subst hk
  rw [List.map_map]
  conv_lhs => rw [← List.map_id table]
  apply List.map_congr_left
  intro x hx
  simp only [id, Function.comp]
  rw [← hv x hx]

/-- The code table of a tree whose leaves are the entries of a frequency table, entry by
entry. -/
theorem table_eq_map (dict : Map T W) (hwf : dict.WF) (root : Node T W)
    (hperm : root.leaves.Perm dict) :
    root.paths.foldl (fun res e => Map.set res e.1 e.2) ([] : Map T (List Bool))
      = dict.map (fun e => (e.1, codeOf root e.1)) := by
  have hwt := foldl_set_WF root.paths ([] : Map T (List Bool)) (by simp [Map.WF])
  have := eq_map_of_keys (codeOf root) _ _ (table_keys dict hwf root hperm) (by
    intro x hx
    have hfind := Map.find_of_mem hwt (k := x.1) (v := x.2) hx
    unfold codeOf
    rw [hfind]
    rfl)
  rw [this, List.map_map]
  rfl

end Table

section Price
variable {T W : Type} [LinearOrder T] [LinearOrderedField W]

theorem priceStep_foldlM (frequency : Map T W) (hwf : frequency.WF) (code : T → List Bool)
    (entries : List (T × W)) (hsub : ∀ e ∈ entries, e ∈ frequency) (acc : W) :
    (entries.map (fun e => (e.1, code e.1))).foldlM (Encoder.priceStep frequency) acc
      = .ok (acc + (entries.map (fun e => e.2 * ((code e.1).length : W))).sum) := by
  induction entries generalizing acc with
  | nil => simp [pure, Except.pure]
  | cons e rest ih =>
    have hfind : frequency.find e.1 = some e.2 :=
      Map.find_of_mem hwf (hsub e (List.mem_cons_self _ _))
    rw [List.map_cons, List.foldlM_cons]
    simp only [Encoder.priceStep, hfind, bind, Except.bind, pure, Except.pure]
    rw [ih (fun x hx => hsub x (List.mem_cons_of_mem _ hx))]
    simp only [List.map_cons, List.sum_cons]
    congr 1
    ring

/-- `price()` of an encoder whose tree was built from its frequency table returns the
expected length of the code table. -/
theorem price_eq (dict : Map T W) (hwf : dict.WF) (data : List T) (root : Node T W)
    (nodes : List (Node T W)) (hperm : root.leaves.Perm dict) :
    Encoder.price (⟨dict, data, ⟨some root, nodes⟩⟩ : Encoder T W)
      = .ok (expectedLength dict (codeOf root)) := by
  unfold Encoder.price
  rw [traverse_root]
  simp only [bind, Except.bind]
  rw [table_eq_map dict hwf root hperm, priceStep_foldlM dict hwf (codeOf root) dict
    (fun e he => he) 0, zero_add]
  rfl

/-- The tree the constructor builds has the least expected code length among the codes
that are free of prefixes. -/
theorem Tree_optimal (dict : Map T W) (hwf : dict.WF) (hne : dict ≠ [])
    (hnn : ∀ e ∈ dict, 0 ≤ e.2) (root : Node T W) (nodes : List (Node T W))
    (hok : Tree.Tree dict = .ok ⟨some root, nodes⟩) (code : T → List Bool)
    (hpf : PrefixFree dict code) :
    expectedLength dict (codeOf root) ≤ expectedLength dict code := by
  obtain ⟨root₁, nodes₁, hok₁, hperm, hws, _⟩ := Tree_spec dict hne
  rw [hok] at hok₁
  have e₁ := Except.ok.inj hok₁
  simp only [Tree.mk.injEq, Option.some.injEq] at e₁
  obtain ⟨rfl, _⟩ := e₁
  obtain ⟨root₂, nodes₂, hok₂, hQ⟩ := Tree_invariant
    (mergeInvariant_optimal (T := T) (expectedLength dict code)) dict hne (by
      refine ⟨?_, dict.map (fun e => (Node.leaf e.1 e.2, (code e.1).length)), ?_, ?_, ?_⟩
      · intro t ht
        obtain ⟨e, he, rfl⟩ := List.mem_map.mp ht
        exact hnn e he
      · rw [List.map_map]; rfl
      · rw [List.map_map]
        exact kraftSum_of_prefixFree dict hwf code hpf
      · rw [List.map_map]
        apply le_of_eq
        unfold expectedLength
        congr 1
        apply List.map_congr_left
        intro e _
        simp [Node.cost, Node.probability])
  rw [hok] at hok₂
  have e₂ := Except.ok.inj hok₂
  simp only [Tree.mk.injEq, Option.some.injEq] at e₂
  obtain ⟨rfl, _⟩ := e₂
  obtain ⟨hnn', xs, hfst, _, hc⟩ := hQ
  have hkeys : (root.leaves.map Prod.fst).Perm (dict.map Prod.fst) := hperm.map _
  have hnd : (root.leaves.map Prod.fst).Nodup := by
    rw [hkeys.nodup_iff]
    unfold Map.WF at hwf
    exact (List.pairwise_map.mpr hwf : (dict.map Prod.fst).Sorted (· < ·)).nodup
  have hcost : expectedLength dict (codeOf root) = root.cost := by
    unfold expectedLength
    rw [← (hperm.map (fun e => e.2 * ((codeOf root e.1).length : W))).sum_eq]
    exact Node.cost_eq_sum root hws (codeOf root) (fun s c hsc => by
      have := (table_find_iff root hnd s c).mpr hsc
      unfold codeOf
      rw [this]
      rfl)
  rw [hcost]
  match xs, hfst, hc with
  | [(r, l)], hfst, hc =>
    simp only [List.map_cons, List.map_nil, List.cons.injEq, and_true] at hfst
    subst hfst
    simp only [List.map_cons, List.map_nil, List.sum_cons, List.sum_nil, add_zero] at hc
    have h0 := hnn' r (List.mem_singleton.mpr rfl)
    have hl : (0 : W) ≤ (l : W) := Nat.cast_nonneg l
    nlinarith [mul_nonneg h0 hl]

end Price

end Huffman
end HuffmanMPI

namespace HuffmanMPI

/-! ## The claims -/

section Claims

open Heap Huffman

variable {T W : Type} [LinearOrder T] [LinearOrder W] [Add W]

/-- C3. Bit codec round trip: for every value `v` of a fixed-size type, seen through
its `sizeof(T)` bytes, `Bits::deserialize<T>(Bits::serialize<T>(v))` succeeds and
returns `v`; the buffer `deserialize` fills holds the bytes of `v`, as does the buffer
filled from the bits of any sequence of bytes. -/
theorem C3_deserialize_serialize {α : Type} [Bits.Pod α] (v : α) :
    Bits.deserialize (Bits.serialize v) = (.ok v : Except Failure α) ∧
      Bits.deserializeBuffer (Bits.Pod.sizeof α) (Bits.serialize v) = Bits.Pod.bytes v ∧
      ∀ buffer : List Byte,
        Bits.deserializeBuffer buffer.length (Bits.serializeBytes buffer) = buffer := by
  refine ⟨Bits.deserialize_serialize v, ?_, Bits.deserializeBuffer_serializeBytes⟩
  have h := Bits.deserializeBuffer_serializeBytes (Bits.Pod.bytes v)
  rw [Bits.Pod.bytes_length] at h
  exact h

/-- C4. Prefix-free codes: for every non-empty frequency table the constructor of
`Tree` succeeds, `traverse` returns a code table, and in that table no symbol's code
is a prefix of the code of a different symbol. -/
theorem C4_codes_prefix_free (dict : Map T W) (hne : dict ≠ []) :
    ∃ tree table, Tree.Tree dict = .ok tree ∧ tree.traverse = .ok table ∧
      ∀ s₁ s₂ c₁ c₂, s₁ ≠ s₂ → table.find s₁ = some c₁ → table.find s₂ = some c₂ →
        ¬ c₁ <+: c₂ := by
  obtain ⟨root, nodes, hok, _⟩ := Tree_spec dict hne
  refine ⟨_, _, hok, traverse_root root nodes, ?_⟩
  intro s₁ s₂ c₁ c₂ hs h₁ h₂
  exact paths_prefix_free root s₁ s₂ c₁ c₂ hs h₁ h₂

/-- Witness of C4: the table `{65: 1, 66: 2, 67: 2}`. -/
theorem C4_codes_prefix_free_witness :
    ∃ tree table, Tree.Tree ([(65, 1), (66, 2), (67, 2)] : Map Byte Nat) = .ok tree ∧
      tree.traverse = .ok table ∧
      ∀ s₁ s₂ c₁ c₂, s₁ ≠ s₂ → table.find s₁ = some c₁ → table.find s₂ = some c₂ →
        ¬ c₁ <+: c₂ :=
  C4_codes_prefix_free ([(65, 1), (66, 2), (67, 2)] : Map Byte Nat) (by decide)

/-- C9. Weight invariant: for every non-empty frequency table the constructor of
`Tree` succeeds and in the tree it builds every internal node's weight is the sum
of the weights of its left and right children, at every depth. -/
theorem C9_weight_sum (dict : Map T W) (hne : dict ≠ []) :
    ∃ root nodes, Tree.Tree dict = .ok ⟨some root, nodes⟩ ∧ root.WeightSum := by
  obtain ⟨root, nodes, hok, _, hw, _⟩ := Tree_spec dict hne
  exact ⟨root, nodes, hok, hw⟩

/-- Witness of C9: the table `{65: 1, 66: 2, 67: 2}`. -/
theorem C9_weight_sum_witness :
    ∃ root nodes, Tree.Tree ([(65, 1), (66, 2), (67, 2)] : Map Byte Nat) = .ok ⟨some root, nodes⟩ ∧
      root.WeightSum :=
  C9_weight_sum ([(65, 1), (66, 2), (67, 2)] : Map Byte Nat) (by decide)

/-- C10. Greedy merge order: for every non-empty frequency table, at every iteration of
the loop of the constructor of `Tree` the first `pop` returns a node of lowest weight of
the heap and the second `pop` a node of lowest weight of what is left, the merged node
has the first as left child and the second as right child, and the merged node is what
the iteration appends; the tree the constructor returns is reached by such iterations,
and in each of its internal nodes the weight of the left child is at most the weight of
the right child. -/
theorem C10_two_lowest_left_light (dict : Map T W) (hne : dict ≠ []) :
    (∀ heap nodes, Tree.LoopState dict heap nodes → heap.size ≠ 1 →
      ∃ first second heap₁ heap₂ heap₃,
        heap.pop = .ok (first, heap₁) ∧
        (∀ y ∈ heap.pool, first.probability ≤ y.probability) ∧
        (first :: heap₁.pool).Perm heap.pool ∧
        heap₁.pop = .ok (second, heap₂) ∧
        (∀ y ∈ heap₁.pool, second.probability ≤ y.probability) ∧
        (second :: heap₂.pool).Perm heap₁.pool ∧
        Node.merge first second = .inner (first.probability + second.probability) first second ∧
        heap₂.append (Node.merge first second) = .ok heap₃ ∧
        Tree.mergeStep heap nodes = .ok (heap₃, nodes ++ [first, second])) ∧
    (∃ root nodes, Tree.Tree dict = .ok ⟨some root, nodes ++ [root]⟩ ∧
      Tree.LoopState dict ⟨[root]⟩ nodes ∧ root.LeftLight) := by
  constructor
  · intro heap nodes hs hsize
    have hQ : MergeInvariant (fun _ : List (Node T W) => True) :=
      ⟨fun _ _ _ _ => trivial, fun _ _ _ _ _ _ => trivial⟩
    obtain ⟨hpos, hheap, _⟩ := loopState_invariant hQ dict hne trivial heap nodes hs
    have h2 : 2 ≤ heap.pool.length := by
      simp only [MinHeap.size] at hsize; omega
    obtain ⟨first, second, heap₁, heap₂, heap₃, hp1, hp2, hap, hstep, hperm1, hperm2, _, hmin1,
      hmin2, _⟩ := mergeStep_spec heap nodes h2 hheap
    refine ⟨first, second, heap₁, heap₂, heap₃, hp1, hmin1, hperm1, hp2, hmin2, hperm2, ?_, hap,
      hstep⟩
    apply Node.merge_of_le
    exact hmin1 second (hperm1.subset (List.mem_cons_of_mem _ (hperm2.subset (List.mem_cons_self _ _))))
  · obtain ⟨root, nodes, hok, _, _, hl⟩ := Tree_spec dict hne
    obtain ⟨nodes', rfl, hls⟩ := Tree_loopState dict root nodes hok
    exact ⟨root, nodes', hok, hls, hl⟩

/-- Witness of C10: the table `{65: 1, 66: 2, 67: 2}`. -/
theorem C10_two_lowest_left_light_witness :
    (∀ heap nodes, Tree.LoopState ([(65, 1), (66, 2), (67, 2)] : Map Byte Nat) heap nodes →
      heap.size ≠ 1 →
      ∃ first second heap₁ heap₂ heap₃,
        heap.pop = .ok (first, heap₁) ∧
        (∀ y ∈ heap.pool, first.probability ≤ y.probability) ∧
        (first :: heap₁.pool).Perm heap.pool ∧
        heap₁.pop = .ok (second, heap₂) ∧
        (∀ y ∈ heap₁.pool, second.probability ≤ y.probability) ∧
        (second :: heap₂.pool).Perm heap₁.pool ∧
        Node.merge first second = .inner (first.probability + second.probability) first second ∧
        heap₂.append (Node.merge first second) = .ok heap₃ ∧
        Tree.mergeStep heap nodes = .ok (heap₃, nodes ++ [first, second])) ∧
    (∃ root nodes, Tree.Tree ([(65, 1), (66, 2), (67, 2)] : Map Byte Nat)
        = .ok ⟨some root, nodes ++ [root]⟩ ∧
      Tree.LoopState ([(65, 1), (66, 2), (67, 2)] : Map Byte Nat) ⟨[root]⟩ nodes ∧ root.LeftLight) :=
  C10_two_lowest_left_light ([(65, 1), (66, 2), (67, 2)] : Map Byte Nat) (by decide)

end Claims

end HuffmanMPI

namespace HuffmanMPI

section Claims

open Heap Huffman

variable {T W : Type} [LinearOrder T] [LinearOrder W] [Add W] [NatCast W] [Div W]
  [Bits.Pod T] [Bits.Pod W]

theorem Encoder_mpi_eq (world_size : Nat) (data : List T) (hw : 1 ≤ world_size)
    (hlen : data.length < 2 ^ 31) :
    (Encoder.Encoder world_size data true : Except Failure (Encoder T W))
      = Encoder.Encoder world_size data false := by
  unfold Encoder.Encoder
  simp only [Bool.not_true, Bool.false_eq_true, if_false, Bool.not_false, if_true]
  rw [MPI_Statistic_eq world_size data hw hlen]
  rfl

/-- The pipeline of `main` on a range with two distinct symbols, step by step. -/
theorem roundTrip_steps (world_size : Nat) (source : List T) (mpi : Bool)
    (h2 : ∃ a ∈ source, ∃ b ∈ source, a ≠ b) (hlen : source.length < 2 ^ 64)
    (hmpi : mpi = true → 1 ≤ world_size ∧ source.length < 2 ^ 31) :
    ∃ (encoder : Encoder T W) (content : List Bool) (decoder : Decoder T W),
      Encoder.Encoder world_size source mpi = .ok encoder ∧
      (if mpi then encoder.MPI_Encode world_size source else encoder.encodeData) = .ok content ∧
      encoder.encodeData = .ok content ∧
      Decoder.Decoder (encoder.dict ++ content) = .ok decoder ∧
      decoder.decode = .ok source ∧
      roundTrip (W := W) world_size source mpi = .ok source := by
  have hne : source ≠ [] := by
    obtain ⟨a, ha, _⟩ := h2
    exact List.ne_nil_of_mem ha
  obtain ⟨root, nodes, hok, hperm⟩ := Encoder_local (W := W) world_size source hne
  have hok' : Encoder.Encoder world_size source mpi
      = .ok (⟨(statistic source).map (fun pair => (pair.1, (pair.2 : W) / (source.length : W))),
              source, ⟨some root, nodes⟩⟩ : Encoder T W) := by
    cases mpi with
    | false => exact hok
    | true =>
      obtain ⟨hw, hl⟩ := hmpi rfl
      rw [Encoder_mpi_eq world_size source hw hl]
      exact hok
  obtain ⟨_, _, _, hbuild, _⟩ := Encoder_inv world_size source false _ hok
  have hcontent : (if mpi then
        (⟨(statistic source).map (fun pair => (pair.1, (pair.2 : W) / (source.length : W))),
          source, ⟨some root, nodes⟩⟩ : Encoder T W).MPI_Encode world_size source
      else
        (⟨(statistic source).map (fun pair => (pair.1, (pair.2 : W) / (source.length : W))),
          source, ⟨some root, nodes⟩⟩ : Encoder T W).encodeData)
      = .ok (source.flatMap (codeOf root)) := by
    cases mpi with
    | false => exact encode_eq _ root nodes rfl source
    | true =>
      obtain ⟨hw, hl⟩ := hmpi rfl
      exact MPI_Encode_eq _ root nodes rfl world_size source hw hl
  have hdec := decode_encoded source
    (⟨(statistic source).map (fun pair => (pair.1, (pair.2 : W) / (source.length : W))),
      source, ⟨some root, nodes⟩⟩ : Encoder T W) root nodes h2 hlen rfl rfl hbuild hperm
  cases hD : (Decoder.Decoder
      ((⟨(statistic source).map (fun pair => (pair.1, (pair.2 : W) / (source.length : W))),
        source, ⟨some root, nodes⟩⟩ : Encoder T W).dict ++ source.flatMap (codeOf root)) :
      Except Failure (Decoder T W)) with
  | error e => rw [hD] at hdec; cases hdec
  | ok decoder =>
    rw [hD] at hdec
    refine ⟨_, _, decoder, hok', hcontent, encode_eq _ root nodes rfl source, hD, hdec, ?_⟩
    unfold roundTrip
    rw [hok']
    simp only [bind, Except.bind]
    rw [hcontent]
    simp only
    rw [hD]
    exact hdec

/-- C1, as the code has it. For every symbol sequence `S` with at least two distinct
symbols and fewer than `2 ^ 31` elements and every worker count `W ≥ 1`: the encoder
built from `S` (distributed statistics), the `W`-way distributed encode of `S` and the
decoder built from `dict() ++ payload` succeed, and decoding reproduces `S` exactly.
Message passing is taken to be reliable. -/
theorem C1_roundtrip_distributed (world_size : Nat) (S : List T) (hw : 1 ≤ world_size)
    (h2 : ∃ a ∈ S, ∃ b ∈ S, a ≠ b) (hlen : S.length < 2 ^ 31) :
    ∃ (encoder : Encoder T W) (payload : List Bool) (decoder : Decoder T W),
      Encoder.Encoder world_size S true = .ok encoder ∧
      encoder.MPI_Encode world_size S = .ok payload ∧
      Decoder.Decoder (encoder.dict ++ payload) = .ok decoder ∧
      decoder.decode = .ok S ∧
      roundTrip (W := W) world_size S true = .ok S := by
  obtain ⟨encoder, content, decoder, h1, h2', _, h4, h5, h6⟩ :=
    roundTrip_steps (W := W) world_size S true h2 (by omega) (fun _ => ⟨hw, hlen⟩)
  exact ⟨encoder, content, decoder, h1, by simpa using h2', h4, h5, h6⟩

/-- Witness of C1 (amended): the sequence `[65, 65, 66]` on two workers. -/
theorem C1_roundtrip_distributed_witness :
    ∃ (encoder : Encoder Byte Fixed32) (payload : List Bool) (decoder : Decoder Byte Fixed32),
      Encoder.Encoder 2 [65, 65, 66] true = .ok encoder ∧
      encoder.MPI_Encode 2 [65, 65, 66] = .ok payload ∧
      Decoder.Decoder (encoder.dict ++ payload) = .ok decoder ∧
      decoder.decode = .ok [65, 65, 66] ∧
      roundTrip (W := Fixed32) 2 ([65, 65, 66] : List Byte) true = .ok [65, 65, 66] :=
  C1_roundtrip_distributed 2 [65, 65, 66] (by decide) ⟨65, by decide, 66, by decide, by decide⟩
    (by decide)

set_option maxRecDepth 100000 in
/-- Counterexample to C1 as stated: the one-symbol sequence `[65]` on one worker. The
encoder, the distributed encode and the decoder all succeed, the payload is empty and
the decoder emits nothing, not `[65]`. -/
theorem C1_counterexample :
    roundTrip (T := Byte) (W := Fixed32) 1 [65] true = .ok [] ∧
      roundTrip (T := Byte) (W := Fixed32) 1 [65] true ≠ .ok [65] := by
  decide

/-- C2. Round trip of the local path: for every symbol sequence `S` with at least two
distinct symbols (held in a container, so of fewer than `2 ^ 64` elements), with
`E = Encoder(S)`: the constructor, `E.encode()` and `Decoder(E.dict() ++ E.encode())`
succeed, and `decode()` emits exactly `S`, in order. -/
theorem C2_roundtrip_local (world_size : Nat) (S : List T)
    (h2 : ∃ a ∈ S, ∃ b ∈ S, a ≠ b) (hlen : S.length < 2 ^ 64) :
    ∃ (E : Encoder T W) (payload : List Bool) (decoder : Decoder T W),
      Encoder.Encoder world_size S false = .ok E ∧
      E.encodeData = .ok payload ∧
      Decoder.Decoder (E.dict ++ payload) = .ok decoder ∧
      decoder.decode = .ok S ∧
      roundTrip (W := W) world_size S false = .ok S := by
  obtain ⟨encoder, content, decoder, h1, _, h3, h4, h5, h6⟩ :=
    roundTrip_steps (W := W) world_size S false h2 hlen (fun h => by cases h)
  exact ⟨encoder, content, decoder, h1, h3, h4, h5, h6⟩

/-- Witness of C2: the sequence `[65, 66, 65, 67]`. -/
theorem C2_roundtrip_local_witness :
    ∃ (E : Encoder Byte Fixed32) (payload : List Bool) (decoder : Decoder Byte Fixed32),
      Encoder.Encoder 1 [65, 66, 65, 67] false = .ok E ∧
      E.encodeData = .ok payload ∧
      Decoder.Decoder (E.dict ++ payload) = .ok decoder ∧
      decoder.decode = .ok [65, 66, 65, 67] ∧
      roundTrip (W := Fixed32) 1 ([65, 66, 65, 67] : List Byte) false = .ok [65, 66, 65, 67] :=
  C2_roundtrip_local 1 [65, 66, 65, 67] ⟨65, by decide, 66, by decide, by decide⟩ (by decide)

end Claims

end HuffmanMPI

namespace HuffmanMPI

section Claims

open Heap Huffman

variable {T W : Type} [LinearOrder T] [LinearOrder W] [Add W] [NatCast W] [Div W]
  [Bits.Pod T] [Bits.Pod W]

theorem dict_length (encoder : Encoder T W) :
    encoder.dict.length
      = 64 + encoder.frequency.length * (8 * Bits.Pod.sizeof T + 8 * Bits.Pod.sizeof W) := by
  rw [dict_eq, List.length_append, Bits.serialize_length]
  have h8 : Bits.Pod.sizeof Bits.SizeT = 8 := rfl
  rw [h8]
  congr 1
  induction encoder.frequency with
  | nil => simp
  | cons e rest ih =>
    rw [List.flatMap_cons, List.length_append, ih, List.length_append, Bits.serialize_length,
      Bits.serialize_length, List.length_cons, Nat.add_mul, Nat.one_mul, Nat.add_comm]

/-- C5. The dictionary is read back: for every encoder `E` the constructor returned
(for a sequence held in a container, so of fewer than `2 ^ 64` elements; the
constructor fails on the empty sequence) and every bit sequence `P`, the constructor of
`Decoder` succeeds on `E.dict() ++ P`, its frequency table is that of `E` (same keys,
same values, same order), and its payload is exactly `P`: the dictionary region is the
64 bits of the count followed by `count` pairs of `8 * sizeof(T)` and `8 * sizeof(float)`
bits. -/
theorem C5_decoder_reads_dict (world_size : Nat) (S : List T) (mpi : Bool) (E : Encoder T W)
    (P : List Bool) (hE : Encoder.Encoder world_size S mpi = .ok E) (hlen : S.length < 2 ^ 64) :
    ∃ decoder : Decoder T W,
      Decoder.Decoder (E.dict ++ P) = .ok decoder ∧
      decoder.frequency = E.frequency ∧ decoder.data = P ∧
      E.dict.length = 64 + E.frequency.length * (8 * Bits.Pod.sizeof T + 8 * Bits.Pod.sizeof W) := by
  obtain ⟨_, hwf, hkeys, hbuild, _⟩ := Encoder_inv world_size S mpi E hE
  have hlen' : E.frequency.length < 2 ^ 64 :=
    lt_of_le_of_lt (WF_length_le E.frequency S hwf hkeys) hlen
  exact ⟨_, Decoder_dict E P hwf hlen' hbuild, rfl, rfl, dict_length E⟩

set_option maxRecDepth 100000 in
/-- Witness of C5: the encoder of `[65, 66]` and the bits `[true, false, true]`. -/
theorem C5_decoder_reads_dict_witness :
    ∃ decoder : Decoder Byte Fixed32,
      Decoder.Decoder
        ((⟨[(65, ⟨32768⟩), (66, ⟨32768⟩)], [65, 66],
           ⟨some (.inner ⟨65536⟩ (.leaf 65 ⟨32768⟩) (.leaf 66 ⟨32768⟩)),
            [.leaf 65 ⟨32768⟩, .leaf 66 ⟨32768⟩,
             .inner ⟨65536⟩ (.leaf 65 ⟨32768⟩) (.leaf 66 ⟨32768⟩)]⟩⟩ : Encoder Byte Fixed32).dict
          ++ [true, false, true]) = .ok decoder ∧
      decoder.frequency = [(65, ⟨32768⟩), (66, ⟨32768⟩)] ∧ decoder.data = [true, false, true] ∧
      (⟨[(65, ⟨32768⟩), (66, ⟨32768⟩)], [65, 66],
           ⟨some (.inner ⟨65536⟩ (.leaf 65 ⟨32768⟩) (.leaf 66 ⟨32768⟩)),
            [.leaf 65 ⟨32768⟩, .leaf 66 ⟨32768⟩,
             .inner ⟨65536⟩ (.leaf 65 ⟨32768⟩) (.leaf 66 ⟨32768⟩)]⟩⟩ : Encoder Byte Fixed32).dict.length
        = 64 + 2 * (8 * 1 + 8 * 4) :=
  C5_decoder_reads_dict 1 [65, 66] false _ [true, false, true] (by decide) (by decide)

end Claims

section Overflow

open Huffman

variable {T W : Type} [LinearOrder T] [LinearOrder W] [Add W]

theorem subrange_large_undefined (data : List T) (h : data.length = 2147483648) :
    subrange data (slice data.length 2 0) = .error .undefined := by
  rw [h]
  have hs : slice 2147483648 2 0 = (0, -1073741824) := by decide
  rw [hs]
  unfold subrange
  rw [if_neg (by
    rintro ⟨_, h, _⟩
    revert h
    decide)]

theorem MPI_Statistic_large (data : List T) (h : data.length = 2147483648) :
    MPI_Statistic 2 data = .error .undefined := by
  unfold MPI_Statistic
  rw [subrange_large_undefined data h]
  rfl

theorem MPI_Encode_large (encoder : Encoder T W) (data : List T)
    (h : data.length = 2147483648) :
    encoder.MPI_Encode 2 data = .error .undefined := by
  unfold Encoder.MPI_Encode
  rw [subrange_large_undefined data h]
  rfl

/-- C8, at the failing input. For `n = 2 ^ 31` elements and `w = 2` workers,
`static_cast<int>(n)` is `-2 ^ 31` and `offset` is `-2 ^ 30`: rank 0 takes
`[0, -2 ^ 30)` and rank 1 takes `[-2 ^ 30, 2 ^ 31)`, not `[0, 2 ^ 30)` and
`[2 ^ 30, 2 ^ 31)`. -/
theorem C8_slice_large :
    toInt 2147483648 = -2147483648 ∧
      slice 2147483648 2 0 = (0, -1073741824) ∧
      slice 2147483648 2 1 = (-1073741824, 2147483648) := by
  decide

/-- C7, at the failing input. On `2 ^ 31` copies of a symbol and two workers, rank 0 of
`MPI_Statistic` counts a range that stops before it starts: undefined behaviour, where
`statistic` on the whole range counts `2 ^ 31` occurrences. -/
theorem C7_MPI_Statistic_large (a : T) :
    MPI_Statistic 2 (List.replicate 2147483648 a) = .error .undefined ∧
      (statistic (List.replicate 2147483648 a)).find a = some 2147483648 := by
  constructor
  · exact MPI_Statistic_large _ (List.length_replicate _ _)
  · rw [statistic_find, if_pos (List.mem_replicate.mpr ⟨by decide, rfl⟩),
      List.count_replicate_self]

/-- C6, at the failing input. On `2 ^ 31` copies of a symbol and two workers, rank 0 of
`MPI_Encode` encodes a range that stops before it starts: undefined behaviour, whatever
the encoder, where `encode` on the whole range returns the concatenated codes. -/
theorem C6_MPI_Encode_large (encoder : Encoder T W) (a : T) :
    encoder.MPI_Encode 2 (List.replicate 2147483648 a) = .error .undefined :=
  MPI_Encode_large encoder _ (List.length_replicate _ _)

end Overflow

end HuffmanMPI

namespace HuffmanMPI

section ClaimsContainers

open Heap Huffman

/-- C15. Extract-min: for every non-empty `MinHeap` reached from the empty heap by calls
of `append` and `pop`, over elements whose order is total (as the weights of nodes are),
`pop` returns an element that is `≤` every element held, the heap afterwards holds the
elements held before minus one occurrence of the returned element, `size()` has decreased
by one, and the heap afterwards is again a reached heap. -/
theorem C15_pop_returns_minimum {α : Type} [Preorder α]
    [DecidableRel ((· < ·) : α → α → Prop)] [DecidableRel ((· ≤ ·) : α → α → Prop)]
    [IsTotal α (· ≤ ·)] (heap : MinHeap α) (hr : MinHeap.Reachable heap)
    (hne : heap.pool ≠ []) :
    ∃ element heap', heap.pop = .ok (element, heap') ∧
      (∀ y ∈ heap.pool, element ≤ y) ∧
      (element :: heap'.pool).Perm heap.pool ∧
      heap'.size + 1 = heap.size ∧
      MinHeap.Reachable heap' := by
  have hn : 0 < heap.pool.length := List.length_pos.mpr hne
  obtain ⟨heap', hok, hperm, hheap⟩ := MinHeap.pop_spec heap hn
  refine ⟨heap.pool[0], heap', hok, (hheap (MinHeap.reachable_isHeap heap hr)).2, hperm, ?_,
    MinHeap.Reachable.pop heap heap' _ hr hok⟩
  have := hperm.length_eq
  simpa [MinHeap.size] using this

/-- Witness of C15: the heap after `append(3)`, `append(1)`, `append(2)`. -/
theorem C15_pop_returns_minimum_witness :
    ∃ element heap', (⟨[1, 3, 2]⟩ : MinHeap Nat).pop = .ok (element, heap') ∧
      (∀ y ∈ [1, 3, 2], element ≤ y) ∧
      (element :: heap'.pool).Perm [1, 3, 2] ∧
      heap'.size + 1 = (⟨[1, 3, 2]⟩ : MinHeap Nat).size ∧
      MinHeap.Reachable heap' :=
  C15_pop_returns_minimum ⟨[1, 3, 2]⟩
    (.append ⟨[1, 3]⟩ ⟨[1, 3, 2]⟩ 2
      (.append ⟨[3]⟩ ⟨[1, 3]⟩ 1 (.append ⟨[]⟩ ⟨[3]⟩ 3 .empty (by decide)) (by decide))
      (by decide))
    (by decide)

/-- C16. `MinHeap::pop` fails exactly on the empty heap, and then with `std::out_of_range`;
the `throw` is the first statement of `pop`, before any access to the pool, so the heap
it was called on, the empty one, is left as it was. On every non-empty heap, whatever
the order of its elements, `pop` returns an element and a heap. -/
theorem C16_pop_empty_out_of_range {α : Type} [Preorder α]
    [DecidableRel ((· < ·) : α → α → Prop)] [DecidableRel ((· ≤ ·) : α → α → Prop)]
    (heap : MinHeap α) :
    (∀ e, heap.pop = .error e ↔ heap.size = 0 ∧ e = .out_of_range) ∧
    (heap.size ≠ 0 → ∃ element heap', heap.pop = .ok (element, heap')) := by
  have hnon : heap.size ≠ 0 → ∃ element heap', heap.pop = .ok (element, heap') := by
    intro h
    exact MinHeap.pop_ok heap (by
      intro h'
      apply h
      simp [MinHeap.size, h'])
  refine ⟨fun e => ⟨fun he => ?_, ?_⟩, hnon⟩
  · by_cases h0 : heap.size = 0
    · refine ⟨h0, ?_⟩
      have h0' : heap.pool.length = 0 := h0
      unfold MinHeap.pop at he
      rw [if_pos h0'] at he
      cases he
      rfl
    · obtain ⟨element, heap', hok⟩ := hnon h0
      rw [hok] at he
      cases he
  · rintro ⟨h0, rfl⟩
    have h0' : heap.pool.length = 0 := h0
    unfold MinHeap.pop
    rw [if_pos h0']

/-- Witness of C16: `pop` on the heap holding 1 and 2 returns. -/
theorem C16_pop_empty_out_of_range_witness :
    ∃ element heap', (⟨[1, 2]⟩ : MinHeap Nat).pop = .ok (element, heap') :=
  (C16_pop_empty_out_of_range (⟨[1, 2]⟩ : MinHeap Nat)).2 (by decide)

/-- C17. `Bits::deserialize<T>` fails exactly when the number of bits is not
`8 * sizeof(T)`, and then on its `assert`. When the number of bits is `8 * sizeof(T)` it
returns the value read (`memcpy`) from a buffer of `sizeof(T)` bytes in which bit `7 - j`
of byte `k` is set exactly when bit `8 * k + j` of the input is true. -/
theorem C17_deserialize_length_and_bits {α : Type} [Bits.Pod α] (bits : List Bool) :
    (∀ e, (Bits.deserialize bits : Except Failure α) = .error e
      ↔ bits.length ≠ 8 * Bits.Pod.sizeof α ∧ e = .assertion) ∧
    (bits.length = 8 * Bits.Pod.sizeof α →
      ∃ buffer : List Byte, buffer.length = Bits.Pod.sizeof α ∧
        (Bits.deserialize bits : Except Failure α) = .ok (Bits.Pod.ofBytes buffer) ∧
        ∀ k j, k < Bits.Pod.sizeof α → j < 8 →
          ((buffer.getD k 0).val.testBit (7 - j) = true ↔ bits.getD (8 * k + j) false = true)) := by
  refine ⟨Bits.deserialize_error_iff bits, fun h => ?_⟩
  refine ⟨Bits.deserializeBuffer (Bits.Pod.sizeof α) bits, Bits.deserializeBuffer_length _ _,
    Bits.deserialize_of_length bits h, fun k j hk hj => ?_⟩
  rw [Bits.deserializeBuffer_testBit _ bits k j hk hj]

/-- Witness of C17: the eight bits `01000001` read as a `char`. -/
theorem C17_deserialize_length_and_bits_witness :
    ∃ buffer : List Byte, buffer.length = Bits.Pod.sizeof Byte ∧
      (Bits.deserialize [false, true, false, false, false, false, false, true]
        : Except Failure Byte) = .ok (Bits.Pod.ofBytes buffer) ∧
      ∀ k j, k < Bits.Pod.sizeof Byte → j < 8 →
        ((buffer.getD k 0).val.testBit (7 - j) = true
          ↔ [false, true, false, false, false, false, false, true].getD (8 * k + j) false = true) :=
  (C17_deserialize_length_and_bits (α := Byte)
    [false, true, false, false, false, false, false, true]).2 (by decide)

/-- C18. `Bits::serialize<T>(v)` has exactly `8 * sizeof(T)` bits, and its bit `8 * k + j`,
for a byte index `k < sizeof(T)` and `j < 8`, is bit `7 - j` of byte `k` of the object
representation of `v`: most significant bit first within each byte, bytes in memory
order. The example of the sources: `serialize<char>('A')` is `0, 1, 0, 0, 0, 0, 0, 1`. -/
theorem C18_serialize_msb_first {α : Type} [Bits.Pod α] (v : α) :
    (Bits.serialize v).length = 8 * Bits.Pod.sizeof α ∧
    (∀ k j, k < Bits.Pod.sizeof α → j < 8 →
      (Bits.serialize v).getD (8 * k + j) false
        = ((Bits.Pod.bytes v).getD k 0).val.testBit (7 - j)) ∧
    Bits.serialize (65 : Byte) = [false, true, false, false, false, false, false, true] := by
  refine ⟨Bits.serialize_length v, fun k j hk hj => ?_, by decide⟩
  unfold Bits.serialize
  exact Bits.serializeBytes_getD _ k j (by rw [Bits.Pod.bytes_length]; exact hk) hj

/-- Witness of C18: bit 1 of `serialize<char>('A')` is bit 6 of 65. -/
theorem C18_serialize_msb_first_witness :
    (Bits.serialize (65 : Byte)).getD (8 * 0 + 1) false
      = ((Bits.Pod.bytes (65 : Byte)).getD 0 0).val.testBit (7 - 1) :=
  (C18_serialize_msb_first (65 : Byte)).2.1 0 1 (by decide) (by decide)

/-- C19. For every sequence of booleans `s`, of any length, `BitArray(s).size()` is the
length of `s` and `BitArray(s).vectorize()` returns `s` itself: the padding bits of the
last byte are not read. -/
theorem C19_bitarray_vectorize (s : List Bool) :
    (Bits.BitArray.BitArray s).size = s.length ∧
      (Bits.BitArray.BitArray s).vectorize = .ok s :=
  ⟨rfl, Bits.BitArray.vectorize_BitArray s⟩

/-- C20. For every `BitArray` built from a sequence `s` and every index `i`, `at(i)`
fails exactly when `i ≥ |s|`, and then with `std::range_error`; for `i < |s|` it returns
`s[i]`, and the byte index `i / 8` it reads is within `data`. -/
theorem C20_bitarray_at (s : List Bool) (i : Nat) :
    (∀ e, (Bits.BitArray.BitArray s).at i = .error e ↔ s.length ≤ i ∧ e = .range_error) ∧
    (∀ h : i < s.length, (Bits.BitArray.BitArray s).at i = .ok s[i] ∧
      i / 8 < (Bits.BitArray.BitArray s).data.length) := by
  constructor
  · intro e
    constructor
    · intro he
      by_cases hi : i < s.length
      · rw [Bits.BitArray.at_BitArray s i hi] at he
        cases he
      · refine ⟨by omega, ?_⟩
        unfold Bits.BitArray.at at he
        rw [if_pos (by show s.length ≤ i; omega)] at he
        cases he
        rfl
    · rintro ⟨hi, rfl⟩
      unfold Bits.BitArray.at
      rw [if_pos (by show s.length ≤ i; exact hi)]
  · intro h
    refine ⟨Bits.BitArray.at_BitArray s i h, ?_⟩
    rw [Bits.BitArray.BitArray_data_length]
    omega

/-- Witness of C20: bit 9 of an array of ten bits. -/
theorem C20_bitarray_at_witness :
    (Bits.BitArray.BitArray
        [true, false, true, true, false, false, true, false, false, true]).at 9 = .ok true ∧
      9 / 8 < (Bits.BitArray.BitArray
        [true, false, true, true, false, false, true, false, false, true]).data.length :=
  (C20_bitarray_at [true, false, true, true, false, false, true, false, false, true] 9).2
    (by decide)

end ClaimsContainers

end HuffmanMPI

namespace HuffmanMPI

section ClaimsEncoder

open Heap Huffman

variable {T W : Type} [LinearOrder T] [LinearOrder W] [Add W] [NatCast W] [Div W]

/-- C11. Single-symbol alphabet: for every non-empty sequence made of one repeated
symbol `a` (`n + 1` copies; with MPI statistics, fewer than `2 ^ 31` and at least one
process), the constructor of `Encoder` succeeds, the tree is the single leaf of `a`,
the code table maps `a` to the empty bit sequence, and `encode()` returns the empty
payload, whatever `n` is; so does `encode` on any range. -/
theorem C11_single_symbol (world_size : Nat) (a : T) (n : Nat) (mpi : Bool)
    (hmpi : mpi = true → 1 ≤ world_size ∧ n + 1 < 2 ^ 31) :
    ∃ (encoder : Encoder T W) (p : W),
      Encoder.Encoder world_size (List.replicate (n + 1) a) mpi = .ok encoder ∧
      encoder.frequency = [(a, p)] ∧
      encoder.tree = ⟨some (.leaf a p), [.leaf a p]⟩ ∧
      encoder.tree.traverse = .ok [(a, [])] ∧
      encoder.encodeData = .ok [] ∧
      ∀ range, encoder.encode range = .ok [] := by
  have hne : List.replicate (n + 1) a ≠ [] := by simp
  obtain ⟨E, hE⟩ : ∃ E : Encoder T W,
      Encoder.Encoder world_size (List.replicate (n + 1) a) mpi = .ok E := by
    obtain ⟨root, nodes, hloc, _⟩ := Encoder_local (W := W) world_size _ hne
    cases mpi with
    | false => exact ⟨_, hloc⟩
    | true =>
      obtain ⟨hw, hl⟩ := hmpi rfl
      rw [Encoder_mpi_of_lt world_size _ hw (by simpa using hl)]
      exact ⟨_, hloc⟩
  obtain ⟨p, hfreq, htree⟩ := Encoder_single world_size a _
    (fun x hx => (List.mem_replicate.mp hx).2) mpi E hE
  have henc : ∀ range, E.encode range = .ok [] := by
    intro range
    rw [encode_eq E _ _ htree]
    congr 1
    rw [List.flatMap_eq_nil_iff]
    intro s _
    exact codeOf_leaf a p s
  refine ⟨E, p, hE, hfreq, htree, ?_, henc _, henc⟩
  rw [htree, traverse_root]
  rfl

/-- Witness of C11: three copies of the byte 65, statistics by two processes. -/
theorem C11_single_symbol_witness :
    ∃ (encoder : Encoder Byte Fixed32) (p : Fixed32),
      Encoder.Encoder 2 (List.replicate (2 + 1) (65 : Byte)) true = .ok encoder ∧
      encoder.frequency = [(65, p)] ∧
      encoder.tree = ⟨some (.leaf 65 p), [.leaf 65 p]⟩ ∧
      encoder.tree.traverse = .ok [(65, [])] ∧
      encoder.encodeData = .ok [] ∧
      ∀ range, encoder.encode range = .ok [] :=
  C11_single_symbol 2 (65 : Byte) 2 true (by decide)

/-- The encoder of `"AAAABBCD"` with rational weights, evaluated: frequency table,
code table and price. -/
theorem price_example_eval :
    (Encoder.Encoder (T := Byte) (W := ℚ) 1 [65, 65, 65, 65, 66, 66, 67, 68] false).map
        (fun e => e.frequency) = .ok [(65, 1 / 2), (66, 1 / 4), (67, 1 / 8), (68, 1 / 8)] ∧
    (Encoder.Encoder (T := Byte) (W := ℚ) 1 [65, 65, 65, 65, 66, 66, 67, 68] false).map
        (fun e => e.tree.traverse)
      = .ok (.ok [(65, [true]), (66, [false, true]), (67, [false, false, true]),
          (68, [false, false, false])]) ∧
    (Encoder.Encoder (T := Byte) (W := ℚ) 1 [65, 65, 65, 65, 66, 66, 67, 68] false).map
        (fun e => e.price) = .ok (.ok (7 / 4)) := by
  with_unfolding_all decide

/-- C12. The example of the specification: for an encoder trained on a sequence with the
counts `{A: 4, B: 2, C: 1, D: 1}` (any arrangement of `"AAAABBCD"`; bytes 65 to 68), the
frequency table is `{A: 1/2, B: 1/4, C: 1/8, D: 1/8}`, the codes have the lengths
1, 2, 3, 3 and `price()` is `7/4 = 1.75`. The weights are computed in `ℚ`: every number
that occurs (the four frequencies, their sums, and their products by 1, 2 and 3) is a
dyadic rational that `float` holds exactly, so the operations of `float` on them are
the exact ones. -/
theorem C12_price_example (world_size : Nat) (S : List Byte) (mpi : Bool)
    (hS : S.Perm [65, 65, 65, 65, 66, 66, 67, 68]) (hmpi : mpi = true → 1 ≤ world_size) :
    ∃ (encoder : Encoder Byte ℚ) (table : Map Byte (List Bool)),
      Encoder.Encoder world_size S mpi = .ok encoder ∧
      encoder.frequency = [(65, 1 / 2), (66, 1 / 4), (67, 1 / 8), (68, 1 / 8)] ∧
      encoder.tree.traverse = .ok table ∧
      table.map (fun e => (e.1, e.2.length)) = [(65, 1), (66, 2), (67, 3), (68, 3)] ∧
      encoder.price = .ok (7 / 4) := by
  have hlen : S.length = 8 := hS.length_eq
  have hloc : Encoder.Encoder (W := ℚ) world_size S mpi = Encoder.Encoder world_size S false := by
    cases mpi with
    | false => rfl
    | true => exact Encoder_mpi_of_lt world_size S (hmpi rfl) (by rw [hlen]; decide)
  have heval := price_example_eval
  have hperm := Encoder_perm (W := ℚ) world_size 1 S _ hS
  cases hL : (Encoder.Encoder (T := Byte) (W := ℚ) 1 [65, 65, 65, 65, 66, 66, 67, 68] false) with
  | error e =>
    rw [hL] at heval
    cases heval.1
  | ok e₀ =>
    rw [hL] at heval hperm
    simp only [Except.map, Except.ok.injEq] at heval
    obtain ⟨hf, ht, hp⟩ := heval
    refine ⟨⟨e₀.frequency, S, e₀.tree⟩, _, hloc.trans hperm, hf, ht, by decide, ?_⟩
    exact hp

/-- Witness of C12: the sequence `"AAAABBCD"` itself. -/
theorem C12_price_example_witness :
    ∃ (encoder : Encoder Byte ℚ) (table : Map Byte (List Bool)),
      Encoder.Encoder 1 [65, 65, 65, 65, 66, 66, 67, 68] false = .ok encoder ∧
      encoder.frequency = [(65, 1 / 2), (66, 1 / 4), (67, 1 / 8), (68, 1 / 8)] ∧
      encoder.tree.traverse = .ok table ∧
      table.map (fun e => (e.1, e.2.length)) = [(65, 1), (66, 2), (67, 3), (68, 3)] ∧
      encoder.price = .ok (7 / 4) :=
  C12_price_example 1 [65, 65, 65, 65, 66, 66, 67, 68] false (List.Perm.refl _) (by decide)

end ClaimsEncoder

end HuffmanMPI

namespace HuffmanMPI

section ClaimsErrors

open Heap Huffman

variable {T W : Type} [LinearOrder T] [LinearOrder W] [Add W] [NatCast W] [Div W]

/-- Counterexample to C13 as stated: the encoder built from `[65, 65, 66]` has no entry
for the symbol 67, and `encode` on ranges that contain 67 returns normally: the empty
payload for `[67]`, the codes of 65 and 66 for `[65, 67, 66, 67]`. -/
theorem C13_counterexample :
    ∃ encoder : Encoder Byte Fixed32,
      Encoder.Encoder 1 [65, 65, 66] false = .ok encoder ∧
      encoder.frequency.find 67 = none ∧
      encoder.encode [67] = .ok [] ∧
      encoder.encode [65, 67, 66, 67] = .ok [false, true] ∧
      encoder.encode [65, 66] = .ok [false, true] :=
  ⟨⟨[(65, ⟨43690⟩), (66, ⟨21845⟩)], [65, 65, 66],
      ⟨some (.inner ⟨65535⟩ (.leaf 66 ⟨21845⟩) (.leaf 65 ⟨43690⟩)),
        [.leaf 66 ⟨21845⟩, .leaf 65 ⟨43690⟩,
          .inner ⟨65535⟩ (.leaf 66 ⟨21845⟩) (.leaf 65 ⟨43690⟩)]⟩⟩,
    by decide, by decide, by decide, by decide, by decide⟩

/-- C13, as the code has it. `Encoder::encode` reads the code table with `dict[*begin]`,
which inserts the empty code for a missing symbol and throws nothing: for every encoder
the constructor returns and every range, `encode` returns a payload, the payload of the
range without the symbols that are absent from the frequency table; the payload of a
single absent symbol is empty. -/
theorem C13_encode_unknown_symbol (world_size : Nat) (S : List T) (mpi : Bool)
    (encoder : Encoder T W) (hE : Encoder.Encoder world_size S mpi = .ok encoder)
    (range : List T) :
    ∃ payload, encoder.encode range = .ok payload ∧
      encoder.encode (range.filter (fun s => (encoder.frequency.find s).isSome)) = .ok payload ∧
      ∀ s, encoder.frequency.find s = none → encoder.encode [s] = .ok [] := by
  obtain ⟨root, nodes, htree, hleaves⟩ := Encoder_tree world_size S mpi encoder hE
  have habsent : ∀ s, encoder.frequency.find s = none → codeOf root s = [] := by
    intro s hs
    apply codeOf_of_not_mem
    intro hmem
    obtain ⟨e, he, hes⟩ := List.mem_map.mp hmem
    exact (Map.find_eq_none_iff _ _).mp hs e (hleaves.mem_iff.mp he) hes
  refine ⟨range.flatMap (codeOf root), encode_eq encoder root nodes htree range, ?_, ?_⟩
  · rw [encode_eq encoder root nodes htree]
    congr 1
    apply flatMap_filter_nil
    intro s _ hs
    apply habsent
    cases hf : encoder.frequency.find s with
    | none => rfl
    | some v => rw [hf] at hs; simp at hs
  · intro s hs
    rw [encode_eq encoder root nodes htree, List.flatMap_singleton, habsent s hs]

/-- Witness of C13 (amended): the encoder built from `[65, 65, 66]` and the range
`[65, 67, 66, 67]`. -/
theorem C13_encode_unknown_symbol_witness :
    ∃ (encoder : Encoder Byte Fixed32) (payload : List Bool),
      Encoder.Encoder 1 [65, 65, 66] false = .ok encoder ∧
      encoder.encode [65, 67, 66, 67] = .ok payload ∧
      encoder.encode ([65, 67, 66, 67].filter (fun s => (encoder.frequency.find s).isSome))
        = .ok payload ∧
      ∀ s, encoder.frequency.find s = none → encoder.encode [s] = .ok [] :=
  Exists.elim
    (C13_encode_unknown_symbol 1 [65, 65, 66] false
      (⟨[(65, ⟨43690⟩), (66, ⟨21845⟩)], [65, 65, 66],
      ⟨some (.inner ⟨65535⟩ (.leaf 66 ⟨21845⟩) (.leaf 65 ⟨43690⟩)),
        [.leaf 66 ⟨21845⟩, .leaf 65 ⟨43690⟩,
          .inner ⟨65535⟩ (.leaf 66 ⟨21845⟩) (.leaf 65 ⟨43690⟩)]⟩⟩ : Encoder Byte Fixed32)
      (by decide) [65, 67, 66, 67])
    (fun payload h => ⟨_, payload, by decide, h⟩)

variable [Bits.Pod T] [Bits.Pod W]

set_option maxRecDepth 100000 in
/-- Counterexample to C14 as stated: the stream of the encoder built from `[65, 65, 66]`,
with the payload `0, 0, 1`. Without its last bit the stream is decoded as any other:
the decoder is built, `decode` returns normally and emits `[65, 65]`. No failure is
reported. -/
theorem C14_counterexample :
    ∃ (encoder : Encoder Byte Fixed32) (decoder : Decoder Byte Fixed32),
      Encoder.Encoder 1 [65, 65, 66] false = .ok encoder ∧
      encoder.encodeData = .ok [false, false, true] ∧
      Decoder.Decoder ((encoder.dict ++ [false, false, true]).dropLast) = .ok decoder ∧
      decoder.decode = .ok [65, 65] :=
  ⟨⟨[(65, ⟨43690⟩), (66, ⟨21845⟩)], [65, 65, 66],
      ⟨some (.inner ⟨65535⟩ (.leaf 66 ⟨21845⟩) (.leaf 65 ⟨43690⟩)),
        [.leaf 66 ⟨21845⟩, .leaf 65 ⟨43690⟩,
          .inner ⟨65535⟩ (.leaf 66 ⟨21845⟩) (.leaf 65 ⟨43690⟩)]⟩⟩,
    ⟨⟨some (.inner ⟨65535⟩ (.leaf 66 ⟨21845⟩) (.leaf 65 ⟨43690⟩)),
        [.leaf 66 ⟨21845⟩, .leaf 65 ⟨43690⟩,
          .inner ⟨65535⟩ (.leaf 66 ⟨21845⟩) (.leaf 65 ⟨43690⟩)]⟩,
      [(65, ⟨43690⟩), (66, ⟨21845⟩)], [false, false]⟩,
    by decide, by decide, by decide, by decide⟩

/-- C14, as the code has it. `Decoder::decode` has no check of the payload. For every
stream `dict() ++ payload` of an encoder built from `S` (a container, so fewer than
`2 ^ 64` elements; with MPI statistics, fewer than `2 ^ 31` and at least one process)
whose payload `encode()` is not empty, the stream without its last bit is accepted: the
constructor of `Decoder` succeeds and `decode` returns normally, with no access outside
the tree, and emits `S` without its last symbol. -/
theorem C14_truncated_payload (world_size : Nat) (S : List T) (mpi : Bool)
    (hmpi : mpi = true → 1 ≤ world_size ∧ S.length < 2 ^ 31) (hlen : S.length < 2 ^ 64)
    (encoder : Encoder T W) (payload : List Bool)
    (hE : Encoder.Encoder world_size S mpi = .ok encoder)
    (hp : encoder.encodeData = .ok payload) (hne : payload ≠ []) :
    ∃ decoder : Decoder T W,
      Decoder.Decoder ((encoder.dict ++ payload).dropLast) = .ok decoder ∧
      decoder.decode = .ok S.dropLast :=
  ⟨_, decode_truncated world_size S mpi hmpi hlen encoder payload hE hp hne⟩

set_option maxRecDepth 100000 in
/-- Witness of C14 (amended): the encoder built from `[65, 65, 66]` and its payload
`0, 0, 1`. -/
theorem C14_truncated_payload_witness :
    ∃ decoder : Decoder Byte Fixed32,
      Decoder.Decoder
          (((⟨[(65, ⟨43690⟩), (66, ⟨21845⟩)], [65, 65, 66],
      ⟨some (.inner ⟨65535⟩ (.leaf 66 ⟨21845⟩) (.leaf 65 ⟨43690⟩)),
        [.leaf 66 ⟨21845⟩, .leaf 65 ⟨43690⟩,
          .inner ⟨65535⟩ (.leaf 66 ⟨21845⟩) (.leaf 65 ⟨43690⟩)]⟩⟩ : Encoder Byte Fixed32).dict ++ [false, false, true]).dropLast)
        = .ok decoder ∧
      decoder.decode = .ok ([65, 65, 66] : List Byte).dropLast :=
  C14_truncated_payload 1 [65, 65, 66] false (by decide) (by decide) _ [false, false, true]
    (by decide) (by decide) (by decide)

end ClaimsErrors

end HuffmanMPI

namespace HuffmanMPI

section ClaimsLayout

open Heap Huffman

/-- C21. For every sequence of booleans `s`, `BitArray(s)` stores exactly `⌈|s| / 8⌉`
bytes; bit `i` of `s` is bit `7 - i % 8` of byte `i / 8`; and every bit of a stored byte
that lies past the end of `s` (the low-order bits of the last byte, when `|s|` is not a
multiple of 8) is 0. -/
theorem C21_bitarray_packing (s : List Bool) :
    (Bits.BitArray.BitArray s).data.length = (s.length + 7) / 8 ∧
    (∀ i (h : i < s.length),
      ((Bits.BitArray.BitArray s).data.getD (i / 8) 0).val.testBit (7 - i % 8) = s[i]) ∧
    (∀ k j, k < (Bits.BitArray.BitArray s).data.length → j < 8 → s.length ≤ 8 * k + j →
      ((Bits.BitArray.BitArray s).data.getD k 0).val.testBit (7 - j) = false) := by
  refine ⟨Bits.BitArray.BitArray_data_length s, fun i h => ?_, fun k j hk hj hs => ?_⟩
  · rw [Bits.BitArray.BitArray_testBit s i h, List.getD_eq_getElem _ _ h]
  · rw [Bits.BitArray.BitArray_byte_testBit s k j hk hj, List.getD_eq_default _ _ hs]

/-- Witness of C21: in an array of ten bits, bit 6 of the second byte is bit 9 and bit 5
is padding. -/
theorem C21_bitarray_packing_witness :
    ((Bits.BitArray.BitArray
        [true, false, true, true, false, false, true, false, false, true]).data.getD (9 / 8)
          0).val.testBit (7 - 9 % 8) = true ∧
      ((Bits.BitArray.BitArray
        [true, false, true, true, false, false, true, false, false, true]).data.getD 1
          0).val.testBit (7 - 2) = false :=
  ⟨(C21_bitarray_packing
      [true, false, true, true, false, false, true, false, false, true]).2.1 9 (by decide),
   (C21_bitarray_packing
      [true, false, true, true, false, false, true, false, false, true]).2.2 1 2
      (by decide) (by decide) (by decide)⟩

/-- C22. For every sequence of booleans `s` (held in a `std::vector`, so of fewer than
`2 ^ 64` elements), reading with `operator>>` the bytes that `operator<<` writes for
`BitArray(s)` (the eight bytes of the length, then the packed bytes) gives a `BitArray`
whose `size()` is `|s|` and whose `vectorize()` is `s`, whatever the uninitialised
`current` of `operator>>` holds. -/
theorem C22_stream_round_trip (s : List Bool) (hlen : s.length < 2 ^ 64) (current : Byte) :
    ∃ bits, Bits.BitArray.readFrom (Bits.BitArray.writeTo (Bits.BitArray.BitArray s)) current
        = .ok bits ∧
      bits.size = s.length ∧ bits.vectorize = .ok s :=
  ⟨_, Bits.BitArray.readFrom_writeTo (Bits.BitArray.BitArray s) current hlen, rfl,
    Bits.BitArray.vectorize_readFrom s current⟩

/-- Witness of C22: ten bits. -/
theorem C22_stream_round_trip_witness :
    ∃ bits, Bits.BitArray.readFrom (Bits.BitArray.writeTo (Bits.BitArray.BitArray
          [true, false, true, true, false, false, true, false, false, true])) 0 = .ok bits ∧
      bits.size = [true, false, true, true, false, false, true, false, false, true].length ∧
      bits.vectorize = .ok [true, false, true, true, false, false, true, false, false, true] :=
  C22_stream_round_trip [true, false, true, true, false, false, true, false, false, true]
    (by decide) 0

/-- C23. For every non-empty sequence `S` of bytes, `RLE::encode` returns an even number
of bytes and `RLE::decode` of them returns `S`. A run of more than 255 equal symbols is
written as several pairs, each with a count of at most 255 (a count is one byte): 300
copies of the byte 65 are encoded as `255, 65, 45, 65`. -/
theorem C23_rle_round_trip (S : List Byte) (hne : S ≠ []) :
    (∃ enc, RLE.encode S = .ok enc ∧ enc.length % 2 = 0 ∧ RLE.decode enc = .ok S) ∧
    RLE.encode (List.replicate 300 65) = .ok [255, 65, 45, 65] := by
  exact ⟨RLE.decode_encode S hne, RLE.encode_long_run⟩

/-- Witness of C23: the sequence `65, 65, 66`. -/
theorem C23_rle_round_trip_witness :
    (∃ enc, RLE.encode [65, 65, 66] = .ok enc ∧ enc.length % 2 = 0 ∧
      RLE.decode enc = .ok [65, 65, 66]) ∧
    RLE.encode (List.replicate 300 65) = .ok [255, 65, 45, 65] :=
  C23_rle_round_trip [65, 65, 66] (by decide)

variable {T W : Type} [LinearOrder T] [LinearOrder W] [Add W]

/-- C24. For every non-empty frequency table (a `std::map`: distinct keys, in order), the
constructor of `Tree` succeeds and `traverse` returns a code table whose keys are
exactly the symbols of the frequency table, each once, and in which the code of a
symbol is the sequence of edges on the walk from the root to the leaf of that symbol:
`true` (bit 1, `Left`) for a left edge, `false` (bit 0, `Right`) for a right edge. -/
theorem C24_codes_are_paths (dict : Map T W) (hwf : dict.WF) (hne : dict ≠ []) :
    ∃ root nodes table, Tree.Tree dict = .ok ⟨some root, nodes⟩ ∧
      Tree.traverse (⟨some root, nodes⟩ : Huffman.Tree T W) = .ok table ∧
      table.map Prod.fst = dict.map Prod.fst ∧
      ∀ s c, table.find s = some c ↔
        ∃ p, (s, p) ∈ dict ∧ Node.PathTo root c (.leaf s p) := by
  obtain ⟨root, nodes, hok, hperm, _⟩ := Tree_spec dict hne
  refine ⟨root, nodes, _, hok, traverse_root root nodes, ?_, ?_⟩
  · exact table_keys dict hwf root hperm
  · intro s c
    have hkeys : (root.leaves.map Prod.fst).Perm (dict.map Prod.fst) := hperm.map _
    have hnd : (root.leaves.map Prod.fst).Nodup := by
      rw [hkeys.nodup_iff]
      unfold Map.WF at hwf
      unfold List.Nodup
      rw [List.pairwise_map]
      exact hwf.imp (fun {a b} h => ne_of_lt h)
    rw [table_find_iff root hnd]
    constructor
    · intro h
      obtain ⟨p, hp, hm⟩ := Node.pathTo_of_mem_paths root s c h
      exact ⟨p, hperm.mem_iff.mp hm, hp⟩
    · rintro ⟨p, _, hp⟩
      exact (Node.mem_paths_iff root s c).mpr ⟨p, hp⟩

/-- Witness of C24: the table `{65: 1, 66: 2, 67: 2}`. -/
theorem C24_codes_are_paths_witness :
    ∃ root nodes table,
      Tree.Tree ([(65, 1), (66, 2), (67, 2)] : Map Byte Nat) = .ok ⟨some root, nodes⟩ ∧
      Tree.traverse (⟨some root, nodes⟩ : Huffman.Tree Byte Nat) = .ok table ∧
      table.map Prod.fst = ([(65, 1), (66, 2), (67, 2)] : Map Byte Nat).map Prod.fst ∧
      ∀ s c, table.find s = some c ↔
        ∃ p, (s, p) ∈ ([(65, 1), (66, 2), (67, 2)] : Map Byte Nat) ∧
          Node.PathTo root c (.leaf s p) :=
  C24_codes_are_paths ([(65, 1), (66, 2), (67, 2)] : Map Byte Nat)
    (by unfold Map.WF; decide) (by decide)

/-- C25. Min-heap order is an invariant of `MinHeap`, over elements whose order is total
(as the weights of nodes are): in every heap reached from the empty heap by calls of
`append` and of `pop` that return, `pool[(i - 1) / 2] ≤ pool[i]` for every index
`1 ≤ i < size()`; and on such a heap `append` returns, `size()` has grown by exactly one,
and the heap holds the new element and the elements held before. -/
theorem C25_heap_order_invariant {α : Type} [Preorder α]
    [DecidableRel ((· < ·) : α → α → Prop)] [DecidableRel ((· ≤ ·) : α → α → Prop)]
    [IsTotal α (· ≤ ·)] (heap : MinHeap α) (hr : MinHeap.Reachable heap) :
    (∀ i (h0 : 0 < i) (hi : i < heap.pool.length),
      heap.pool[(i - 1) / 2] ≤ heap.pool[i]) ∧
    ∀ element, ∃ heap', heap.append element = .ok heap' ∧
      heap'.size = heap.size + 1 ∧ heap'.pool.Perm (element :: heap.pool) ∧
      MinHeap.Reachable heap' := by
  constructor
  · intro i h0 hi
    exact MinHeap.reachable_isHeap heap hr i _ _ h0 (List.getElem?_eq_getElem hi)
      (List.getElem?_eq_getElem (by omega))
  · intro element
    obtain ⟨heap', hok, hperm, _⟩ := MinHeap.append_spec heap element
    refine ⟨heap', hok, ?_, hperm, MinHeap.Reachable.append heap heap' element hr hok⟩
    have := hperm.length_eq
    simpa [MinHeap.size] using this

/-- Witness of C25: the heap after `append(3)`, `append(1)`, `append(2)`, at index 2. -/
theorem C25_heap_order_invariant_witness :
    ([1, 3, 2] : List Nat)[(2 - 1) / 2] ≤ ([1, 3, 2] : List Nat)[2] :=
  (C25_heap_order_invariant (⟨[1, 3, 2]⟩ : MinHeap Nat)
    (.append ⟨[1, 3]⟩ ⟨[1, 3, 2]⟩ 2
      (.append ⟨[3]⟩ ⟨[1, 3]⟩ 1 (.append ⟨[]⟩ ⟨[3]⟩ 3 .empty (by decide)) (by decide))
      (by decide))).1 2 (by decide) (by decide)

/-- C26. For every frequency table with at least two entries the constructor of `Tree`
succeeds, every node reached from the root has no child or both children (a node is
made by one of the two constructors of `Node`), and `Decoder::decode` on any bit
sequence whatsoever returns, never following a missing child, and emits only symbols of
the table. For a table with a single entry the root is a leaf, and `decode` on any
non-empty bit sequence follows a missing child. -/
theorem C26_decode_walk_total (dict : Map T W) (h2 : 2 ≤ dict.length) :
    (∃ root nodes, Tree.Tree dict = .ok ⟨some root, nodes⟩ ∧
      (∀ bits n, Node.PathTo root bits n →
        (n.left = none ∧ n.right = none) ∨ (∃ l r, n.left = some l ∧ n.right = some r)) ∧
      ∀ (frequency : Map T W) (data bits : List Bool),
        ∃ decoded, Decoder.decodeBits (⟨⟨some root, nodes⟩, frequency, data⟩ : Decoder T W) bits
            = .ok decoded ∧
          ∀ s ∈ decoded, s ∈ dict.map Prod.fst) ∧
    (∀ (a : T) (p : W), ∃ nodes,
      Tree.Tree ([(a, p)] : Map T W) = .ok ⟨some (.leaf a p), nodes⟩ ∧
      ∀ (frequency : Map T W) (data bits : List Bool), bits ≠ [] →
        Decoder.decodeBits (⟨⟨some (.leaf a p), nodes⟩, frequency, data⟩ : Decoder T W) bits
          = .error .undefined) := by
  constructor
  · obtain ⟨root, nodes, hok, hperm, _⟩ := Tree_spec dict (by
      intro h; rw [h] at h2; simp at h2)
    have hroot : root.isLeaf = false :=
      isLeaf_false_of_leaves root (by rw [hperm.length_eq]; exact h2)
    refine ⟨root, nodes, hok, fun _ n _ => Node.leaf_or_both n, fun frequency data bits => ?_⟩
    obtain ⟨out, hdec, hout⟩ := decodeLoop_total root hroot bits root hroot (fun e he => he) []
    refine ⟨out, ?_, fun s hs => ?_⟩
    · simp only [Decoder.decodeBits]
      rw [hdec, List.nil_append]
    · exact ((hperm.map Prod.fst).mem_iff).mp (hout s hs)
  · intro a p
    refine ⟨[.leaf a p], Tree_singleton a p, fun frequency data bits hne => ?_⟩
    cases bits with
    | nil => exact absurd rfl hne
    | cons bit bits =>
      simp only [Decoder.decodeBits]
      exact decodeLoop_leaf a p bit bits []

/-- Witness of C26: the table `{65: 1, 66: 2, 67: 2}`. -/
theorem C26_decode_walk_total_witness :
    ∃ root nodes, Tree.Tree ([(65, 1), (66, 2), (67, 2)] : Map Byte Nat)
        = .ok ⟨some root, nodes⟩ ∧
      (∀ bits n, Node.PathTo root bits n →
        (n.left = none ∧ n.right = none) ∨ (∃ l r, n.left = some l ∧ n.right = some r)) ∧
      ∀ (frequency : Map Byte Nat) (data bits : List Bool),
        ∃ decoded, Decoder.decodeBits (⟨⟨some root, nodes⟩, frequency, data⟩ : Decoder Byte Nat)
            bits = .ok decoded ∧
          ∀ s ∈ decoded, s ∈ ([(65, 1), (66, 2), (67, 2)] : Map Byte Nat).map Prod.fst :=
  (C26_decode_walk_total ([(65, 1), (66, 2), (67, 2)] : Map Byte Nat) (by decide)).1

/-- C27. The constructor of `Tree` on an empty frequency table fails with the
`std::out_of_range` of `MinHeap::pop`, and so does the constructor of `Encoder` on an
empty sequence (with MPI statistics: in a world of at least one process). Every tree the
constructor returns has a root, and `traverse` on it returns a code table: its error
branch is not taken. -/
theorem C27_empty_table_fails [NatCast W] [Div W] :
    Tree.Tree ([] : Map T W) = .error .out_of_range ∧
    (∀ (world_size : Nat) (mpi : Bool), (mpi = true → 1 ≤ world_size) →
      (Encoder.Encoder world_size ([] : List T) mpi : Except Failure (Encoder T W))
        = .error .out_of_range) ∧
    ∀ (dict : Map T W) (tree : Huffman.Tree T W), Tree.Tree dict = .ok tree →
      (∃ root, tree.root = some root) ∧ (∃ table, tree.traverse = .ok table) ∧
      tree.traverse ≠ .error .invalid_argument := by
  refine ⟨Tree_empty, fun world_size mpi hmpi => ?_, fun dict tree h => ?_⟩
  · have hloc : (Encoder.Encoder world_size ([] : List T) false : Except Failure (Encoder T W))
        = .error .out_of_range := rfl
    cases mpi with
    | false => exact hloc
    | true => rw [Encoder_mpi_of_lt world_size [] (hmpi rfl) (by simp)]; exact hloc
  · have hne : dict ≠ [] := by
      intro h0
      rw [h0, Tree_empty] at h
      cases h
    obtain ⟨root, nodes, hok, _⟩ := Tree_spec dict hne
    rw [hok] at h
    have ht := Except.ok.inj h
    subst ht
    refine ⟨⟨root, rfl⟩, ⟨_, traverse_root root nodes⟩, ?_⟩
    rw [traverse_root]
    intro h'
    cases h'

/-- Witness of C27: the tree of the table `{65: 1, 66: 2}`. -/
theorem C27_empty_table_fails_witness :
    (∃ root, (⟨some (.inner 3 (.leaf 65 1) (.leaf 66 2)),
        [.leaf 65 1, .leaf 66 2, .inner 3 (.leaf 65 1) (.leaf 66 2)]⟩
          : Huffman.Tree Byte Nat).root = some root) ∧
      (∃ table, (⟨some (.inner 3 (.leaf 65 1) (.leaf 66 2)),
        [.leaf 65 1, .leaf 66 2, .inner 3 (.leaf 65 1) (.leaf 66 2)]⟩
          : Huffman.Tree Byte Nat).traverse = .ok table) ∧
      (⟨some (.inner 3 (.leaf 65 1) (.leaf 66 2)),
        [.leaf 65 1, .leaf 66 2, .inner 3 (.leaf 65 1) (.leaf 66 2)]⟩
          : Huffman.Tree Byte Nat).traverse ≠ .error .invalid_argument :=
  (C27_empty_table_fails (T := Byte) (W := Nat)).2.2 [(65, 1), (66, 2)] _ (by decide)

end ClaimsLayout

end HuffmanMPI

namespace HuffmanMPI

section ClaimsOptimal

open Heap Huffman

variable {T W : Type} [LinearOrder T] [LinearOrderedField W]

/-- C28. Optimality of the constructed code, with exact weights (a linearly ordered
field, such as `ℚ`): for every non-empty frequency table (a `std::map`) with weights
that are not negative, in particular for every table with at least two symbols and
positive weights, the constructor of `Tree` succeeds, `traverse` returns a code table,
the code of that table is free of prefixes on the table, its expected length (the sum
of weight times code length, which is what `Encoder::price` returns) is at most the
expected length of every code that is free of prefixes on the table. -/
theorem C28_huffman_optimal (dict : Map T W) (hwf : dict.WF) (hne : dict ≠ [])
    (hnn : ∀ e ∈ dict, 0 ≤ e.2) :
    ∃ (tree : Huffman.Tree T W) (table : Map T (List Bool)),
      Tree.Tree dict = .ok tree ∧ tree.traverse = .ok table ∧
      (∀ data : List T, Encoder.price (⟨dict, data, tree⟩ : Encoder T W)
        = .ok (expectedLength dict (fun s => (table.find s).getD []))) ∧
      PrefixFree dict (fun s => (table.find s).getD []) ∧
      ∀ code : T → List Bool, PrefixFree dict code →
        expectedLength dict (fun s => (table.find s).getD []) ≤ expectedLength dict code := by
  obtain ⟨root, nodes, hok, hperm, _⟩ := Tree_spec dict hne
  have hkeys : (root.leaves.map Prod.fst).Perm (dict.map Prod.fst) := hperm.map _
  have hnd : (root.leaves.map Prod.fst).Nodup := by
    rw [hkeys.nodup_iff]
    unfold Map.WF at hwf
    exact (List.pairwise_map.mpr hwf : (dict.map Prod.fst).Sorted (· < ·)).nodup
  refine ⟨_, _, hok, traverse_root root nodes, fun data => price_eq dict hwf data root nodes hperm,
    ?_, fun code hpf => Tree_optimal dict hwf hne hnn root nodes hok code hpf⟩
  intro e₁ h₁ e₂ h₂ hs
  have hfind : ∀ e ∈ dict,
      (root.paths.foldl (fun res e => Map.set res e.1 e.2) ([] : Map T (List Bool))).find e.1
        = some (codeOf root e.1) := fun e he =>
    (table_find_iff root hnd _ _).mpr (codeOf_mem_paths root hnd _
      (hkeys.mem_iff.mpr (List.mem_map.mpr ⟨e, he, rfl⟩)))
  have := paths_prefix_free root e₁.1 e₂.1 _ _ hs (hfind e₁ h₁) (hfind e₂ h₂)
  simp only [hfind e₁ h₁, hfind e₂ h₂, Option.getD_some]
  exact this

/-- Witness of C28: the table `{65: 4, 66: 2, 67: 1, 68: 1}` with weights in `ℚ`. -/
theorem C28_huffman_optimal_witness :
    ∃ (tree : Huffman.Tree Byte ℚ) (table : Map Byte (List Bool)),
      Tree.Tree ([(65, 4), (66, 2), (67, 1), (68, 1)] : Map Byte ℚ) = .ok tree ∧
      tree.traverse = .ok table ∧
      (∀ data : List Byte,
        Encoder.price (⟨[(65, 4), (66, 2), (67, 1), (68, 1)], data, tree⟩ : Encoder Byte ℚ)
          = .ok (expectedLength ([(65, 4), (66, 2), (67, 1), (68, 1)] : Map Byte ℚ)
              (fun s => (table.find s).getD []))) ∧
      PrefixFree ([(65, 4), (66, 2), (67, 1), (68, 1)] : Map Byte ℚ)
        (fun s => (table.find s).getD []) ∧
      ∀ code : Byte → List Bool,
        PrefixFree ([(65, 4), (66, 2), (67, 1), (68, 1)] : Map Byte ℚ) code →
        expectedLength ([(65, 4), (66, 2), (67, 1), (68, 1)] : Map Byte ℚ)
            (fun s => (table.find s).getD [])
          ≤ expectedLength ([(65, 4), (66, 2), (67, 1), (68, 1)] : Map Byte ℚ) code :=
  C28_huffman_optimal ([(65, 4), (66, 2), (67, 1), (68, 1)] : Map Byte ℚ)
    (by unfold Map.WF; decide) (by simp) (by simp)

end ClaimsOptimal

end HuffmanMPI
